import Mathlib

/-!
# Venie-connect: tile, board and loop-feasibility solver

A shallow embedding of `src/js/tile.js`, `src/js/board.js` and `src/js/solver.js`, in three
layers. In the first a tile is a value, the operations pass boards along, and a coordinate plus
an offset is the exact integer sum; this is the layer most statements are about. In the second
(`Heap`) tiles, maps and boards are objects in a heap, as in the source, where a grid holds
references to tiles that `clone()` shares and `solve` rotates in place; `Heap.solve_simulates`
shows that the two layers compute the same. In the third (`F64`) the sums are those of the
source, rounded to the nearest double; `F64.isValidPlacement_of_safe`, `F64.hasOpenEnds_of_safe`,
`F64.getOpenSpots_of_safe` and `F64.solve_of_safe` show that it computes what the first layer
computes while coordinates stay below `2^53` in size, and the statements about adjacency, open
ends and bounds, which fail beyond, are made in it.

Conventions of the embedding.

* JavaScript numbers that hold integers are `Int`; the remainder operator `%` truncates towards
  zero, so it is `Int.tmod`. A JavaScript number is a double: the sums `x + dx` of the first
  layer are exact, those of the layer `F64` are rounded (`F64.add`).
* A `Tile` object is the record of its two fields.
* The `Map` behind `Board.grid` is an association list in insertion order, keyed by the
  coordinate pair (the source keys by the string `x,y` and parses it back with
  `split(',').map(Number)`, which is a bijection on integer pairs).
* A JavaScript exception (reading `.dx` of `undefined` when a direction is outside `0..3`) is
  the `none` of an `Option` result.
-/

namespace VenieConnect

/-! ## `tile.js` -/

/-- Values of the `type` field of a tile: `CONSTANTS.TILE_STRAIGHT`, `CONSTANTS.TILE_CURVE`, and
anything else (for which `getConnections` falls through to `return []`). -/
inductive TileType where
  | STRAIGHT
  | CURVE
  | OTHER
  deriving DecidableEq, Repr

/-- A `Tile` object: its `type` and `rotation` fields. -/
structure Tile where
  type : TileType
  rotation : Int
  deriving DecidableEq, Repr

namespace Tile

/-- The constructor `new Tile(type)`: rotation starts at 0. -/
def new (type : TileType) : Tile := ⟨type, 0⟩

/-- The method `rotate()`: `this.rotation = (this.rotation + 1) % 4`. -/
def rotate (t : Tile) : Tile := { t with rotation := Int.tmod (t.rotation + 1) 4 }

/-- The method `setRotation(r)`: `this.rotation = r % 4`. -/
def setRotation (t : Tile) (r : Int) : Tile := { t with rotation := Int.tmod r 4 }

/-- The method `getConnections()`: the array of directions the tile connects to. -/
def getConnections (t : Tile) : List Int :=
  match t.type with
  | .STRAIGHT => if Int.tmod t.rotation 2 = 0 then [0, 2] else [1, 3]
  | .CURVE => [1, 2].map (fun d => Int.tmod (d + t.rotation) 4)
  | .OTHER => []

end Tile

/-! ## `board.js` -/

/-- A grid coordinate `(x, y)`. -/
abbrev Coord := Int × Int

/-- The contents of a `Map` from coordinates to tiles, in insertion order. -/
abbrev Grid := List (Coord × Tile)

namespace Grid

/-- The lookup `Map.get(key)`; `none` is `undefined`. -/
def get : Grid → Coord → Option Tile
  | [], _ => none
  | (k, t) :: rest, p => if k = p then some t else get rest p

/-- The update `Map.set(key, value)`: an existing key keeps its position, a new key goes last. -/
def set : Grid → Coord → Tile → Grid
  | [], p, t => [(p, t)]
  | (k, u) :: rest, p, t => if k = p then (k, t) :: rest else (k, u) :: set rest p t

/-- The removal `Map.delete(key)`. -/
def delete : Grid → Coord → Grid
  | [], _ => []
  | (k, u) :: rest, p => if k = p then delete rest p else (k, u) :: delete rest p

end Grid

/-- A `Board` object: the grid and the four bounds fields. -/
structure Board where
  grid : Grid
  minX : Int
  maxX : Int
  minY : Int
  maxY : Int
  deriving DecidableEq, Repr

/-- The table `offsets` of `board.js` and `solver.js`, each row with its index:
`(dir, dx, dy)`. -/
def offsets : List (Int × Int × Int) := [(0, 0, -1), (1, 1, 0), (2, 0, 1), (3, -1, 0)]

/-- The read `offsets[dir]`: `none` when it is `undefined`. -/
def offsetAt (dir : Int) : Option (Int × Int) :=
  (offsets.find? (fun row => row.1 = dir)).map (fun row => row.2)

namespace Board

/-- The constructor `new Board()`. -/
def new : Board := ⟨[], 0, 0, 0, 0⟩

/-- The method `getTile(x, y)`. -/
def getTile (b : Board) (x y : Int) : Option Tile := Grid.get b.grid (x, y)

/-- The method `updateBounds(x, y)`. -/
def updateBounds (b : Board) (x y : Int) : Board :=
  { b with minX := min b.minX x, maxX := max b.maxX x, minY := min b.minY y, maxY := max b.maxY y }

/-- The method `placeTile(x, y, tile)`. -/
def placeTile (b : Board) (x y : Int) (tile : Tile) : Board :=
  updateBounds { b with grid := Grid.set b.grid (x, y) tile } x y

/-- The method `removeTile(x, y)`. -/
def removeTile (b : Board) (x y : Int) : Board :=
  { b with grid := Grid.delete b.grid (x, y) }

/-- The method `getNeighbors(x, y)`: the tiles at the four adjacent cells, absent ones skipped.
The sums are exact; `F64.getNeighbors` has them rounded as in the source. -/
def getNeighbors (b : Board) (x y : Int) : List Tile :=
  [((0 : Int), (-1 : Int)), (1, 0), (0, 1), (-1, 0)].filterMap
    (fun d => b.getTile (x + d.1) (y + d.2))

/-- One iteration of the direction loop of `isValidPlacement`: `false` when the iteration
executes `return false`. The sums are exact; `F64.edgeMatches` has them rounded. -/
def edgeMatches (b : Board) (x y : Int) (myConns : List Int) (row : Int × Int × Int) : Bool :=
  match b.getTile (x + row.2.1) (y + row.2.2) with
  | none => true
  | some neighbor =>
    let neighborConns := neighbor.getConnections
    let myHasConn := myConns.contains row.1
    let neighborOppositeDir := Int.tmod (row.1 + 2) 4
    let neighborHasConn := neighborConns.contains neighborOppositeDir
    myHasConn == neighborHasConn

/-- The method `isValidPlacement(x, y, tile)`, with exact sums: what the source computes at
coordinates `-2^53 < x, y < 2^53` (`F64.isValidPlacement_of_safe`). `F64.isValidPlacement` is
the method at every coordinate. -/
def isValidPlacement (b : Board) (x y : Int) (tile : Tile) : Bool :=
  if (b.getTile x y).isSome then false
  else
    let neighbors := b.getNeighbors x y
    if b.grid.length > 0 ∧ neighbors.length = 0 then false
    else
      let myConns := tile.getConnections
      offsets.all (fun row => b.edgeMatches x y myConns row)

/-- The method `clone()`: a new board with a copy of the map and the same bounds. -/
def clone (b : Board) : Board :=
  let newBoard := Board.new
  let newBoard := { newBoard with grid := b.grid }
  let newBoard := { newBoard with minX := b.minX }
  let newBoard := { newBoard with maxX := b.maxX }
  let newBoard := { newBoard with minY := b.minY }
  { newBoard with maxY := b.maxY }

/-- The inner loop of `hasOpenEnds` over the connections of the tile at `(x, y)`:
`some true` when it executes `return true`, `some false` when it runs to its end, `none` when
`offsets[dir]` is `undefined` and the read of `.dx` throws. The sums are exact;
`F64.scanConns` has them rounded. -/
def scanConns (b : Board) (x y : Int) : List Int → Option Bool
  | [] => some false
  | dir :: rest =>
    match offsetAt dir with
    | none => none
    | some (dx, dy) =>
      if (b.getTile (x + dx) (y + dy)).isNone then some true else scanConns b x y rest

/-- The outer loop of `hasOpenEnds` over the entries of the grid. -/
def scanTiles (b : Board) : Grid → Option Bool
  | [] => some false
  | ((x, y), tile) :: rest =>
    match scanConns b x y tile.getConnections with
    | none => none
    | some true => some true
    | some false => scanTiles b rest

/-- The method `hasOpenEnds()`, with exact sums: what the source computes on a board whose
coordinates are all within `-2^53 < x, y < 2^53` (`F64.hasOpenEnds_of_safe`).
`F64.hasOpenEnds` is the method on every board. -/
def hasOpenEnds (b : Board) : Option Bool :=
  if b.grid.length = 0 then some true else scanTiles b b.grid

end Board

/-! ## `solver.js` -/

namespace Solver

/-- The call `spots.add(key)` on the `Set` of `getOpenSpots`: a key already present keeps its
place, a new key goes last. -/
def addSpot (spots : List Coord) (p : Coord) : List Coord :=
  if p ∈ spots then spots else spots ++ [p]

/-- The inner loop of `getOpenSpots` over the connections of the tile at `(x, y)`; `none` when
the read of `offsets[dir].dx` throws. The sums are exact; `F64.spotsOfConns` has them
rounded. -/
def spotsOfConns (b : Board) (x y : Int) : List Int → List Coord → Option (List Coord)
  | [], spots => some spots
  | dir :: rest, spots =>
    match offsetAt dir with
    | none => none
    | some (dx, dy) =>
      let nx := x + dx
      let ny := y + dy
      if (b.getTile nx ny).isNone then spotsOfConns b x y rest (addSpot spots (nx, ny))
      else spotsOfConns b x y rest spots

/-- The outer loop of `getOpenSpots` over the entries of the grid. -/
def spotsOfTiles (b : Board) : Grid → List Coord → Option (List Coord)
  | [], spots => some spots
  | ((x, y), tile) :: rest, spots =>
    match spotsOfConns b x y tile.getConnections spots with
    | none => none
    | some spots' => spotsOfTiles b rest spots'

/-- The static method `Solver.getOpenSpots(board)`, with exact sums: what the source computes
on a board whose coordinates are all within `-2^53 < x, y < 2^53`
(`F64.getOpenSpots_of_safe`). `F64.getOpenSpots` is the method on every board. -/
def getOpenSpots (b : Board) : Option (List Coord) := spotsOfTiles b b.grid []

/-- A rotation loop of `Solver.solve`, `for (r ...) { tile.setRotation(r); if (valid) { place;
if (solve(...)) return true; remove } }`, over the rotations still to try. The recursive call is
`recur`. The result is `some (true, b)` when the loop executes `return true` with the working
board in state `b`, `some (false, b)` when the loop ends with the working board in state `b`,
and `none` when the recursive call throws. -/
def tryRotations (recur : Board → Option (Bool × Board)) (x y : Int) :
    List Int → Tile → Board → Option (Bool × Board)
  | [], _, b => some (false, b)
  | r :: rs, tile, b =>
    let tile := tile.setRotation r
    if b.isValidPlacement x y tile then
      match recur (b.placeTile x y tile) with
      | none => none
      | some (true, b') => some (true, b')
      | some (false, b') => tryRotations recur x y rs tile (b'.removeTile x y)
    else tryRotations recur x y rs tile b

/-- The body of `Solver.solve(board, straights, curves)`, with its recursive calls made through
`recur`. The result pairs the returned boolean with the final state of the working board. -/
def solveBody (recur : Board → Nat → Nat → Option (Bool × Board))
    (b : Board) (straights curves : Nat) : Option (Bool × Board) :=
  match b.hasOpenEnds with
  | none => none
  | some false => some (true, b)
  | some true =>
    if straights = 0 ∧ curves = 0 then some (false, b)
    else
      match getOpenSpots b with
      | none => none
      | some [] => some (false, b)
      | some ((x, y) :: _) =>
        let afterStraights :=
          if straights > 0 then
            tryRotations (fun b' => recur b' (straights - 1) curves) x y [0, 1]
              (Tile.new .STRAIGHT) b
          else some (false, b)
        match afterStraights with
        | none => none
        | some (true, b') => some (true, b')
        | some (false, b') =>
          if curves > 0 then
            tryRotations (fun b'' => recur b'' straights (curves - 1)) x y [0, 1, 2, 3]
              (Tile.new .CURVE) b'
          else some (false, b')

/-- The recursion of `Solver.solve` unrolled `fuel` levels deep. -/
def solveFuel : Nat → Board → Nat → Nat → Option (Bool × Board)
  | 0 => solveBody (fun _ _ _ => none)
  | fuel + 1 => solveBody (solveFuel fuel)

/-- The static method `Solver.solve(board, straights, curves)`. Every recursive call lowers
`straights + curves` by one, so that many levels are all the recursion can use
(`solve_eq_solveBody`). Its board methods are those with exact sums; `F64.solve` runs on the
rounded ones and is the same search while the board stays within the safe integers
(`F64.solve_of_safe`). -/
def solve (b : Board) (straights curves : Nat) : Option (Bool × Board) :=
  solveFuel (straights + curves) b straights curves

/-- The static method `Solver.isPossible(board, straights, curves)`. -/
def isPossible (board : Board) (straights curves : Nat) : Option Bool :=
  let workingBoard := board.clone
  (solve workingBoard straights curves).map (fun r => r.1)

end Solver

/-! ## Vocabulary of the specification -/

namespace Board

/-- The tile in the cell next to `(x, y)` in direction `dir`, if the direction has an offset and
the cell is occupied. -/
def neighborAt (b : Board) (x y : Int) (dir : Int) : Option Tile :=
  match offsetAt dir with
  | none => none
  | some (dx, dy) => b.getTile (x + dx) (y + dy)

/-- Invariant I2 (edge consistency): for every occupied cell and every direction `d` in `0..3`
with an occupied neighbour, `d` is a connection of the cell's tile iff `(d + 2) mod 4` is a
connection of the neighbour's tile. -/
def I2 (b : Board) : Prop :=
  ∀ x y t, b.getTile x y = some t → ∀ d : Int, 0 ≤ d → d < 4 → ∀ n, b.neighborAt x y d = some n →
    (d ∈ t.getConnections ↔ (d + 2) % 4 ∈ n.getConnections)

/-- Every connection of every tile points at an occupied neighbour cell whose tile has the
opposite connection. -/
def AllTerminated (b : Board) : Prop :=
  ∀ x y t, b.getTile x y = some t → ∀ d ∈ t.getConnections,
    ∃ n, b.neighborAt x y d = some n ∧ (d + 2) % 4 ∈ n.getConnections

/-- The boards reachable from the empty board by legal placements: each `placeTile` follows an
`isValidPlacement` that returned true on the board as it stood. -/
inductive Reachable : Board → Prop
  | new : Reachable Board.new
  | place (b : Board) (x y : Int) (t : Tile) :
      Reachable b → b.isValidPlacement x y t = true → Reachable (b.placeTile x y t)

end Board

/-- One placement: a coordinate and the tile put there. -/
structure Placement where
  x : Int
  y : Int
  tile : Tile
  deriving DecidableEq, Repr

namespace Board

/-- Whether each placement of the sequence passes `isValidPlacement` on the board as it stands
when its turn comes. -/
def legalSeq : Board → List Placement → Bool
  | _, [] => true
  | b, p :: ps => b.isValidPlacement p.x p.y p.tile && legalSeq (b.placeTile p.x p.y p.tile) ps

/-- The board after the placements of the sequence, in order. -/
def applySeq : Board → List Placement → Board
  | b, [] => b
  | b, p :: ps => applySeq (b.placeTile p.x p.y p.tile) ps

end Board

/-- How many tiles of the given kind a sequence of placements uses. -/
def countKind (k : TileType) (ps : List Placement) : Nat :=
  (ps.filter (fun p => p.tile.type = k)).length

namespace Solver

/-- What a recursive call must satisfy for the loops around it to restore the grid: a call that
returns false leaves the grid as it found it. -/
def RestoresGrid (recur : Board → Option (Bool × Board)) : Prop :=
  ∀ b1 b2, recur b1 = some (false, b2) → b2.grid = b1.grid

end Solver

namespace Solver

/-- What a true result promises: a sequence of legal placements from the board given, within the
inventory given, whose grid is that of the returned board, on which no open end is left. -/
def SoundResult (b : Board) (s c : Nat) (b' : Board) : Prop :=
  ∃ ps : List Placement, b.legalSeq ps = true ∧ (b.applySeq ps).grid = b'.grid
    ∧ b'.hasOpenEnds = some false
    ∧ countKind .STRAIGHT ps ≤ s ∧ countKind .CURVE ps ≤ c ∧ ps.length ≤ s + c

end Solver

/-- A tile all of whose connections are directions, that is, have a row in `offsets`. This is so
for every Straight tile and for every tile whose rotation is in `0..3`
(`Tile.dirsOK_of_rotation`). -/
def Tile.DirsOK (t : Tile) : Prop :=
  ∀ d ∈ t.getConnections, (offsetAt d).isSome = true

instance (t : Tile) : Decidable t.DirsOK :=
  inferInstanceAs (Decidable (∀ d ∈ t.getConnections, (offsetAt d).isSome = true))

/-- A board on which every tile's connections are directions. -/
def Board.DirsOK (b : Board) : Prop :=
  ∀ e ∈ b.grid, e.2.DirsOK

instance (b : Board) : Decidable b.DirsOK :=
  inferInstanceAs (Decidable (∀ e ∈ b.grid, e.2.DirsOK))

/-- The board of the test 'Basic Loop Check' of `test_solver.mjs`: three corners of a 2x2
loop. -/
def basicLoopBoard : Board :=
  ((Board.new.placeTile 0 0 ((Tile.new .CURVE).setRotation 0)).placeTile 1 0
    ((Tile.new .CURVE).setRotation 1)).placeTile 1 1 ((Tile.new .CURVE).setRotation 2)

/-- The board of the test 'Impossible Scene' of `test_solver.mjs`: two vertical Straights with a
gap between them. -/
def impossibleSceneBoard : Board :=
  (Board.new.placeTile 0 0 ((Tile.new .STRAIGHT).setRotation 0)).placeTile 0 2
    ((Tile.new .STRAIGHT).setRotation 0)

namespace Solver

/-- A recursive call that returns (does not throw) on every board whose connections are
directions, and hands back such a board. -/
def Returns (recur : Board → Option (Bool × Board)) : Prop :=
  ∀ b : Board, b.DirsOK → ∃ ok b', recur b = some (ok, b') ∧ b'.DirsOK

end Solver

/-- The cell `(x, y)` is pointed at by a connection of some tile on the board: it is the cell
next to that tile in the direction of the connection. -/
def Board.PointedAt (b : Board) (x y : Int) : Prop :=
  ∃ e ∈ b.grid, ∃ d ∈ e.2.getConnections, ∃ o, offsetAt d = some o
    ∧ (e.1.1 + o.1, e.1.2 + o.2) = (x, y)

/-! ## The same code over an object heap

Above, a tile is a value, and storing it in a grid copies it. In the source a grid holds
references to `Tile` objects, `clone()` shares them between the two boards, and `solve` rotates
one `Tile` object in place between trials. The definitions below keep `Tile`, `Map` and `Board`
objects in a heap, by address, and run the same code on it. -/

/-- The fields of a `Board` object: the address of its `Map` and the four bounds. -/
structure BoardObj where
  grid : Nat
  minX : Int
  maxX : Int
  minY : Int
  maxY : Int
  deriving DecidableEq, Repr

/-- The object heap: `Tile` objects, `Map` objects (their entries hold addresses of tiles) and
`Board` objects, each kind with the next free address. -/
structure Heap where
  tile : Nat → Tile
  nextTile : Nat
  map : Nat → List (Coord × Nat)
  nextMap : Nat
  board : Nat → BoardObj
  nextBoard : Nat

namespace Heap

/-- A heap with no object allocated. -/
def empty : Heap :=
  ⟨fun _ => Tile.new .OTHER, 0, fun _ => [], 0, fun _ => ⟨0, 0, 0, 0, 0⟩, 0⟩

/-- The allocation `new Tile(type)`: the address of the new object and the heap with it. -/
def newTile (h : Heap) (type : TileType) : Nat × Heap :=
  (h.nextTile,
    { h with tile := Function.update h.tile h.nextTile (Tile.new type),
             nextTile := h.nextTile + 1 })

/-- The call `tile.setRotation(r)` on the tile object at address `tile`. -/
def setRotation (h : Heap) (tile : Nat) (r : Int) : Heap :=
  { h with tile := Function.update h.tile tile ((h.tile tile).setRotation r) }

/-- The update `Map.set(key, value)` on the entries of a map of tile addresses. -/
def mapSet : List (Coord × Nat) → Coord → Nat → List (Coord × Nat)
  | [], p, t => [(p, t)]
  | (k, u) :: rest, p, t => if k = p then (k, t) :: rest else (k, u) :: mapSet rest p t

/-- The removal `Map.delete(key)` on the entries of a map of tile addresses. -/
def mapDelete : List (Coord × Nat) → Coord → List (Coord × Nat)
  | [], _ => []
  | (k, u) :: rest, p => if k = p then mapDelete rest p else (k, u) :: mapDelete rest p

/-- The allocation `new Board()`: a new empty `Map` and a new `Board` holding it. -/
def newBoard (h : Heap) : Nat × Heap :=
  (h.nextBoard,
    { h with map := Function.update h.map h.nextMap [],
             nextMap := h.nextMap + 1,
             board := Function.update h.board h.nextBoard ⟨h.nextMap, 0, 0, 0, 0⟩,
             nextBoard := h.nextBoard + 1 })

/-- The call `board.placeTile(x, y, tile)` on the board object at address `board`: the entry is
set in the board's map, then `updateBounds` rewrites the four bounds fields. -/
def placeTile (h : Heap) (board : Nat) (x y : Int) (tile : Nat) : Heap :=
  let o := h.board board
  { h with map := Function.update h.map o.grid (mapSet (h.map o.grid) (x, y) tile),
           board := Function.update h.board board
             { o with minX := min o.minX x, maxX := max o.maxX x,
                      minY := min o.minY y, maxY := max o.maxY y } }

/-- The call `board.removeTile(x, y)` on the board object at address `board`. -/
def removeTile (h : Heap) (board : Nat) (x y : Int) : Heap :=
  let o := h.board board
  { h with map := Function.update h.map o.grid (mapDelete (h.map o.grid) (x, y)) }

/-- The call `board.clone()`: `new Board()`, then its `grid` field is set to a new `Map` with
the entries of the original's map (the same tile addresses), and its bounds to the
original's. -/
def clone (h : Heap) (board : Nat) : Nat × Heap :=
  let o := h.board board
  let (newBoard, h1) := h.newBoard
  let copy := h1.nextMap
  (newBoard,
    { h1 with map := Function.update h1.map copy (h1.map o.grid),
              nextMap := h1.nextMap + 1,
              board := Function.update h1.board newBoard ⟨copy, o.minX, o.maxX, o.minY, o.maxY⟩ })

/-- What the board object at address `board` holds, read through the heap: the grid of tile
values and the bounds. The queries `getTile`, `isValidPlacement`, `hasOpenEnds` and
`getOpenSpots` read the board and change nothing, so they are the functions above applied to
this. -/
def view (h : Heap) (board : Nat) : Board :=
  let o := h.board board
  ⟨(h.map o.grid).map (fun e => (e.1, h.tile e.2)), o.minX, o.maxX, o.minY, o.maxY⟩

/-- A rotation loop of `Solver.solve` on the heap; `tile` is the address of the loop's `Tile`
object and `board` that of the working board. -/
def tryRotations (recur : Heap → Option (Bool × Heap)) (board : Nat) (x y : Int) (tile : Nat) :
    List Int → Heap → Option (Bool × Heap)
  | [], h => some (false, h)
  | r :: rs, h =>
    let h := h.setRotation tile r
    if (h.view board).isValidPlacement x y (h.tile tile) then
      match recur (h.placeTile board x y tile) with
      | none => none
      | some (true, h') => some (true, h')
      | some (false, h') => tryRotations recur board x y tile rs (h'.removeTile board x y)
    else tryRotations recur board x y tile rs h

/-- The body of `Solver.solve(board, straights, curves)` on the heap. -/
def solveBody (recur : Heap → Nat → Nat → Nat → Option (Bool × Heap))
    (h : Heap) (board : Nat) (straights curves : Nat) : Option (Bool × Heap) :=
  match (h.view board).hasOpenEnds with
  | none => none
  | some false => some (true, h)
  | some true =>
    if straights = 0 ∧ curves = 0 then some (false, h)
    else
      match Solver.getOpenSpots (h.view board) with
      | none => none
      | some [] => some (false, h)
      | some ((x, y) :: _) =>
        let afterStraights :=
          if straights > 0 then
            let (tile, h1) := h.newTile .STRAIGHT
            tryRotations (fun h' => recur h' board (straights - 1) curves) board x y tile
              [0, 1] h1
          else some (false, h)
        match afterStraights with
        | none => none
        | some (true, h') => some (true, h')
        | some (false, h') =>
          if curves > 0 then
            let (tile, h2) := h'.newTile .CURVE
            tryRotations (fun h'' => recur h'' board straights (curves - 1)) board x y tile
              [0, 1, 2, 3] h2
          else some (false, h')

/-- The recursion of `Solver.solve` on the heap, unrolled `fuel` levels deep. -/
def solveFuel : Nat → Heap → Nat → Nat → Nat → Option (Bool × Heap)
  | 0 => solveBody (fun _ _ _ _ => none)
  | fuel + 1 => solveBody (solveFuel fuel)

/-- The static method `Solver.solve(board, straights, curves)` on the heap. -/
def solve (h : Heap) (board : Nat) (straights curves : Nat) : Option (Bool × Heap) :=
  solveFuel (straights + curves) h board straights curves

/-- The static method `Solver.isPossible(board, straights, curves)` on the heap: the returned
boolean and the heap the call leaves behind. -/
def isPossible (h : Heap) (board : Nat) (straights curves : Nat) : Option (Bool × Heap) :=
  let (workingBoard, h1) := h.clone board
  h1.solve workingBoard straights curves

/-- What a call working on the board at address `w` may change, seen from a heap `h` with the
tiles below address `n` already allocated: it leaves those tiles, the maps other than the map of
`w`, and the boards other than `w` as they were, and allocates tiles only. -/
def Frame (w n : Nat) (h h' : Heap) : Prop :=
  (∀ p, p < n → h'.tile p = h.tile p)
  ∧ h.nextTile ≤ h'.nextTile
  ∧ (∀ m, m ≠ (h.board w).grid → h'.map m = h.map m)
  ∧ (∀ a, a ≠ w → h'.board a = h.board a)
  ∧ (h'.board w).grid = (h.board w).grid

/-- The heap after the set-up of the test 'Basic Loop Check': board 0 with three Curves. -/
def basicLoop : Heap :=
  let (board, h) := Heap.empty.newBoard
  let (tl, h) := h.newTile .CURVE
  let h := h.setRotation tl 0
  let h := h.placeTile board 0 0 tl
  let (tr, h) := h.newTile .CURVE
  let h := h.setRotation tr 1
  let h := h.placeTile board 1 0 tr
  let (br, h) := h.newTile .CURVE
  let h := h.setRotation br 2
  h.placeTile board 1 1 br

end Heap

namespace Heap

/-- Every tile address in the map of board `w` is allocated. -/
def Allocated (h : Heap) (w : Nat) : Prop :=
  ∀ e ∈ h.map (h.board w).grid, e.2 < h.nextTile

/-- The outcome `resH` of a call on the heap, started on `h` and working on board `w`, agrees
with the outcome `resV` of the same call on board values: both throw, or both return the same
boolean and board `w` reads at the end as the board returned; the heap call stays within its
frame (tiles below address `n` untouched), keeps the tile addresses of `w` allocated, and on
false restores the map of `w`. -/
def Agree (w n : Nat) (h : Heap) (resH : Option (Bool × Heap)) (resV : Option (Bool × Board)) :
    Prop :=
  match resH with
  | none => resV = none
  | some (ok, h') =>
    resV = some (ok, h'.view w) ∧ Frame w n h h' ∧ Allocated h' w
      ∧ (ok = false → h'.map (h.board w).grid = h.map (h.board w).grid)

/-- The call `callH` on the heap does what the call `callV` does on board values, from every
heap on which the tile addresses of board `w` are allocated. -/
def Simulates (w : Nat) (callH : Heap → Option (Bool × Heap))
    (callV : Board → Option (Bool × Board)) : Prop :=
  ∀ h : Heap, Allocated h w → Agree w h.nextTile h (callH h) (callV (h.view w))

end Heap

/-- A tile of the inventory: a Straight or a Curve, in one of the rotations `0..3`. -/
def Tile.InHand (t : Tile) : Prop :=
  (t.type = .STRAIGHT ∨ t.type = .CURVE) ∧ 0 ≤ t.rotation ∧ t.rotation < 4

instance (t : Tile) : Decidable t.InHand :=
  inferInstanceAs (Decidable ((t.type = .STRAIGHT ∨ t.type = .CURVE) ∧ 0 ≤ t.rotation
    ∧ t.rotation < 4))

/-- The grid entry a placement makes. -/
def Placement.entry (p : Placement) : Coord × Tile := ((p.x, p.y), p.tile)

namespace Board

/-- The board with the entries of the placements added after its own, whatever their
legality. -/
def extend (b : Board) (ps : List Placement) : Board :=
  { b with grid := b.grid ++ ps.map Placement.entry }

/-- Every connection of every tile points at an occupied cell. -/
def AllPointed (u : Board) : Prop :=
  ∀ x y t, u.getTile x y = some t → ∀ d ∈ t.getConnections, (u.neighborAt x y d).isSome = true

/-- Edge consistency of the tiles `u` has on cells that are free in `b`: each agrees with every
neighbour it has in `u`. -/
def NewConsistent (b u : Board) : Prop :=
  ∀ x y t, u.getTile x y = some t → b.getTile x y = none →
    ∀ d : Int, 0 ≤ d → d < 4 → ∀ n, u.neighborAt x y d = some n →
      (d ∈ t.getConnections ↔ (d + 2) % 4 ∈ n.getConnections)

end Board

/-- Whether the placement is on a cell other than `k`. -/
def Placement.notAt (k : Coord) (p : Placement) : Bool := decide ((p.x, p.y) ≠ k)

/-! ## Sequences of board calls -/

/-- A call that changes a board: `placeTile(x, y, tile)` or `removeTile(x, y)`. -/
inductive BoardOp where
  | place (x y : Int) (tile : Tile)
  | remove (x y : Int)
  deriving DecidableEq, Repr

namespace Board

/-- The board after one call. -/
def step (b : Board) : BoardOp → Board
  | .place x y tile => b.placeTile x y tile
  | .remove x y => b.removeTile x y

/-- The board after the calls of the list, in order. -/
def run : Board → List BoardOp → Board
  | b, [] => b
  | b, op :: ops => run (b.step op) ops

/-- The coordinates passed to `placeTile` in a list of calls. -/
def placedCoords : List BoardOp → List Coord
  | [] => []
  | .place x y _ :: ops => (x, y) :: placedCoords ops
  | .remove _ _ :: ops => placedCoords ops

end Board

namespace Board

/-- Every occupied coordinate lies within the four bounds. -/
def WithinBounds (b : Board) : Prop :=
  ∀ e ∈ b.grid, b.minX ≤ e.1.1 ∧ e.1.1 ≤ b.maxX ∧ b.minY ≤ e.1.2 ∧ e.1.2 ≤ b.maxY

end Board

/-! ## `game.js` and `cpu.js`: the scan for legal moves -/

/-- The values a loop `for (let v = lo; v <= hi; v++)` runs through when `v++` is exact, as it
is from `-2^53` to below `2^53` (`F64.forRange_of_safe`). -/
def intRange (lo hi : Int) : List Int :=
  (List.range (hi - lo + 1).toNat).map (fun (i : Nat) => lo + (i : Int))

namespace Game

/-- The method `Game.isValidTurnConstraint(x, y)`, given the field `movesInTurn`, with exact
differences; `F64.isValidTurnConstraint` has them rounded. -/
def isValidTurnConstraint (movesInTurn : List Coord) (x y : Int) : Bool :=
  if movesInTurn.length = 0 then true
  else if movesInTurn.length ≥ 3 then false
  else
    match movesInTurn.getLast? with
    | none => true
    | some last =>
      let dx := |x - last.1|
      let dy := |y - last.2|
      let dist := dx + dy
      if dist ≠ 1 then false
      else if movesInTurn.length = 1 then true
      else if movesInTurn.length = 2 then
        match movesInTurn with
        | first :: second :: _ =>
          let isVertical := decide (first.1 = second.1)
          let isHorizontal := decide (first.2 = second.2)
          if isVertical ∧ x = first.1 then true
          else if isHorizontal ∧ y = first.2 then true
          else false
        | _ => true
      else true

end Game

namespace CPU

/-- The method `CPU.getValidPlacements()`, given the game's board, current tile and
`movesInTurn`: the cells of the bounds padded by 1, row by row, that pass the board rules and
the turn rules. The arithmetic is exact; `F64.getValidPlacements` has it rounded. -/
def getValidPlacements (board : Board) (currentTile : Tile) (movesInTurn : List Coord) :
    List Coord :=
  let range := 1
  let minX := board.minX - range
  let maxX := board.maxX + range
  let minY := board.minY - range
  let maxY := board.maxY + range
  (intRange minY maxY).flatMap (fun y =>
    (intRange minX maxX).filterMap (fun x =>
      if board.isValidPlacement x y currentTile then
        if Game.isValidTurnConstraint movesInTurn x y then some (x, y) else none
      else none))

end CPU

namespace Solver

/-- The recursion of `Solver.solve` unrolled `depth` levels deep, with `stub` standing for the
calls below that depth. -/
def solveDepth (stub : Board → Nat → Nat → Option (Bool × Board)) :
    Nat → Board → Nat → Nat → Option (Bool × Board)
  | 0 => stub
  | depth + 1 => solveBody (solveDepth stub depth)

end Solver

/-! ## The solver with other rotation lists for Straight tiles -/

namespace Solver

/-- The body of `Solver.solve` with the Straight loop running over `rots` instead of `0, 1`:
`for (let r = 0; r < 4; r++)` is `rots = [0, 1, 2, 3]`. The Curve loop is unchanged. -/
def solveBodyWith (rots : List Int) (recur : Board → Nat → Nat → Option (Bool × Board))
    (b : Board) (straights curves : Nat) : Option (Bool × Board) :=
  match b.hasOpenEnds with
  | none => none
  | some false => some (true, b)
  | some true =>
    if straights = 0 ∧ curves = 0 then some (false, b)
    else
      match getOpenSpots b with
      | none => none
      | some [] => some (false, b)
      | some ((x, y) :: _) =>
        let afterStraights :=
          if straights > 0 then
            tryRotations (fun b' => recur b' (straights - 1) curves) x y rots
              (Tile.new .STRAIGHT) b
          else some (false, b)
        match afterStraights with
        | none => none
        | some (true, b') => some (true, b')
        | some (false, b') =>
          if curves > 0 then
            tryRotations (fun b'' => recur b'' straights (curves - 1)) x y [0, 1, 2, 3]
              (Tile.new .CURVE) b'
          else some (false, b')

/-- The recursion with Straight rotations `rots`, unrolled `fuel` levels deep. -/
def solveFuelWith (rots : List Int) : Nat → Board → Nat → Nat → Option (Bool × Board)
  | 0 => solveBodyWith rots (fun _ _ _ => none)
  | fuel + 1 => solveBodyWith rots (solveFuelWith rots fuel)

/-- The solver variant of the specification that tries all four rotations `0..3` for Straight
tiles, as it does for Curve tiles. -/
def solveAllRotations (b : Board) (straights curves : Nat) : Option (Bool × Board) :=
  solveFuelWith [0, 1, 2, 3] (straights + curves) b straights curves

/-- The variant of `isPossible` that runs `solveAllRotations` on the clone. -/
def isPossibleAllRotations (board : Board) (straights curves : Nat) : Option Bool :=
  let workingBoard := board.clone
  (solveAllRotations workingBoard straights curves).map (fun r => r.1)

end Solver

/-- What a grid looks like to the rules: each entry's coordinate and connections. -/
def Grid.shape (g : Grid) : List (Coord × List Int) :=
  g.map (fun e => (e.1, e.2.getConnections))

/-- Two boards with the same coordinates in the same order and, at each, tiles with the same
connections. -/
def Board.ConnEq (b1 b2 : Board) : Prop := Grid.shape b1.grid = Grid.shape b2.grid

/-- Two outcomes of a search that agree: both throw, or they return the same boolean and boards
that look the same to the rules. -/
def Solver.ResEq (r1 r2 : Option (Bool × Board)) : Prop :=
  match r1, r2 with
  | none, none => True
  | some (ok1, b1), some (ok2, b2) => ok1 = ok2 ∧ b1.ConnEq b2
  | _, _ => False

/-- A recursive call that answers alike on boards that look the same to the rules. -/
def Solver.Respects (r1 r2 : Board → Option (Bool × Board)) : Prop :=
  ∀ b1 b2 : Board, b1.ConnEq b2 → Solver.ResEq (r1 b1) (r2 b2)

/-! ## The same methods in double precision

The coordinates of the source are JavaScript numbers, that is, IEEE 754 doubles, and a sum
`x + dx` is rounded to the nearest double. The definitions above add exactly, which is what the
code computes while the sum stays within `-2^53 .. 2^53` (`F64.add_of_safe`). The definitions
below redo every method that adds to a coordinate with the rounded sum, for integer-valued
doubles of any size. -/

namespace F64

/-- The exponent of the spacing between doubles at magnitude `a`: the number of halvings that
bring `a` below `2^53`. The first argument bounds the number of halvings; `a` itself is
enough. -/
def ulpExp : Nat → Nat → Nat
  | 0, _ => 0
  | fuel + 1, a => if a < 2 ^ 53 then 0 else ulpExp fuel (a / 2) + 1

/-- The double nearest to the integer `n`, ties going to the even significand (the rounding
mode of JavaScript arithmetic). Below `2^53` in size every integer is a double; from there on
the doubles are the multiples of `2 ^ ulpExp`. -/
def round (n : Int) : Int :=
  let a := n.natAbs
  let e := ulpExp a a
  let q := a / 2 ^ e
  let r := a % 2 ^ e
  let up := decide (2 ^ e < 2 * r) || (decide (2 * r = 2 ^ e) && decide (q % 2 = 1))
  let m := (if up then q + 1 else q) * 2 ^ e
  if n < 0 then -(m : Int) else (m : Int)

/-- The sum `x + d` of two integer-valued doubles, as JavaScript computes it. -/
def add (x d : Int) : Int := round (x + d)

/-- The difference `x - d` of two integer-valued doubles, as JavaScript computes it. -/
def sub (x d : Int) : Int := round (x - d)

end F64

namespace F64

/-- The method `getNeighbors(x, y)`, its sums `x + dx` and `y + dy` in double precision. -/
def getNeighbors (b : Board) (x y : Int) : List Tile :=
  [((0 : Int), (-1 : Int)), (1, 0), (0, 1), (-1, 0)].filterMap
    (fun d => b.getTile (add x d.1) (add y d.2))

/-- One iteration of the direction loop of `isValidPlacement`, with
`nx = x + offsets[dir].dx` and `ny = y + offsets[dir].dy` in double precision. -/
def edgeMatches (b : Board) (x y : Int) (myConns : List Int) (row : Int × Int × Int) : Bool :=
  match b.getTile (add x row.2.1) (add y row.2.2) with
  | none => true
  | some neighbor =>
    let neighborConns := neighbor.getConnections
    let myHasConn := myConns.contains row.1
    let neighborOppositeDir := Int.tmod (row.1 + 2) 4
    let neighborHasConn := neighborConns.contains neighborOppositeDir
    myHasConn == neighborHasConn

/-- The method `isValidPlacement(x, y, tile)` in double precision. -/
def isValidPlacement (b : Board) (x y : Int) (tile : Tile) : Bool :=
  if (b.getTile x y).isSome then false
  else
    let neighbors := getNeighbors b x y
    if b.grid.length > 0 ∧ neighbors.length = 0 then false
    else
      let myConns := tile.getConnections
      offsets.all (fun row => edgeMatches b x y myConns row)

/-- The inner loop of `hasOpenEnds` in double precision. -/
def scanConns (b : Board) (x y : Int) : List Int → Option Bool
  | [] => some false
  | dir :: rest =>
    match offsetAt dir with
    | none => none
    | some (dx, dy) =>
      if (b.getTile (add x dx) (add y dy)).isNone then some true else scanConns b x y rest

/-- The outer loop of `hasOpenEnds` in double precision. -/
def scanTiles (b : Board) : Grid → Option Bool
  | [] => some false
  | ((x, y), tile) :: rest =>
    match scanConns b x y tile.getConnections with
    | none => none
    | some true => some true
    | some false => scanTiles b rest

/-- The method `hasOpenEnds()` in double precision. -/
def hasOpenEnds (b : Board) : Option Bool :=
  if b.grid.length = 0 then some true else scanTiles b b.grid

/-- The inner loop of `getOpenSpots` in double precision. -/
def spotsOfConns (b : Board) (x y : Int) : List Int → List Coord → Option (List Coord)
  | [], spots => some spots
  | dir :: rest, spots =>
    match offsetAt dir with
    | none => none
    | some (dx, dy) =>
      let nx := add x dx
      let ny := add y dy
      if (b.getTile nx ny).isNone then spotsOfConns b x y rest (Solver.addSpot spots (nx, ny))
      else spotsOfConns b x y rest spots

/-- The outer loop of `getOpenSpots` in double precision. -/
def spotsOfTiles (b : Board) : Grid → List Coord → Option (List Coord)
  | [], spots => some spots
  | ((x, y), tile) :: rest, spots =>
    match spotsOfConns b x y tile.getConnections spots with
    | none => none
    | some spots' => spotsOfTiles b rest spots'

/-- The static method `Solver.getOpenSpots(board)` in double precision. -/
def getOpenSpots (b : Board) : Option (List Coord) := spotsOfTiles b b.grid []

/-- A rotation loop of `Solver.solve` over the double-precision `isValidPlacement`. -/
def tryRotations (recur : Board → Option (Bool × Board)) (x y : Int) :
    List Int → Tile → Board → Option (Bool × Board)
  | [], _, b => some (false, b)
  | r :: rs, tile, b =>
    let tile := tile.setRotation r
    if isValidPlacement b x y tile then
      match recur (b.placeTile x y tile) with
      | none => none
      | some (true, b') => some (true, b')
      | some (false, b') => tryRotations recur x y rs tile (b'.removeTile x y)
    else tryRotations recur x y rs tile b

/-- The body of `Solver.solve(board, straights, curves)` over the double-precision methods. -/
def solveBody (recur : Board → Nat → Nat → Option (Bool × Board))
    (b : Board) (straights curves : Nat) : Option (Bool × Board) :=
  match hasOpenEnds b with
  | none => none
  | some false => some (true, b)
  | some true =>
    if straights = 0 ∧ curves = 0 then some (false, b)
    else
      match getOpenSpots b with
      | none => none
      | some [] => some (false, b)
      | some ((x, y) :: _) =>
        let afterStraights :=
          if straights > 0 then
            tryRotations (fun b' => recur b' (straights - 1) curves) x y [0, 1]
              (Tile.new .STRAIGHT) b
          else some (false, b)
        match afterStraights with
        | none => none
        | some (true, b') => some (true, b')
        | some (false, b') =>
          if curves > 0 then
            tryRotations (fun b'' => recur b'' straights (curves - 1)) x y [0, 1, 2, 3]
              (Tile.new .CURVE) b'
          else some (false, b')

/-- The recursion of `Solver.solve` in double precision, unrolled `fuel` levels deep. -/
def solveFuel : Nat → Board → Nat → Nat → Option (Bool × Board)
  | 0 => solveBody (fun _ _ _ => none)
  | fuel + 1 => solveBody (solveFuel fuel)

/-- The static method `Solver.solve(board, straights, curves)` in double precision. -/
def solve (b : Board) (straights curves : Nat) : Option (Bool × Board) :=
  solveFuel (straights + curves) b straights curves

/-- The static method `Solver.isPossible(board, straights, curves)` in double precision. -/
def isPossible (board : Board) (straights curves : Nat) : Option Bool :=
  let workingBoard := board.clone
  (solve workingBoard straights curves).map (fun r => r.1)

/-- The boards reachable from the empty board by placements that the double-precision
`isValidPlacement` accepts. -/
inductive Reachable : Board → Prop
  | new : Reachable Board.new
  | place (b : Board) (x y : Int) (t : Tile) :
      Reachable b → isValidPlacement b x y t = true → Reachable (b.placeTile x y t)

/-- The values of `v` for which the body of `for (let v = lo; v <= hi; v++)` runs, from the
current value `v` on, with `v++` in double precision. The result is `none` when the loop does
not end within `fuel` rounds, as when `v + 1` rounds back to `v` while `v <= hi`. -/
def loopFrom : Nat → Int → Int → Option (List Int)
  | 0, v, hi => if v ≤ hi then none else some []
  | fuel + 1, v, hi =>
    if v ≤ hi then
      if add v 1 = v then none else (loopFrom fuel (add v 1) hi).map (fun vs => v :: vs)
    else some []

/-- The values a loop `for (let v = lo; v <= hi; v++)` runs through in double precision: each
round that ends raises `v` by at least 1, so `hi - lo + 1` rounds are all there can be. -/
def forRange (lo hi : Int) : Option (List Int) := loopFrom (hi - lo + 1).toNat lo hi

/-- The method `Game.isValidTurnConstraint(x, y)` with its differences and its sum in double
precision. -/
def isValidTurnConstraint (movesInTurn : List Coord) (x y : Int) : Bool :=
  if movesInTurn.length = 0 then true
  else if movesInTurn.length ≥ 3 then false
  else
    match movesInTurn.getLast? with
    | none => true
    | some last =>
      let dx := |sub x last.1|
      let dy := |sub y last.2|
      let dist := add dx dy
      if dist ≠ 1 then false
      else if movesInTurn.length = 1 then true
      else if movesInTurn.length = 2 then
        match movesInTurn with
        | first :: second :: _ =>
          let isVertical := decide (first.1 = second.1)
          let isHorizontal := decide (first.2 = second.2)
          if isVertical ∧ x = first.1 then true
          else if isHorizontal ∧ y = first.2 then true
          else false
        | _ => true
      else true

/-- The candidates one row `y` of the scan of `getValidPlacements` adds. -/
def scanRow (board : Board) (currentTile : Tile) (movesInTurn : List Coord) (y : Int)
    (xs : List Int) : List Coord :=
  xs.filterMap (fun x =>
    if isValidPlacement board x y currentTile then
      if isValidTurnConstraint movesInTurn x y then some (x, y) else none
    else none)

/-- The method `CPU.getValidPlacements()` in double precision; `none` when one of its loops
does not end. -/
def getValidPlacements (board : Board) (currentTile : Tile) (movesInTurn : List Coord) :
    Option (List Coord) :=
  let range := 1
  let minX := sub board.minX range
  let maxX := add board.maxX range
  let minY := sub board.minY range
  let maxY := add board.maxY range
  match forRange minY maxY, forRange minX maxX with
  | some ys, some xs => some (ys.flatMap (fun y => scanRow board currentTile movesInTurn y xs))
  | _, _ => none

/-- An integer that stays within `-2^53 .. 2^53`, bounds excluded, when it moves `m` steps
either way. With `m = 0` these are the integers JavaScript calls safe. -/
def SafeInt (m : Nat) (x : Int) : Prop := -(2 ^ 53 : Int) + m < x ∧ x + m < 2 ^ 53

instance (m : Nat) (x : Int) : Decidable (SafeInt m x) :=
  inferInstanceAs (Decidable (-(2 ^ 53 : Int) + m < x ∧ x + m < 2 ^ 53))

/-- A board all of whose coordinates are safe with margin `m`. -/
def SafeBoard (m : Nat) (b : Board) : Prop :=
  ∀ e ∈ b.grid, SafeInt m e.1.1 ∧ SafeInt m e.1.2

instance (m : Nat) (b : Board) : Decidable (SafeBoard m b) :=
  inferInstanceAs (Decidable (∀ e ∈ b.grid, SafeInt m e.1.1 ∧ SafeInt m e.1.2))

end F64

/-! ## Boards beyond the safe integers, and a board with a rotation outside `0..3` -/

/-- The board after `placeTile(2^53, 0, tile)` with a Straight of rotation 1 on a new board. -/
def farStraightBoard : Board :=
  Board.new.placeTile (2 ^ 53) 0 ((Tile.new .STRAIGHT).setRotation 1)

/-- The board after `placeTile(2^53, 2^53, tile)` with a Curve of rotation 0 on a new board. -/
def farCurveBoard : Board :=
  Board.new.placeTile (2 ^ 53) (2 ^ 53) ((Tile.new .CURVE).setRotation 0)

/-- The board of the test 'Impossible Scene' with, below it at `(0, 3)`, a Curve after
`setRotation(-2)`: its rotation field is `-2` and its connections are `-1` and `0`. -/
def badRotationBoard : Board :=
  impossibleSceneBoard.placeTile 0 3 ((Tile.new .CURVE).setRotation (-2))

/-- A Straight of rotation 0 at `(0, 0)` and, below it at `(0, 1)`, a Curve after
`setRotation(-2)`. -/
def badSpotBoard : Board :=
  (Board.new.placeTile 0 0 ((Tile.new .STRAIGHT).setRotation 0)).placeTile 0 1
    ((Tile.new .CURVE).setRotation (-2))

/-! ## Statements about `tile.js` -/

/-- C7: for every rotation `r` in `0..3`, a Straight tile connects `[Up(0), Down(2)]` when `r` is
even and `[Right(1), Left(3)]` when `r` is odd, and a Curve tile connects
`[(1 + r) mod 4, (2 + r) mod 4]`, which is `[Right, Down]`, `[Down, Left]`, `[Left, Up]`,
`[Up, Right]` for `r = 0, 1, 2, 3`. -/
theorem C7_getConnections_table (r : Fin 4) :
    (Tile.mk .STRAIGHT (r.val : Int)).getConnections
        = (if r.val % 2 = 0 then [0, 2] else [1, 3])
      ∧ (Tile.mk .CURVE (r.val : Int)).getConnections
        = [(1 + (r.val : Int)) % 4, (2 + (r.val : Int)) % 4]
      ∧ (Tile.mk .CURVE (r.val : Int)).getConnections
        = [[1, 2], [2, 3], [3, 0], [0, 1]].getD r.val [] := by
  revert r
  decide

/-- C8, at the failing input: `setRotation(-1)` stores `-1`, which is outside `0..3`, whereas the
value in `0..3` congruent to `-1` modulo 4 is `3`; and after `setRotation(-2)` a Curve tile
reports the direction `-1`, which is no direction at all. -/
theorem C8_setRotation_negative :
    ((Tile.new .CURVE).setRotation (-1)).rotation = -1
      ∧ ((-1 : Int) % 4 = 3)
      ∧ ¬ (0 ≤ ((Tile.new .CURVE).setRotation (-1)).rotation)
      ∧ ((Tile.new .CURVE).setRotation (-2)).getConnections = [-1, 0] := by
  decide

/-! ## Placement legality -/

namespace Board

theorem edgeMatches_iff (b : Board) (x y : Int) (conns : List Int) (row : Int × Int × Int) :
    b.edgeMatches x y conns row = true ↔
      ∀ n, b.getTile (x + row.2.1) (y + row.2.2) = some n →
        (row.1 ∈ conns ↔ Int.tmod (row.1 + 2) 4 ∈ n.getConnections) := by
  unfold edgeMatches
  cases h : b.getTile (x + row.2.1) (y + row.2.2) with
  | none => simp
  | some n =>
    simp only [Option.some.injEq, forall_eq']
    cases h1 : conns.contains row.1 <;>
      cases h2 : n.getConnections.contains (Int.tmod (row.1 + 2) 4) <;> simp_all

theorem getNeighbors_length_eq_zero (b : Board) (x y : Int) :
    (b.getNeighbors x y).length = 0 ↔
      b.getTile x (y - 1) = none ∧ b.getTile (x + 1) y = none ∧
      b.getTile x (y + 1) = none ∧ b.getTile (x - 1) y = none := by
  unfold getNeighbors
  simp only [List.filterMap_cons, List.filterMap_nil, add_zero, Int.add_neg_one, ← sub_eq_add_neg]
  cases b.getTile x (y - 1) <;> cases b.getTile (x + 1) y <;> cases b.getTile x (y + 1) <;>
    cases b.getTile (x - 1) y <;> simp

theorem neighborAt_zero (b : Board) (x y : Int) : b.neighborAt x y 0 = b.getTile x (y - 1) := by
  simp [neighborAt, offsetAt, offsets, sub_eq_add_neg]

theorem neighborAt_one (b : Board) (x y : Int) : b.neighborAt x y 1 = b.getTile (x + 1) y := by
  simp [neighborAt, offsetAt, offsets]

theorem neighborAt_two (b : Board) (x y : Int) : b.neighborAt x y 2 = b.getTile x (y + 1) := by
  simp [neighborAt, offsetAt, offsets]

theorem neighborAt_three (b : Board) (x y : Int) : b.neighborAt x y 3 = b.getTile (x - 1) y := by
  simp [neighborAt, offsetAt, offsets, sub_eq_add_neg]

theorem edges_all_iff (b : Board) (x y : Int) (conns : List Int) :
    offsets.all (fun row => b.edgeMatches x y conns row) = true ↔
      ∀ d : Int, 0 ≤ d → d < 4 → ∀ n, b.neighborAt x y d = some n →
        (d ∈ conns ↔ (d + 2) % 4 ∈ n.getConnections) := by
  simp only [offsets, List.all_cons, List.all_nil, Bool.and_true, Bool.and_eq_true,
    edgeMatches_iff]
  constructor
  · rintro ⟨h0, h1, h2, h3⟩ d hd0 hd4 n hn
    interval_cases d
    · rw [neighborAt_zero] at hn
      simpa using h0 n (by simpa [sub_eq_add_neg] using hn)
    · rw [neighborAt_one] at hn
      simpa using h1 n (by simpa using hn)
    · rw [neighborAt_two] at hn
      simpa using h2 n (by simpa using hn)
    · rw [neighborAt_three] at hn
      simpa using h3 n (by simpa [sub_eq_add_neg] using hn)
  · intro h
    refine ⟨fun n hn => ?_, fun n hn => ?_, fun n hn => ?_, fun n hn => ?_⟩
    · simpa using h 0 (by decide) (by decide) n
        (by rw [neighborAt_zero]; simpa [sub_eq_add_neg] using hn)
    · simpa using h 1 (by decide) (by decide) n (by rw [neighborAt_one]; simpa using hn)
    · simpa using h 2 (by decide) (by decide) n (by rw [neighborAt_two]; simpa using hn)
    · simpa using h 3 (by decide) (by decide) n
        (by rw [neighborAt_three]; simpa [sub_eq_add_neg] using hn)

/-- The three conditions under which `isValidPlacement` returns true. -/
theorem isValidPlacement_spec (b : Board) (x y : Int) (t : Tile) :
    b.isValidPlacement x y t = true ↔
      b.getTile x y = none
      ∧ (b.grid = [] ∨ (b.getTile x (y - 1)).isSome ∨ (b.getTile (x + 1) y).isSome
          ∨ (b.getTile x (y + 1)).isSome ∨ (b.getTile (x - 1) y).isSome)
      ∧ ∀ d : Int, 0 ≤ d → d < 4 → ∀ n, b.neighborAt x y d = some n →
          (d ∈ t.getConnections ↔ (d + 2) % 4 ∈ n.getConnections) := by
  unfold isValidPlacement
  cases hocc : b.getTile x y with
  | some u => simp
  | none =>
    simp only [Option.isSome_none, Bool.false_eq_true, if_false, true_and]
    rw [← edges_all_iff]
    by_cases hadj : b.grid.length > 0 ∧ (b.getNeighbors x y).length = 0
    · rw [if_pos hadj]
      obtain ⟨hne, hn⟩ := hadj
      rw [getNeighbors_length_eq_zero] at hn
      obtain ⟨h0, h1, h2, h3⟩ := hn
      have : b.grid ≠ [] := by
        intro h; rw [h] at hne; simp at hne
      simp [h0, h1, h2, h3, this]
    · rw [if_neg hadj]
      have hadj2 : b.grid = [] ∨ (b.getTile x (y - 1)).isSome ∨ (b.getTile (x + 1) y).isSome
          ∨ (b.getTile x (y + 1)).isSome ∨ (b.getTile (x - 1) y).isSome := by
        by_cases hg : b.grid = []
        · exact Or.inl hg
        · right
          have hlen : b.grid.length > 0 := List.length_pos.2 hg
          have hn : ¬ (b.getNeighbors x y).length = 0 := fun h => hadj ⟨hlen, h⟩
          rw [getNeighbors_length_eq_zero] at hn
          by_contra hcon
          apply hn
          simp only [not_or, Option.not_isSome_iff_eq_none] at hcon
          exact hcon
      simp [hadj2]

theorem isValidPlacement_new (x y : Int) (t : Tile) :
    Board.new.isValidPlacement x y t = true := by
  simp [isValidPlacement, Board.new, getTile, Grid.get, offsets, edgeMatches]

end Board

/-! ## The grid as a map -/

namespace Grid

theorem get_set_self (g : Grid) (p : Coord) (t : Tile) : get (set g p t) p = some t := by
  induction g with
  | nil => simp [set, get]
  | cons e rest ih =>
    obtain ⟨k, u⟩ := e
    by_cases h : k = p
    · simp [set, get, h]
    · simp [set, get, h, ih]

theorem get_set_ne (g : Grid) (p q : Coord) (t : Tile) (h : q ≠ p) :
    get (set g p t) q = get g q := by
  induction g with
  | nil => simp [set, get, Ne.symm h]
  | cons e rest ih =>
    obtain ⟨k, u⟩ := e
    by_cases hk : k = p
    · subst hk
      simp [set, get, Ne.symm h]
    · by_cases hq : k = q
      · subst hq
        simp [set, get, hk]
      · simp [set, get, hk, hq, ih]

theorem set_eq_append (g : Grid) (p : Coord) (t : Tile) (h : get g p = none) :
    set g p t = g ++ [(p, t)] := by
  induction g with
  | nil => simp [set]
  | cons e rest ih =>
    obtain ⟨k, u⟩ := e
    by_cases hk : k = p
    · simp [get, hk] at h
    · simp only [get, hk, if_false] at h
      simp [set, hk, ih h]

theorem delete_append_self (g : Grid) (p : Coord) (t : Tile) (h : get g p = none) :
    delete (g ++ [(p, t)]) p = g := by
  induction g with
  | nil => simp [delete]
  | cons e rest ih =>
    obtain ⟨k, u⟩ := e
    by_cases hk : k = p
    · simp [get, hk] at h
    · simp only [get, hk, if_false] at h
      simp [delete, hk, ih h]

theorem delete_set_of_get_none (g : Grid) (p : Coord) (t : Tile) (h : get g p = none) :
    delete (set g p t) p = g := by
  rw [set_eq_append g p t h, delete_append_self g p t h]

theorem get_eq_none_iff (g : Grid) (p : Coord) : get g p = none ↔ ∀ e ∈ g, e.1 ≠ p := by
  induction g with
  | nil => simp [get]
  | cons e rest ih =>
    obtain ⟨k, u⟩ := e
    by_cases hk : k = p
    · simp [get, hk]
    · simp [get, hk, ih]

theorem mem_of_get (g : Grid) (p : Coord) (t : Tile) (h : get g p = some t) : (p, t) ∈ g := by
  induction g with
  | nil => simp [get] at h
  | cons e rest ih =>
    obtain ⟨k, u⟩ := e
    by_cases hk : k = p
    · simp only [get, hk, if_true, Option.some.injEq] at h
      simp [hk, h]
    · simp only [get, hk, if_false] at h
      exact List.mem_cons_of_mem _ (ih h)

theorem get_of_mem (g : Grid) (hnd : (g.map Prod.fst).Nodup) (p : Coord) (t : Tile)
    (h : (p, t) ∈ g) : get g p = some t := by
  induction g with
  | nil => simp at h
  | cons e rest ih =>
    obtain ⟨k, u⟩ := e
    simp only [List.map_cons, List.nodup_cons] at hnd
    rcases List.mem_cons.1 h with heq | hmem
    · cases heq
      simp [get]
    · have hk : k ≠ p := by
        intro hk
        apply hnd.1
        rw [hk]
        exact List.mem_map.2 ⟨(p, t), hmem, rfl⟩
      simp [get, hk, ih hnd.2 hmem]

theorem keys_set_of_get_none (g : Grid) (p : Coord) (t : Tile) (h : get g p = none) :
    (set g p t).map Prod.fst = g.map Prod.fst ++ [p] := by
  rw [set_eq_append g p t h]; simp

end Grid

/-! ## Board operations read and write the grid only -/

namespace Board

@[simp] theorem placeTile_grid (b : Board) (x y : Int) (t : Tile) :
    (b.placeTile x y t).grid = Grid.set b.grid (x, y) t := rfl

@[simp] theorem removeTile_grid (b : Board) (x y : Int) :
    (b.removeTile x y).grid = Grid.delete b.grid (x, y) := rfl

@[simp] theorem clone_eq (b : Board) : b.clone = b := rfl

theorem getTile_placeTile_self (b : Board) (x y : Int) (t : Tile) :
    (b.placeTile x y t).getTile x y = some t := by
  simp [getTile, Grid.get_set_self]

theorem getTile_placeTile_ne (b : Board) (x y x' y' : Int) (t : Tile) (h : (x', y') ≠ (x, y)) :
    (b.placeTile x y t).getTile x' y' = b.getTile x' y' := by
  simp [getTile, Grid.get_set_ne _ _ _ _ h]

theorem getTile_congr {b1 b2 : Board} (h : b1.grid = b2.grid) : b1.getTile = b2.getTile := by
  funext x y
  simp [getTile, h]

theorem neighborAt_congr {b1 b2 : Board} (h : b1.grid = b2.grid) :
    b1.neighborAt = b2.neighborAt := by
  funext x y d
  simp [neighborAt, getTile_congr h]

theorem isValidPlacement_congr {b1 b2 : Board} (h : b1.grid = b2.grid) :
    b1.isValidPlacement = b2.isValidPlacement := by
  funext x y t
  simp [isValidPlacement, getNeighbors, edgeMatches, getTile_congr h, h]

theorem scanConns_congr {b1 b2 : Board} (h : b1.grid = b2.grid) (x y : Int) (cs : List Int) :
    b1.scanConns x y cs = b2.scanConns x y cs := by
  induction cs with
  | nil => rfl
  | cons d rest ih => simp [scanConns, getTile_congr h, ih]

theorem scanTiles_congr {b1 b2 : Board} (h : b1.grid = b2.grid) (g : Grid) :
    b1.scanTiles g = b2.scanTiles g := by
  induction g with
  | nil => rfl
  | cons e rest ih =>
    obtain ⟨⟨x, y⟩, t⟩ := e
    simp [scanTiles, scanConns_congr h, ih]

theorem hasOpenEnds_congr {b1 b2 : Board} (h : b1.grid = b2.grid) :
    b1.hasOpenEnds = b2.hasOpenEnds := by
  simp [hasOpenEnds, scanTiles_congr h, h]

theorem placeTile_grid_congr {b1 b2 : Board} (h : b1.grid = b2.grid) (x y : Int) (t : Tile) :
    (b1.placeTile x y t).grid = (b2.placeTile x y t).grid := by
  simp [h]

theorem legalSeq_congr {b1 b2 : Board} (h : b1.grid = b2.grid) (ps : List Placement) :
    b1.legalSeq ps = b2.legalSeq ps := by
  induction ps generalizing b1 b2 with
  | nil => rfl
  | cons p rest ih =>
    simp [legalSeq, isValidPlacement_congr h, ih (placeTile_grid_congr h p.x p.y p.tile)]

theorem applySeq_grid_congr {b1 b2 : Board} (h : b1.grid = b2.grid) (ps : List Placement) :
    (b1.applySeq ps).grid = (b2.applySeq ps).grid := by
  induction ps generalizing b1 b2 with
  | nil => exact h
  | cons p rest ih => exact ih (placeTile_grid_congr h p.x p.y p.tile)

theorem getTile_none_of_valid {b : Board} {x y : Int} {t : Tile}
    (h : b.isValidPlacement x y t = true) : b.getTile x y = none :=
  ((isValidPlacement_spec b x y t).1 h).1

theorem removeTile_placeTile_grid {b : Board} {x y : Int} {t : Tile}
    (h : b.getTile x y = none) : ((b.placeTile x y t).removeTile x y).grid = b.grid := by
  simp [Grid.delete_set_of_get_none _ _ _ h]

end Board

namespace Solver

theorem spotsOfConns_congr {b1 b2 : Board} (h : b1.grid = b2.grid) (x y : Int) (cs : List Int)
    (acc : List Coord) : spotsOfConns b1 x y cs acc = spotsOfConns b2 x y cs acc := by
  induction cs generalizing acc with
  | nil => rfl
  | cons d rest ih => simp [spotsOfConns, Board.getTile_congr h, ih]

theorem spotsOfTiles_congr {b1 b2 : Board} (h : b1.grid = b2.grid) (g : Grid)
    (acc : List Coord) : spotsOfTiles b1 g acc = spotsOfTiles b2 g acc := by
  induction g generalizing acc with
  | nil => rfl
  | cons e rest ih =>
    obtain ⟨⟨x, y⟩, t⟩ := e
    simp [spotsOfTiles, spotsOfConns_congr h, ih]

theorem getOpenSpots_congr {b1 b2 : Board} (h : b1.grid = b2.grid) :
    getOpenSpots b1 = getOpenSpots b2 := by
  simp [getOpenSpots, spotsOfTiles_congr h, h]

end Solver

/-! ## Edge consistency -/

namespace Board

theorem I2_new : Board.new.I2 := by
  intro x y t h
  simp [Board.new, getTile, Grid.get] at h

theorem I2_placeTile (b : Board) (x0 y0 : Int) (t0 : Tile) (hI : b.I2)
    (hv : b.isValidPlacement x0 y0 t0 = true) : (b.placeTile x0 y0 t0).I2 := by
  obtain ⟨hocc, -, hedge⟩ := (isValidPlacement_spec b x0 y0 t0).1 hv
  intro x y t ht d hd0 hd4 n hn
  by_cases hxy : (x, y) = (x0, y0)
  · cases hxy
    rw [getTile_placeTile_self] at ht
    cases ht
    refine hedge d hd0 hd4 n ?_
    interval_cases d
    · rw [neighborAt_zero] at hn ⊢
      rwa [getTile_placeTile_ne _ _ _ _ _ _ (by simp)] at hn
    · rw [neighborAt_one] at hn ⊢
      rwa [getTile_placeTile_ne _ _ _ _ _ _ (by simp)] at hn
    · rw [neighborAt_two] at hn ⊢
      rwa [getTile_placeTile_ne _ _ _ _ _ _ (by simp)] at hn
    · rw [neighborAt_three] at hn ⊢
      rwa [getTile_placeTile_ne _ _ _ _ _ _ (by simp)] at hn
  · rw [getTile_placeTile_ne _ _ _ _ _ _ hxy] at ht
    interval_cases d
    · rw [neighborAt_zero] at hn
      by_cases hq : (x, y - 1) = (x0, y0)
      · obtain ⟨hx, hy⟩ := Prod.mk.inj hq
        subst hx hy
        rw [getTile_placeTile_self] at hn
        cases hn
        have h2 := hedge 2 (by decide) (by decide) t
          (by rw [neighborAt_two]; simpa using ht)
        simpa using h2.symm
      · rw [getTile_placeTile_ne _ _ _ _ _ _ hq] at hn
        exact hI x y t ht 0 (by decide) (by decide) n (by rw [neighborAt_zero]; exact hn)
    · rw [neighborAt_one] at hn
      by_cases hq : (x + 1, y) = (x0, y0)
      · obtain ⟨hx, hy⟩ := Prod.mk.inj hq
        subst hx hy
        rw [getTile_placeTile_self] at hn
        cases hn
        have h2 := hedge 3 (by decide) (by decide) t
          (by rw [neighborAt_three]; simpa using ht)
        simpa using h2.symm
      · rw [getTile_placeTile_ne _ _ _ _ _ _ hq] at hn
        exact hI x y t ht 1 (by decide) (by decide) n (by rw [neighborAt_one]; exact hn)
    · rw [neighborAt_two] at hn
      by_cases hq : (x, y + 1) = (x0, y0)
      · obtain ⟨hx, hy⟩ := Prod.mk.inj hq
        subst hx hy
        rw [getTile_placeTile_self] at hn
        cases hn
        have h2 := hedge 0 (by decide) (by decide) t
          (by rw [neighborAt_zero]; simpa using ht)
        simpa using h2.symm
      · rw [getTile_placeTile_ne _ _ _ _ _ _ hq] at hn
        exact hI x y t ht 2 (by decide) (by decide) n (by rw [neighborAt_two]; exact hn)
    · rw [neighborAt_three] at hn
      by_cases hq : (x - 1, y) = (x0, y0)
      · obtain ⟨hx, hy⟩ := Prod.mk.inj hq
        subst hx hy
        rw [getTile_placeTile_self] at hn
        cases hn
        have h2 := hedge 1 (by decide) (by decide) t
          (by rw [neighborAt_one]; simpa using ht)
        simpa using h2.symm
      · rw [getTile_placeTile_ne _ _ _ _ _ _ hq] at hn
        exact hI x y t ht 3 (by decide) (by decide) n (by rw [neighborAt_three]; exact hn)

theorem I2_of_reachable {b : Board} (h : Reachable b) : b.I2 := by
  induction h with
  | new => exact I2_new
  | place b x y t _ hv ih => exact I2_placeTile b x y t ih hv

end Board

/-- C5: invariant I2 is preserved by a legal placement (if I2 holds on a board and
`isValidPlacement(x, y, t)` is true, I2 holds after `placeTile(x, y, t)`), and so I2 holds on
every board reachable from the empty board through legal placements. -/
theorem C5_I2_preserved :
    (∀ (b : Board) (x y : Int) (t : Tile), b.I2 → b.isValidPlacement x y t = true →
      (b.placeTile x y t).I2)
    ∧ (∀ b : Board, Board.Reachable b → b.I2) :=
  ⟨fun b x y t hI hv => Board.I2_placeTile b x y t hI hv, fun _ h => Board.I2_of_reachable h⟩

/-- C5 at a concrete board: a Curve placed on the empty board, then a second Curve to its
right. -/
theorem C5_I2_preserved_witness :
    (Board.new.placeTile 0 0 ⟨.CURVE, 0⟩).I2
    ∧ ((Board.new.placeTile 0 0 ⟨.CURVE, 0⟩).placeTile 1 0 ⟨.CURVE, 1⟩).I2 :=
  ⟨C5_I2_preserved.1 Board.new 0 0 ⟨.CURVE, 0⟩ Board.I2_new (by decide),
   C5_I2_preserved.2 _ (Board.Reachable.place _ 1 0 ⟨.CURVE, 1⟩
     (Board.Reachable.place _ 0 0 ⟨.CURVE, 0⟩ Board.Reachable.new (by decide)) (by decide))⟩

/-! ## Open ends -/

theorem offsetAt_some_range {d : Int} {o : Int × Int} (h : offsetAt d = some o) :
    0 ≤ d ∧ d < 4 := by
  unfold offsetAt offsets at h
  simp only [List.find?_cons, List.find?_nil] at h
  by_cases h0 : d = 0
  · subst h0; decide
  by_cases h1 : d = 1
  · subst h1; decide
  by_cases h2 : d = 2
  · subst h2; decide
  by_cases h3 : d = 3
  · subst h3; decide
  simp [Ne.symm h0, Ne.symm h1, Ne.symm h2, Ne.symm h3] at h

namespace Board

theorem neighborAt_some_range {b : Board} {x y d : Int} {n : Tile}
    (h : b.neighborAt x y d = some n) : 0 ≤ d ∧ d < 4 := by
  unfold neighborAt at h
  cases ho : offsetAt d with
  | none => simp [ho] at h
  | some o => exact offsetAt_some_range ho

theorem scanConns_eq_false_iff (b : Board) (x y : Int) (cs : List Int) :
    b.scanConns x y cs = some false ↔ ∀ d ∈ cs, (b.neighborAt x y d).isSome = true := by
  induction cs with
  | nil => simp [scanConns]
  | cons d rest ih =>
    rw [List.forall_mem_cons]
    cases ho : offsetAt d with
    | none => simp [scanConns, neighborAt, ho]
    | some o =>
      obtain ⟨dx, dy⟩ := o
      cases hg : b.getTile (x + dx) (y + dy) with
      | none => simp [scanConns, neighborAt, ho, hg]
      | some n => simp [scanConns, neighborAt, ho, hg, ih]

theorem scanTiles_eq_false_iff (b : Board) (g : Grid) :
    b.scanTiles g = some false ↔
      ∀ e ∈ g, b.scanConns e.1.1 e.1.2 e.2.getConnections = some false := by
  induction g with
  | nil => simp [scanTiles]
  | cons e rest ih =>
    obtain ⟨⟨x, y⟩, t⟩ := e
    simp only [scanTiles, List.mem_cons, forall_eq_or_imp]
    cases hs : b.scanConns x y t.getConnections with
    | none => simp
    | some r =>
      cases r with
      | true => simp
      | false => simpa using ih

theorem keys_nodup_placeTile {b : Board} {x y : Int} {t : Tile}
    (hnd : (b.grid.map Prod.fst).Nodup) (h : b.getTile x y = none) :
    ((b.placeTile x y t).grid.map Prod.fst).Nodup := by
  rw [placeTile_grid, Grid.keys_set_of_get_none _ _ _ h]
  refine List.Nodup.append hnd (List.nodup_singleton _) ?_
  intro p hp hp'
  rw [List.mem_singleton] at hp'
  subst hp'
  obtain ⟨e, he, hk⟩ := List.mem_map.1 hp
  exact (Grid.get_eq_none_iff _ _).1 h e he hk

theorem keys_nodup_of_reachable {b : Board} (h : Reachable b) :
    (b.grid.map Prod.fst).Nodup := by
  induction h with
  | new => simp [Board.new]
  | place b x y t _ hv ih => exact keys_nodup_placeTile ih (getTile_none_of_valid hv)

/-- On a non-empty board whose grid is a map and on which I2 holds, `hasOpenEnds` returns false
exactly when every connection ends at a matching neighbour. -/
theorem hasOpenEnds_false_iff (b : Board) (hnd : (b.grid.map Prod.fst).Nodup) (hI : b.I2)
    (hne : b.grid ≠ []) : b.hasOpenEnds = some false ↔ b.AllTerminated := by
  have hlen : ¬ b.grid.length = 0 := by
    intro h
    exact hne (List.length_eq_zero.1 h)
  unfold hasOpenEnds
  rw [if_neg hlen, scanTiles_eq_false_iff]
  constructor
  · intro h x y t ht d hd
    have hmem : ((x, y), t) ∈ b.grid := Grid.mem_of_get _ _ _ ht
    have hs := (scanConns_eq_false_iff b x y t.getConnections).1 (h _ hmem) d hd
    obtain ⟨n, hn⟩ := Option.isSome_iff_exists.1 hs
    obtain ⟨hd0, hd4⟩ := neighborAt_some_range hn
    exact ⟨n, hn, (hI x y t ht d hd0 hd4 n hn).1 hd⟩
  · intro h e he
    obtain ⟨⟨x, y⟩, t⟩ := e
    have ht : b.getTile x y = some t := Grid.get_of_mem _ hnd _ _ he
    rw [scanConns_eq_false_iff]
    intro d hd
    obtain ⟨n, hn, -⟩ := h x y t ht d hd
    simp [hn]

theorem allTerminated_new : Board.new.AllTerminated := by
  intro x y t h
  simp [Board.new, getTile, Grid.get] at h

end Board

/-! ## The solver: backtracking restores the grid -/

namespace Solver

theorem tryRotations_false_grid {recur : Board → Option (Bool × Board)} {x y : Int}
    (hrec : RestoresGrid recur) (rs : List Int) (tile : Tile) (b b' : Board)
    (h : tryRotations recur x y rs tile b = some (false, b')) : b'.grid = b.grid := by
  induction rs generalizing tile b with
  | nil =>
    simp only [tryRotations, Option.some.injEq, Prod.mk.injEq, true_and] at h
    rw [h]
  | cons r rs ih =>
    simp only [tryRotations] at h
    by_cases hv : b.isValidPlacement x y (tile.setRotation r) = true
    · rw [if_pos hv] at h
      cases hr : recur (b.placeTile x y (tile.setRotation r)) with
      | none => simp [hr] at h
      | some res =>
        obtain ⟨ok, b1⟩ := res
        cases ok with
        | true => simp [hr] at h
        | false =>
          simp only [hr] at h
          have h1 := ih _ _ h
          have h2 := hrec _ _ hr
          rw [h1, Board.removeTile_grid, h2, Board.placeTile_grid,
            Grid.delete_set_of_get_none _ _ _ (Board.getTile_none_of_valid hv)]
    · rw [if_neg hv] at h
      exact ih _ _ h

theorem tryRotations_true {recur : Board → Option (Bool × Board)} {x y : Int}
    (hrec : RestoresGrid recur) (rs : List Int) (tile : Tile) (b b' : Board)
    (h : tryRotations recur x y rs tile b = some (true, b')) :
    ∃ r ∈ rs, ∃ b0 : Board, b0.grid = b.grid
      ∧ b0.isValidPlacement x y ⟨tile.type, Int.tmod r 4⟩ = true
      ∧ recur (b0.placeTile x y ⟨tile.type, Int.tmod r 4⟩) = some (true, b') := by
  induction rs generalizing tile b with
  | nil => simp [tryRotations] at h
  | cons r rs ih =>
    simp only [tryRotations] at h
    by_cases hv : b.isValidPlacement x y (tile.setRotation r) = true
    · rw [if_pos hv] at h
      cases hr : recur (b.placeTile x y (tile.setRotation r)) with
      | none => simp [hr] at h
      | some res =>
        obtain ⟨ok, b1⟩ := res
        cases ok with
        | true =>
          simp only [hr, Option.some.injEq, Prod.mk.injEq, true_and] at h
          subst h
          exact ⟨r, List.mem_cons_self _ _, b, rfl, hv, hr⟩
        | false =>
          simp only [hr] at h
          obtain ⟨r', hr', b0, hb0, hv0, hrec0⟩ := ih _ _ h
          refine ⟨r', List.mem_cons_of_mem _ hr', b0, ?_, hv0, hrec0⟩
          rw [hb0, Board.removeTile_grid, hrec _ _ hr, Board.placeTile_grid,
            Grid.delete_set_of_get_none _ _ _ (Board.getTile_none_of_valid hv)]
    · rw [if_neg hv] at h
      obtain ⟨r', hr', b0, hb0, hv0, hrec0⟩ := ih _ _ h
      exact ⟨r', List.mem_cons_of_mem _ hr', b0, hb0, hv0, hrec0⟩

theorem solveBody_false_grid {recur : Board → Nat → Nat → Option (Bool × Board)}
    (hrec : ∀ s c, RestoresGrid (fun b => recur b s c)) (b : Board) (s c : Nat) (b' : Board)
    (h : solveBody recur b s c = some (false, b')) : b'.grid = b.grid := by
  unfold solveBody at h
  cases ho : b.hasOpenEnds with
  | none => simp [ho] at h
  | some open_ =>
    cases open_ with
    | false => simp [ho] at h
    | true =>
      simp only [ho] at h
      by_cases hz : s = 0 ∧ c = 0
      · rw [if_pos hz] at h
        simp only [Option.some.injEq, Prod.mk.injEq, true_and] at h
        rw [h]
      · rw [if_neg hz] at h
        cases hs : getOpenSpots b with
        | none => simp [hs] at h
        | some spots =>
          cases spots with
          | nil =>
            simp only [hs, Option.some.injEq, Prod.mk.injEq, true_and] at h
            rw [h]
          | cons spot rest =>
            obtain ⟨x, y⟩ := spot
            simp only [hs] at h
            have hA : ∀ b1, (if s > 0 then
                tryRotations (fun b' => recur b' (s - 1) c) x y [0, 1] (Tile.new .STRAIGHT) b
                else some (false, b)) = some (false, b1) → b1.grid = b.grid := by
              intro b1 h1
              by_cases hs0 : s > 0
              · rw [if_pos hs0] at h1
                exact tryRotations_false_grid (hrec (s - 1) c) _ _ _ _ h1
              · rw [if_neg hs0] at h1
                simp only [Option.some.injEq, Prod.mk.injEq, true_and] at h1
                rw [h1]
            cases hst : (if s > 0 then
                tryRotations (fun b' => recur b' (s - 1) c) x y [0, 1] (Tile.new .STRAIGHT) b
                else some (false, b)) with
            | none => simp [hst] at h
            | some res =>
              obtain ⟨ok, b1⟩ := res
              cases ok with
              | true => simp [hst] at h
              | false =>
                simp only [hst] at h
                have hb1 := hA b1 hst
                by_cases hc0 : c > 0
                · rw [if_pos hc0] at h
                  rw [tryRotations_false_grid (hrec s (c - 1)) _ _ _ _ h, hb1]
                · rw [if_neg hc0] at h
                  simp only [Option.some.injEq, Prod.mk.injEq, true_and] at h
                  rw [← h, hb1]

theorem solveFuel_false_grid (fuel : Nat) (b : Board) (s c : Nat) (b' : Board)
    (h : solveFuel fuel b s c = some (false, b')) : b'.grid = b.grid := by
  induction fuel generalizing b s c b' with
  | zero =>
    exact solveBody_false_grid (fun s c b1 b2 h => by simp at h) b s c b' h
  | succ n ih =>
    exact solveBody_false_grid (fun s c b1 b2 h => ih b1 s c b2 h) b s c b' h

end Solver

/-! ## The solver: the recursion and its depth -/

namespace Solver

theorem solveBody_congr {r1 r2 : Board → Nat → Nat → Option (Bool × Board)} (b : Board)
    (s c : Nat) (hs : 0 < s → ∀ b', r1 b' (s - 1) c = r2 b' (s - 1) c)
    (hc : 0 < c → ∀ b', r1 b' s (c - 1) = r2 b' s (c - 1)) :
    solveBody r1 b s c = solveBody r2 b s c := by
  unfold solveBody
  by_cases hs0 : 0 < s
  · have e1 : (fun b' => r1 b' (s - 1) c) = (fun b' => r2 b' (s - 1) c) := funext (hs hs0)
    by_cases hc0 : 0 < c
    · have e2 : (fun b' => r1 b' s (c - 1)) = (fun b' => r2 b' s (c - 1)) := funext (hc hc0)
      simp only [e1, e2]
    · simp only [e1, gt_iff_lt, hc0, if_false]
  · by_cases hc0 : 0 < c
    · have e2 : (fun b' => r1 b' s (c - 1)) = (fun b' => r2 b' s (c - 1)) := funext (hc hc0)
      simp only [e2, gt_iff_lt, hs0, if_false]
    · simp only [gt_iff_lt, hs0, hc0, if_false]

/-- The recursion equation of `Solver.solve`: the fuel `straights + curves` is exactly what the
recursive calls, each with one tile fewer, need. -/
theorem solve_eq_solveBody (b : Board) (s c : Nat) : solve b s c = solveBody solve b s c := by
  unfold solve
  cases hn : s + c with
  | zero =>
    have hs : s = 0 := by omega
    have hc : c = 0 := by omega
    subst hs hc
    exact solveBody_congr b 0 0 (fun h => absurd h (by decide)) (fun h => absurd h (by decide))
  | succ n =>
    show solveBody (solveFuel n) b s c = _
    refine solveBody_congr b s c (fun h b' => ?_) (fun h b' => ?_)
    · have : n = s - 1 + c := by omega
      rw [this]
    · have : n = s + (c - 1) := by omega
      rw [this]

theorem solve_false_grid (b : Board) (s c : Nat) (b' : Board)
    (h : solve b s c = some (false, b')) : b'.grid = b.grid :=
  solveFuel_false_grid _ b s c b' h

end Solver

/-! ## The solver: soundness -/

theorem countKind_cons (k : TileType) (p : Placement) (ps : List Placement) :
    countKind k (p :: ps) = (if p.tile.type = k then 1 else 0) + countKind k ps := by
  unfold countKind
  by_cases h : p.tile.type = k
  · simp [List.filter_cons, h, Nat.add_comm]
  · simp [List.filter_cons, h]

namespace Solver

theorem soundResult_cons {b b0 : Board} {x y : Int} {tile : Tile} {s c s' c' : Nat} {b' : Board}
    (hb0 : b0.grid = b.grid) (hv : b0.isValidPlacement x y tile = true)
    (hk : (tile.type = .STRAIGHT ∧ s = s' + 1 ∧ c = c') ∨
      (tile.type = .CURVE ∧ s = s' ∧ c = c' + 1))
    (h : SoundResult (b0.placeTile x y tile) s' c' b') : SoundResult b s c b' := by
  obtain ⟨ps, hl, hg, ho, hcs, hcc, hlen⟩ := h
  refine ⟨⟨x, y, tile⟩ :: ps, ?_, ?_, ho, ?_, ?_, ?_⟩
  · simp only [Board.legalSeq, Bool.and_eq_true]
    refine ⟨?_, ?_⟩
    · rw [← Board.isValidPlacement_congr hb0]; exact hv
    · rw [← Board.legalSeq_congr (Board.placeTile_grid_congr hb0 x y tile)]; exact hl
  · simp only [Board.applySeq]
    rw [← Board.applySeq_grid_congr (Board.placeTile_grid_congr hb0 x y tile)]; exact hg
  · rw [countKind_cons]
    rcases hk with ⟨ht, hs, -⟩ | ⟨ht, hs, -⟩
    · simp only [ht, if_true]; omega
    · simp only [ht]
      simp only [reduceCtorEq, if_false]; omega
  · rw [countKind_cons]
    rcases hk with ⟨ht, -, hc⟩ | ⟨ht, -, hc⟩
    · simp only [ht]
      simp only [reduceCtorEq, if_false]; omega
    · simp only [ht, if_true]; omega
  · simp only [List.length_cons]
    rcases hk with ⟨-, hs, hc⟩ | ⟨-, hs, hc⟩ <;> omega

theorem solveBody_sound {recur : Board → Nat → Nat → Option (Bool × Board)}
    (hres : ∀ s c, RestoresGrid (fun b => recur b s c))
    (hsound : ∀ b s c b', recur b s c = some (true, b') → SoundResult b s c b')
    (b : Board) (s c : Nat) (b' : Board) (h : solveBody recur b s c = some (true, b')) :
    SoundResult b s c b' := by
  unfold solveBody at h
  cases ho : b.hasOpenEnds with
  | none => simp [ho] at h
  | some open_ =>
    cases open_ with
    | false =>
      simp only [ho, Option.some.injEq, Prod.mk.injEq, true_and] at h
      subst h
      exact ⟨[], rfl, rfl, ho, Nat.zero_le _, Nat.zero_le _, Nat.zero_le _⟩
    | true =>
      simp only [ho] at h
      by_cases hz : s = 0 ∧ c = 0
      · rw [if_pos hz] at h
        simp at h
      · rw [if_neg hz] at h
        cases hs : getOpenSpots b with
        | none => simp [hs] at h
        | some spots =>
          cases spots with
          | nil => simp [hs] at h
          | cons spot rest =>
            obtain ⟨x, y⟩ := spot
            simp only [hs] at h
            cases hst : (if s > 0 then
                tryRotations (fun b' => recur b' (s - 1) c) x y [0, 1] (Tile.new .STRAIGHT) b
                else some (false, b)) with
            | none => simp [hst] at h
            | some res =>
              obtain ⟨ok, b1⟩ := res
              cases ok with
              | true =>
                simp only [hst, Option.some.injEq, Prod.mk.injEq, true_and] at h
                subst h
                by_cases hs0 : s > 0
                · rw [if_pos hs0] at hst
                  obtain ⟨r, -, b0, hb0, hv, hr⟩ := tryRotations_true (hres (s - 1) c) _ _ _ _ hst
                  exact soundResult_cons hb0 hv (Or.inl ⟨rfl, by omega, rfl⟩)
                    (hsound _ _ _ _ hr)
                · rw [if_neg hs0] at hst
                  simp at hst
              | false =>
                simp only [hst] at h
                have hb1 : b1.grid = b.grid := by
                  by_cases hs0 : s > 0
                  · rw [if_pos hs0] at hst
                    exact tryRotations_false_grid (hres (s - 1) c) _ _ _ _ hst
                  · rw [if_neg hs0] at hst
                    simp only [Option.some.injEq, Prod.mk.injEq, true_and] at hst
                    rw [hst]
                by_cases hc0 : c > 0
                · rw [if_pos hc0] at h
                  obtain ⟨r, -, b0, hb0, hv, hr⟩ := tryRotations_true (hres s (c - 1)) _ _ _ _ h
                  exact soundResult_cons (hb0.trans hb1) hv (Or.inr ⟨rfl, rfl, by omega⟩)
                    (hsound _ _ _ _ hr)
                · rw [if_neg hc0] at h
                  simp at h

theorem solveFuel_sound (fuel : Nat) (b : Board) (s c : Nat) (b' : Board)
    (h : solveFuel fuel b s c = some (true, b')) : SoundResult b s c b' := by
  induction fuel generalizing b s c b' with
  | zero =>
    exact solveBody_sound (fun s c b1 b2 h => by simp at h) (fun b s c b' h => by simp at h)
      b s c b' h
  | succ n ih =>
    exact solveBody_sound (fun s c b1 b2 h => solveFuel_false_grid n b1 s c b2 h)
      (fun b s c b' h => ih b s c b' h) b s c b' h

theorem isPossible_sound (b : Board) (s c : Nat) (h : isPossible b s c = some true) :
    ∃ ps : List Placement, ps.length ≤ s + c
      ∧ countKind .STRAIGHT ps ≤ s ∧ countKind .CURVE ps ≤ c
      ∧ b.legalSeq ps = true ∧ (b.applySeq ps).hasOpenEnds = some false := by
  unfold isPossible at h
  simp only [Board.clone_eq] at h
  cases hs : solve b s c with
  | none => simp [hs] at h
  | some res =>
    obtain ⟨ok, b'⟩ := res
    simp only [hs, Option.map_some', Option.some.injEq] at h
    subst h
    obtain ⟨ps, hl, hg, ho, hcs, hcc, hlen⟩ := solveFuel_sound _ b s c b' hs
    exact ⟨ps, hlen, hcs, hcc, hl, by rw [Board.hasOpenEnds_congr hg]; exact ho⟩

end Solver

/-- C1 (solver soundness): if `Solver.isPossible(board, s, c)` returns true, there is a sequence
of at most `s + c` placements from that board, using at most `s` Straight and at most `c` Curve
tiles, each passing `isValidPlacement` on the board as it stands at that moment, after which
`hasOpenEnds()` is false. -/
theorem C1_solver_sound (b : Board) (s c : Nat) (h : Solver.isPossible b s c = some true) :
    ∃ ps : List Placement, ps.length ≤ s + c
      ∧ countKind .STRAIGHT ps ≤ s ∧ countKind .CURVE ps ≤ c
      ∧ b.legalSeq ps = true ∧ (b.applySeq ps).hasOpenEnds = some false :=
  Solver.isPossible_sound b s c h

/-- C1 at the board of the test 'Basic Loop Check' with one Curve in hand. -/
theorem C1_solver_sound_witness :
    Solver.isPossible basicLoopBoard 0 1 = some true
    ∧ ∃ ps : List Placement, ps.length ≤ 0 + 1
      ∧ countKind .STRAIGHT ps ≤ 0 ∧ countKind .CURVE ps ≤ 1
      ∧ basicLoopBoard.legalSeq ps = true
      ∧ (basicLoopBoard.applySeq ps).hasOpenEnds = some false :=
  ⟨by decide, C1_solver_sound basicLoopBoard 0 1 (by decide)⟩

/-! ## The solver returns: no exception on a board whose connections are directions -/

theorem Tile.dirsOK_of_rotation (t : Tile) (h0 : 0 ≤ t.rotation) (h4 : t.rotation < 4) :
    t.DirsOK := by
  obtain ⟨k, r⟩ := t
  simp only at h0 h4
  interval_cases r <;> cases k <;> decide

theorem Tile.dirsOK_straight (r : Int) : (Tile.mk .STRAIGHT r).DirsOK := by
  intro d hd
  simp only [Tile.getConnections] at hd
  split at hd <;> simp at hd <;> rcases hd with rfl | rfl <;> decide

namespace Grid

theorem mem_set {g : Grid} {p : Coord} {t : Tile} {e : Coord × Tile} (h : e ∈ set g p t) :
    e ∈ g ∨ e = (p, t) := by
  induction g with
  | nil => simpa [set] using h
  | cons a rest ih =>
    obtain ⟨k, u⟩ := a
    by_cases hk : k = p
    · simp only [set, hk, if_true, List.mem_cons] at h
      rcases h with h | h
      · exact Or.inr h
      · exact Or.inl (List.mem_cons_of_mem _ h)
    · simp only [set, hk, if_false, List.mem_cons] at h
      rcases h with h | h
      · exact Or.inl (by simp [h])
      · rcases ih h with h' | h'
        · exact Or.inl (List.mem_cons_of_mem _ h')
        · exact Or.inr h'

theorem mem_of_mem_delete {g : Grid} {p : Coord} {e : Coord × Tile} (h : e ∈ delete g p) :
    e ∈ g := by
  induction g with
  | nil => simp [delete] at h
  | cons a rest ih =>
    obtain ⟨k, u⟩ := a
    by_cases hk : k = p
    · simp only [delete, hk, if_true] at h
      exact List.mem_cons_of_mem _ (ih h)
    · simp only [delete, hk, if_false, List.mem_cons] at h
      rcases h with h | h
      · simp [h]
      · exact List.mem_cons_of_mem _ (ih h)

end Grid

namespace Board

theorem dirsOK_congr {b1 b2 : Board} (h : b1.grid = b2.grid) (hd : b1.DirsOK) : b2.DirsOK := by
  intro e he
  exact hd e (h ▸ he)

theorem dirsOK_placeTile {b : Board} (hd : b.DirsOK) (x y : Int) {t : Tile} (ht : t.DirsOK) :
    (b.placeTile x y t).DirsOK := by
  intro e he
  rcases Grid.mem_set he with h | h
  · exact hd e h
  · rw [h]; exact ht

theorem dirsOK_removeTile {b : Board} (hd : b.DirsOK) (x y : Int) :
    (b.removeTile x y).DirsOK := by
  intro e he
  exact hd e (Grid.mem_of_mem_delete he)

theorem scanConns_isSome (b : Board) (x y : Int) (cs : List Int)
    (h : ∀ d ∈ cs, (offsetAt d).isSome = true) : (b.scanConns x y cs).isSome = true := by
  induction cs with
  | nil => simp [scanConns]
  | cons d rest ih =>
    obtain ⟨o, ho⟩ := Option.isSome_iff_exists.1 (h d (List.mem_cons_self _ _))
    obtain ⟨dx, dy⟩ := o
    simp only [scanConns, ho]
    split
    · rfl
    · exact ih (fun d' hd' => h d' (List.mem_cons_of_mem _ hd'))

theorem scanTiles_isSome (b : Board) (g : Grid) (h : ∀ e ∈ g, e.2.DirsOK) :
    (b.scanTiles g).isSome = true := by
  induction g with
  | nil => simp [scanTiles]
  | cons e rest ih =>
    obtain ⟨⟨x, y⟩, t⟩ := e
    have h1 := scanConns_isSome b x y t.getConnections (h _ (List.mem_cons_self _ _))
    obtain ⟨r, hr⟩ := Option.isSome_iff_exists.1 h1
    simp only [scanTiles, hr]
    cases r with
    | true => rfl
    | false => exact ih (fun e he => h e (List.mem_cons_of_mem _ he))

theorem hasOpenEnds_isSome {b : Board} (hd : b.DirsOK) : b.hasOpenEnds.isSome = true := by
  unfold hasOpenEnds
  split
  · rfl
  · exact scanTiles_isSome b b.grid hd

end Board

namespace Solver

theorem spotsOfConns_isSome (b : Board) (x y : Int) (cs : List Int) (acc : List Coord)
    (h : ∀ d ∈ cs, (offsetAt d).isSome = true) : (spotsOfConns b x y cs acc).isSome = true := by
  induction cs generalizing acc with
  | nil => simp [spotsOfConns]
  | cons d rest ih =>
    obtain ⟨o, ho⟩ := Option.isSome_iff_exists.1 (h d (List.mem_cons_self _ _))
    obtain ⟨dx, dy⟩ := o
    simp only [spotsOfConns, ho]
    split
    · exact ih _ (fun d' hd' => h d' (List.mem_cons_of_mem _ hd'))
    · exact ih _ (fun d' hd' => h d' (List.mem_cons_of_mem _ hd'))

theorem spotsOfTiles_isSome (b : Board) (g : Grid) (acc : List Coord)
    (h : ∀ e ∈ g, e.2.DirsOK) : (spotsOfTiles b g acc).isSome = true := by
  induction g generalizing acc with
  | nil => simp [spotsOfTiles]
  | cons e rest ih =>
    obtain ⟨⟨x, y⟩, t⟩ := e
    have h1 := spotsOfConns_isSome b x y t.getConnections acc (h _ (List.mem_cons_self _ _))
    obtain ⟨r, hr⟩ := Option.isSome_iff_exists.1 h1
    simp only [spotsOfTiles, hr]
    exact ih _ (fun e he => h e (List.mem_cons_of_mem _ he))

theorem getOpenSpots_isSome {b : Board} (hd : b.DirsOK) : (getOpenSpots b).isSome = true :=
  spotsOfTiles_isSome b b.grid [] hd

end Solver

namespace Solver

theorem tryRotations_returns {recur : Board → Option (Bool × Board)} {x y : Int}
    (hrec : Returns recur) (rs : List Int) (tile : Tile) (b : Board)
    (htile : ∀ r ∈ rs, (Tile.mk tile.type (Int.tmod r 4)).DirsOK) (hb : b.DirsOK) :
    ∃ ok b', tryRotations recur x y rs tile b = some (ok, b') ∧ b'.DirsOK := by
  induction rs generalizing tile b with
  | nil => exact ⟨false, b, rfl, hb⟩
  | cons r rs ih =>
    have htl : ∀ r' ∈ rs, (Tile.mk (tile.setRotation r).type (Int.tmod r' 4)).DirsOK :=
      fun r' hr' => htile r' (List.mem_cons_of_mem _ hr')
    simp only [tryRotations]
    by_cases hv : b.isValidPlacement x y (tile.setRotation r) = true
    · rw [if_pos hv]
      obtain ⟨ok, b1, h1, hb1⟩ :=
        hrec _ (Board.dirsOK_placeTile hb x y (htile r (List.mem_cons_self _ _)))
      have h1' : recur (b.placeTile x y (tile.setRotation r)) = some (ok, b1) := h1
      rw [h1']
      cases ok with
      | true => exact ⟨true, b1, rfl, hb1⟩
      | false =>
        exact ih (tile.setRotation r) (b1.removeTile x y) htl (Board.dirsOK_removeTile hb1 x y)
    · rw [if_neg hv]
      exact ih (tile.setRotation r) b htl hb

theorem solveBody_returns {recur : Board → Nat → Nat → Option (Bool × Board)}
    (b : Board) (s c : Nat)
    (hs : 0 < s → Returns (fun b' => recur b' (s - 1) c))
    (hc : 0 < c → Returns (fun b' => recur b' s (c - 1)))
    (hb : b.DirsOK) : ∃ ok b', solveBody recur b s c = some (ok, b') ∧ b'.DirsOK := by
  unfold solveBody
  obtain ⟨o, ho⟩ := Option.isSome_iff_exists.1 (Board.hasOpenEnds_isSome hb)
  rw [ho]
  cases o with
  | false => exact ⟨true, b, rfl, hb⟩
  | true =>
    simp only
    by_cases hz : s = 0 ∧ c = 0
    · rw [if_pos hz]
      exact ⟨false, b, rfl, hb⟩
    · rw [if_neg hz]
      obtain ⟨spots, hsp⟩ := Option.isSome_iff_exists.1 (getOpenSpots_isSome hb)
      rw [hsp]
      cases spots with
      | nil => exact ⟨false, b, rfl, hb⟩
      | cons spot rest =>
        obtain ⟨x, y⟩ := spot
        simp only
        have hA : ∃ ok b1, (if s > 0 then
            tryRotations (fun b' => recur b' (s - 1) c) x y [0, 1] (Tile.new .STRAIGHT) b
            else some (false, b)) = some (ok, b1) ∧ b1.DirsOK := by
          by_cases hs0 : s > 0
          · rw [if_pos hs0]
            exact tryRotations_returns (hs hs0) _ _ _ (fun r _ => Tile.dirsOK_straight _) hb
          · rw [if_neg hs0]
            exact ⟨false, b, rfl, hb⟩
        obtain ⟨ok, b1, h1, hb1⟩ := hA
        rw [h1]
        cases ok with
        | true => exact ⟨true, b1, rfl, hb1⟩
        | false =>
          simp only
          by_cases hc0 : c > 0
          · rw [if_pos hc0]
            refine tryRotations_returns (hc hc0) _ _ _ ?_ hb1
            decide
          · rw [if_neg hc0]
            exact ⟨false, b1, rfl, hb1⟩

/-- On a board whose connections are directions, `Solver.solve` returns a result. -/
theorem solve_returns (b : Board) (s c : Nat) (hb : b.DirsOK) :
    ∃ ok b', solve b s c = some (ok, b') ∧ b'.DirsOK := by
  obtain ⟨n, hn⟩ : ∃ n, s + c = n := ⟨_, rfl⟩
  induction n generalizing b s c with
  | zero =>
    rw [solve_eq_solveBody]
    exact solveBody_returns b s c (fun h => absurd hn (by omega)) (fun h => absurd hn (by omega)) hb
  | succ n ih =>
    rw [solve_eq_solveBody]
    exact solveBody_returns b s c (fun h b' hb' => ih b' (s - 1) c hb' (by omega))
      (fun h b' hb' => ih b' s (c - 1) hb' (by omega)) hb

end Solver

/-! ## A gap no Curve fits -/

theorem offsetAt_some_cases {d : Int} {o : Int × Int} (h : offsetAt d = some o) :
    (d = 0 ∧ o = (0, -1)) ∨ (d = 1 ∧ o = (1, 0)) ∨ (d = 2 ∧ o = (0, 1))
      ∨ (d = 3 ∧ o = (-1, 0)) := by
  obtain ⟨h0, h4⟩ := offsetAt_some_range h
  interval_cases d
  · left; refine ⟨rfl, ?_⟩
    have : offsetAt 0 = some (0, -1) := by decide
    rw [this] at h; exact (Option.some.inj h).symm
  · right; left; refine ⟨rfl, ?_⟩
    have : offsetAt 1 = some (1, 0) := by decide
    rw [this] at h; exact (Option.some.inj h).symm
  · right; right; left; refine ⟨rfl, ?_⟩
    have : offsetAt 2 = some (0, 1) := by decide
    rw [this] at h; exact (Option.some.inj h).symm
  · right; right; right; refine ⟨rfl, ?_⟩
    have : offsetAt 3 = some (-1, 0) := by decide
    rw [this] at h; exact (Option.some.inj h).symm

namespace Grid

theorem get_isSome_of_mem {g : Grid} {e : Coord × Tile} (h : e ∈ g) :
    (get g e.1).isSome = true := by
  cases hg : get g e.1 with
  | none => exact absurd rfl ((get_eq_none_iff g e.1).1 hg e h)
  | some t => rfl

theorem mem_set_of_mem {g : Grid} {p : Coord} {t : Tile} {e : Coord × Tile} (h : e ∈ g)
    (hp : get g p = none) : e ∈ set g p t := by
  rw [set_eq_append g p t hp]
  exact List.mem_append_left _ h

end Grid

namespace Board

theorem neighborAt_placeTile_of_some {b : Board} {x y d x1 y1 : Int} {n t1 : Tile}
    (hn : b.neighborAt x y d = some n) (hfree1 : b.getTile x1 y1 = none) :
    (b.placeTile x1 y1 t1).neighborAt x y d = some n := by
  unfold neighborAt at hn ⊢
  cases ho : offsetAt d with
  | none => simp [ho] at hn
  | some o =>
    obtain ⟨dx, dy⟩ := o
    simp only [ho] at hn ⊢
    rw [getTile_placeTile_ne _ _ _ _ _ _ ?_]
    · exact hn
    · intro heq
      obtain ⟨hx, hy⟩ := Prod.mk.inj heq
      rw [hx, hy, hfree1] at hn
      exact Option.noConfusion hn

theorem adjacent_of_pointedAt {b : Board} {x y : Int} (hp : b.PointedAt x y) :
    (b.getTile x (y - 1)).isSome ∨ (b.getTile (x + 1) y).isSome
      ∨ (b.getTile x (y + 1)).isSome ∨ (b.getTile (x - 1) y).isSome := by
  obtain ⟨e, he, d, -, o, ho, hxy⟩ := hp
  have hsome := Grid.get_isSome_of_mem he
  obtain ⟨⟨ex, ey⟩, t⟩ := e
  obtain ⟨hx, hy⟩ := Prod.mk.inj hxy
  simp only at hx hy hsome
  rcases offsetAt_some_cases ho with ⟨-, rfl⟩ | ⟨-, rfl⟩ | ⟨-, rfl⟩ | ⟨-, rfl⟩
  · right; right; left
    have h1 : x = ex := by simp at hx; omega
    have h2 : y + 1 = ey := by simp at hy; omega
    simp only [getTile, h1, h2]; exact hsome
  · right; right; right
    have h1 : x - 1 = ex := by simp at hx; omega
    have h2 : y = ey := by simp at hy; omega
    simp only [getTile, h1, h2]; exact hsome
  · left
    have h1 : x = ex := by simp at hx; omega
    have h2 : y - 1 = ey := by simp at hy; omega
    simp only [getTile, h1, h2]; exact hsome
  · right; left
    have h1 : x + 1 = ex := by simp at hx; omega
    have h2 : y = ey := by simp at hy; omega
    simp only [getTile, h1, h2]; exact hsome

theorem isValidPlacement_false_placeTile {b : Board} {x y x1 y1 : Int} {t t1 : Tile}
    (hfree1 : b.getTile x1 y1 = none) (hfree : b.getTile x y = none)
    (hadj : (b.getTile x (y - 1)).isSome ∨ (b.getTile (x + 1) y).isSome
      ∨ (b.getTile x (y + 1)).isSome ∨ (b.getTile (x - 1) y).isSome)
    (hinv : b.isValidPlacement x y t = false) :
    (b.placeTile x1 y1 t1).isValidPlacement x y t = false := by
  by_contra hcon
  have hval : (b.placeTile x1 y1 t1).isValidPlacement x y t = true := by
    simpa using hcon
  obtain ⟨-, -, hedges⟩ := (isValidPlacement_spec _ x y t).1 hval
  have : b.isValidPlacement x y t = true :=
    (isValidPlacement_spec b x y t).2 ⟨hfree, Or.inr hadj, fun d hd0 hd4 n hn =>
      hedges d hd0 hd4 n (neighborAt_placeTile_of_some hn hfree1)⟩
  rw [hinv] at this
  exact Bool.noConfusion this

theorem pointedAt_placeTile {b : Board} {x y x1 y1 : Int} {t1 : Tile}
    (hfree1 : b.getTile x1 y1 = none) (hp : b.PointedAt x y) :
    (b.placeTile x1 y1 t1).PointedAt x y := by
  obtain ⟨e, he, d, hd, o, ho, hxy⟩ := hp
  exact ⟨e, Grid.mem_set_of_mem he hfree1, d, hd, o, ho, hxy⟩

theorem pointedAt_congr {b1 b2 : Board} (h : b1.grid = b2.grid) {x y : Int}
    (hp : b1.PointedAt x y) : b2.PointedAt x y := by
  obtain ⟨e, he, rest⟩ := hp
  exact ⟨e, h ▸ he, rest⟩

theorem hasOpenEnds_true_of_pointedAt {b : Board} {x y : Int} (hd : b.DirsOK)
    (hfree : b.getTile x y = none) (hp : b.PointedAt x y) : b.hasOpenEnds = some true := by
  obtain ⟨r, hr⟩ := Option.isSome_iff_exists.1 (hasOpenEnds_isSome hd)
  cases r with
  | true => exact hr
  | false =>
    exfalso
    obtain ⟨e, he, d, hdc, o, ho, hxy⟩ := hp
    have hlen : ¬ b.grid.length = 0 := by
      intro h0
      rw [List.length_eq_zero.1 h0] at he
      simp at he
    unfold hasOpenEnds at hr
    rw [if_neg hlen] at hr
    have h1 := (scanConns_eq_false_iff b _ _ _).1 ((scanTiles_eq_false_iff b b.grid).1 hr e he)
      d hdc
    obtain ⟨hx, hy⟩ := Prod.mk.inj hxy
    simp [neighborAt, ho, hx, hy, hfree] at h1

end Board

namespace Solver

theorem tryRotations_fails {recur : Board → Option (Bool × Board)} {x y : Int}
    (rs : List Int) (tile : Tile) (b : Board)
    (hfail : ∀ r ∈ rs, ∀ b0 : Board, b0.grid = b.grid →
      b0.isValidPlacement x y ⟨tile.type, Int.tmod r 4⟩ = true →
      ∃ b2, recur (b0.placeTile x y ⟨tile.type, Int.tmod r 4⟩) = some (false, b2)
        ∧ b2.grid = (b0.placeTile x y ⟨tile.type, Int.tmod r 4⟩).grid) :
    ∃ b', tryRotations recur x y rs tile b = some (false, b') ∧ b'.grid = b.grid := by
  induction rs generalizing tile b with
  | nil => exact ⟨b, rfl, rfl⟩
  | cons r rs ih =>
    simp only [tryRotations]
    by_cases hv : b.isValidPlacement x y (tile.setRotation r) = true
    · rw [if_pos hv]
      obtain ⟨b2, h2, hg2⟩ := hfail r (List.mem_cons_self _ _) b rfl hv
      have h2' : recur (b.placeTile x y (tile.setRotation r)) = some (false, b2) := h2
      rw [h2']
      simp only
      have hgrid : (b2.removeTile x y).grid = b.grid := by
        rw [Board.removeTile_grid, hg2, Board.placeTile_grid,
          Grid.delete_set_of_get_none _ _ _ (Board.getTile_none_of_valid hv)]
      obtain ⟨b', h', hg'⟩ := ih (tile.setRotation r) (b2.removeTile x y)
        (fun r' hr' b0 hb0 hv0 =>
          hfail r' (List.mem_cons_of_mem _ hr') b0 (hb0.trans hgrid) hv0)
      exact ⟨b', h', hg'.trans hgrid⟩
    · rw [if_neg hv]
      exact ih (tile.setRotation r) b
        (fun r' hr' b0 hb0 hv0 => hfail r' (List.mem_cons_of_mem _ hr') b0 hb0 hv0)

theorem tmod_mem_rotations :
    ∀ r ∈ [(0 : Int), 1, 2, 3], Int.tmod r 4 ∈ [(0 : Int), 1, 2, 3] := by
  decide

theorem curve_dirsOK_rotations :
    ∀ r ∈ [(0 : Int), 1, 2, 3], (Tile.mk .CURVE (Int.tmod r 4)).DirsOK := by
  decide

/-- With no Straight in hand, a free cell that is pointed at and that no Curve fits keeps the
search from ever succeeding. -/
theorem solve_blocked (x y : Int) (c : Nat) (b : Board) (hd : b.DirsOK)
    (hfree : b.getTile x y = none) (hp : b.PointedAt x y)
    (hno : ∀ r ∈ [(0 : Int), 1, 2, 3], b.isValidPlacement x y ⟨.CURVE, r⟩ = false) :
    ∃ b', solve b 0 c = some (false, b') := by
  induction c generalizing b with
  | zero =>
    rw [solve_eq_solveBody]
    unfold solveBody
    rw [Board.hasOpenEnds_true_of_pointedAt hd hfree hp]
    exact ⟨b, by simp⟩
  | succ c ih =>
    rw [solve_eq_solveBody]
    unfold solveBody
    rw [Board.hasOpenEnds_true_of_pointedAt hd hfree hp]
    obtain ⟨spots, hsp⟩ := Option.isSome_iff_exists.1 (getOpenSpots_isSome hd)
    simp only [hsp, Nat.add_one_ne_zero, and_false, if_false]
    cases spots with
    | nil => exact ⟨b, rfl⟩
    | cons spot rest =>
      obtain ⟨x1, y1⟩ := spot
      simp only [gt_iff_lt, Nat.lt_irrefl, if_false, Nat.zero_lt_succ, if_true,
        Nat.add_sub_cancel]
      obtain ⟨b', h', -⟩ := @tryRotations_fails (fun b'' => solve b'' 0 c)
        x1 y1 [0, 1, 2, 3] (Tile.new .CURVE) b (by
          intro r hr b0 hb0 hv0
          have hv : b.isValidPlacement x1 y1 ⟨.CURVE, Int.tmod r 4⟩ = true := by
            rw [← Board.isValidPlacement_congr hb0]; exact hv0
          have hfree1 : b.getTile x1 y1 = none := Board.getTile_none_of_valid hv
          have hr4 : Int.tmod r 4 ∈ [(0 : Int), 1, 2, 3] := tmod_mem_rotations r hr
          have hne : (x, y) ≠ (x1, y1) := by
            intro heq
            obtain ⟨hx, hy⟩ := Prod.mk.inj heq
            have := hno _ hr4
            rw [hx, hy, hv] at this
            exact Bool.noConfusion this
          have hgrid : (b0.placeTile x1 y1 ⟨.CURVE, Int.tmod r 4⟩).grid
              = (b.placeTile x1 y1 ⟨.CURVE, Int.tmod r 4⟩).grid :=
            Board.placeTile_grid_congr hb0 _ _ _
          have htile : (Tile.mk .CURVE (Int.tmod r 4)).DirsOK := curve_dirsOK_rotations r hr
          obtain ⟨b2, h2⟩ := ih (b0.placeTile x1 y1 ⟨.CURVE, Int.tmod r 4⟩)
            (Board.dirsOK_placeTile (Board.dirsOK_congr hb0.symm hd) _ _ htile)
            (by
              rw [Board.getTile_congr hgrid, Board.getTile_placeTile_ne _ _ _ _ _ _ hne]
              exact hfree)
            (Board.pointedAt_congr hgrid.symm (Board.pointedAt_placeTile hfree1 hp))
            (by
              intro r' hr'
              rw [Board.isValidPlacement_congr hgrid]
              exact Board.isValidPlacement_false_placeTile hfree1 hfree
                (Board.adjacent_of_pointedAt hp) (hno r' hr'))
          exact ⟨b2, h2, solve_false_grid _ _ _ _ h2⟩)
      exact ⟨b', h'⟩

theorem isPossible_blocked (b : Board) (x y : Int)
    (hrot : ∀ e ∈ b.grid, 0 ≤ e.2.rotation ∧ e.2.rotation < 4)
    (hfree : b.getTile x y = none) (hp : b.PointedAt x y)
    (hno : ∀ r : Int, 0 ≤ r → r < 4 → b.isValidPlacement x y ⟨.CURVE, r⟩ = false) (c : Nat) :
    isPossible b 0 c = some false := by
  have hd : b.DirsOK := fun e he => Tile.dirsOK_of_rotation e.2 (hrot e he).1 (hrot e he).2
  obtain ⟨b', h'⟩ := solve_blocked x y c b hd hfree hp (by
    intro r hr
    have h04 : 0 ≤ r ∧ r < 4 := by
      simp only [List.mem_cons, List.mem_singleton, List.mem_nil_iff, or_false] at hr
      omega
    exact hno r h04.1 h04.2)
  simp [isPossible, h']

end Solver

/-! ## Open spots -/

namespace Board

theorem neighborAt_isSome_offset {b : Board} {x y d : Int}
    (h : (b.neighborAt x y d).isSome = true) : (offsetAt d).isSome = true := by
  unfold neighborAt at h
  cases ho : offsetAt d with
  | none => simp [ho] at h
  | some o => rfl

theorem hasOpenEnds_false_iff_forall (b : Board) (hne : b.grid ≠ []) :
    b.hasOpenEnds = some false ↔
      ∀ e ∈ b.grid, ∀ d ∈ e.2.getConnections, (b.neighborAt e.1.1 e.1.2 d).isSome = true := by
  have hlen : ¬ b.grid.length = 0 := fun h => hne (List.length_eq_zero.1 h)
  unfold hasOpenEnds
  rw [if_neg hlen, scanTiles_eq_false_iff]
  exact forall₂_congr (fun e _ => scanConns_eq_false_iff b _ _ _)

theorem scanConns_eq_true {b : Board} {x y : Int} {cs : List Int}
    (h : b.scanConns x y cs = some true) :
    ∃ d ∈ cs, ∃ o, offsetAt d = some o ∧ b.getTile (x + o.1) (y + o.2) = none := by
  induction cs with
  | nil => simp [scanConns] at h
  | cons d rest ih =>
    simp only [scanConns] at h
    cases ho : offsetAt d with
    | none => simp [ho] at h
    | some o =>
      obtain ⟨dx, dy⟩ := o
      simp only [ho] at h
      cases hg : b.getTile (x + dx) (y + dy) with
      | none => exact ⟨d, List.mem_cons_self _ _, (dx, dy), ho, hg⟩
      | some n =>
        simp only [hg, Option.isNone_some, Bool.false_eq_true, if_false] at h
        obtain ⟨d', hd', o', ho', hg'⟩ := ih h
        exact ⟨d', List.mem_cons_of_mem _ hd', o', ho', hg'⟩

theorem scanTiles_eq_true {b : Board} {g : Grid} (h : b.scanTiles g = some true) :
    ∃ e ∈ g, ∃ d ∈ e.2.getConnections, ∃ o, offsetAt d = some o
      ∧ b.getTile (e.1.1 + o.1) (e.1.2 + o.2) = none := by
  induction g with
  | nil => simp [scanTiles] at h
  | cons e rest ih =>
    obtain ⟨⟨x, y⟩, t⟩ := e
    simp only [scanTiles] at h
    cases hs : b.scanConns x y t.getConnections with
    | none => simp [hs] at h
    | some r =>
      cases r with
      | true =>
        obtain ⟨d, hd, o, ho, hg⟩ := scanConns_eq_true hs
        exact ⟨((x, y), t), List.mem_cons_self _ _, d, hd, o, ho, hg⟩
      | false =>
        simp only [hs] at h
        obtain ⟨e', he', rest'⟩ := ih h
        exact ⟨e', List.mem_cons_of_mem _ he', rest'⟩

/-- A board with open ends that holds a tile has a free cell that a connection points at. -/
theorem exists_pointedAt_of_hasOpenEnds {b : Board} (hne : b.grid ≠ [])
    (h : b.hasOpenEnds = some true) : ∃ x y, b.getTile x y = none ∧ b.PointedAt x y := by
  have hlen : ¬ b.grid.length = 0 := fun h => hne (List.length_eq_zero.1 h)
  unfold hasOpenEnds at h
  rw [if_neg hlen] at h
  obtain ⟨e, he, d, hd, o, ho, hg⟩ := scanTiles_eq_true h
  exact ⟨_, _, hg, e, he, d, hd, o, ho, rfl⟩

end Board

namespace Solver

theorem mem_addSpot {spots : List Coord} {p q : Coord} :
    q ∈ addSpot spots p ↔ q ∈ spots ∨ q = p := by
  unfold addSpot
  by_cases h : p ∈ spots
  · rw [if_pos h]
    constructor
    · exact Or.inl
    · rintro (h1 | h1)
      · exact h1
      · rw [h1]; exact h
  · rw [if_neg h]
    simp

theorem mem_spotsOfConns {b : Board} {x y : Int} {cs : List Int} {acc acc' : List Coord}
    (h : spotsOfConns b x y cs acc = some acc') (q : Coord) :
    q ∈ acc' ↔ q ∈ acc ∨ ∃ d ∈ cs, ∃ o, offsetAt d = some o ∧ (x + o.1, y + o.2) = q
      ∧ b.getTile q.1 q.2 = none := by
  induction cs generalizing acc with
  | nil =>
    simp only [spotsOfConns, Option.some.injEq] at h
    subst h
    simp
  | cons d rest ih =>
    simp only [spotsOfConns] at h
    cases ho : offsetAt d with
    | none => simp [ho] at h
    | some o =>
      obtain ⟨dx, dy⟩ := o
      simp only [ho] at h
      cases hg : b.getTile (x + dx) (y + dy) with
      | none =>
        simp only [hg, Option.isNone_none, if_true] at h
        rw [ih h, mem_addSpot]
        constructor
        · rintro ((h1 | h1) | ⟨d', hd', rest'⟩)
          · exact Or.inl h1
          · exact Or.inr ⟨d, List.mem_cons_self _ _, (dx, dy), ho, h1.symm, by rw [h1]; exact hg⟩
          · exact Or.inr ⟨d', List.mem_cons_of_mem _ hd', rest'⟩
        · rintro (h1 | ⟨d', hd', o', ho', hq, hfree⟩)
          · exact Or.inl (Or.inl h1)
          · rcases List.mem_cons.1 hd' with heq | hmem
            · subst heq
              rw [ho] at ho'
              cases ho'
              exact Or.inl (Or.inr hq.symm)
            · exact Or.inr ⟨d', hmem, o', ho', hq, hfree⟩
      | some n =>
        simp only [hg, Option.isNone_some, Bool.false_eq_true, if_false] at h
        rw [ih h]
        constructor
        · rintro (h1 | ⟨d', hd', rest'⟩)
          · exact Or.inl h1
          · exact Or.inr ⟨d', List.mem_cons_of_mem _ hd', rest'⟩
        · rintro (h1 | ⟨d', hd', o', ho', hq, hfree⟩)
          · exact Or.inl h1
          · rcases List.mem_cons.1 hd' with heq | hmem
            · subst heq
              rw [ho] at ho'
              cases ho'
              rw [← hq] at hfree
              rw [hg] at hfree
              exact Option.noConfusion hfree
            · exact Or.inr ⟨d', hmem, o', ho', hq, hfree⟩

theorem mem_spotsOfTiles {b : Board} {g : Grid} {acc acc' : List Coord}
    (h : spotsOfTiles b g acc = some acc') (q : Coord) :
    q ∈ acc' ↔ q ∈ acc ∨ ∃ e ∈ g, ∃ d ∈ e.2.getConnections, ∃ o, offsetAt d = some o
      ∧ (e.1.1 + o.1, e.1.2 + o.2) = q ∧ b.getTile q.1 q.2 = none := by
  induction g generalizing acc with
  | nil =>
    simp only [spotsOfTiles, Option.some.injEq] at h
    subst h
    simp
  | cons e rest ih =>
    obtain ⟨⟨x, y⟩, t⟩ := e
    simp only [spotsOfTiles] at h
    cases hs : spotsOfConns b x y t.getConnections acc with
    | none => simp [hs] at h
    | some acc1 =>
      simp only [hs] at h
      rw [ih h, mem_spotsOfConns hs]
      constructor
      · rintro ((h1 | ⟨d, hd, o, ho, hq, hfree⟩) | ⟨e', he', rest'⟩)
        · exact Or.inl h1
        · exact Or.inr ⟨((x, y), t), List.mem_cons_self _ _, d, hd, o, ho, hq, hfree⟩
        · exact Or.inr ⟨e', List.mem_cons_of_mem _ he', rest'⟩
      · rintro (h1 | ⟨e', he', d, hd, o, ho, hq, hfree⟩)
        · exact Or.inl (Or.inl h1)
        · rcases List.mem_cons.1 he' with heq | hmem
          · subst heq
            exact Or.inl (Or.inr ⟨d, hd, o, ho, hq, hfree⟩)
          · exact Or.inr ⟨e', hmem, d, hd, o, ho, hq, hfree⟩

/-- The cells `getOpenSpots` returns are exactly the free cells that a connection points at. -/
theorem mem_getOpenSpots {b : Board} {spots : List Coord} (h : getOpenSpots b = some spots)
    (q : Coord) : q ∈ spots ↔ b.getTile q.1 q.2 = none ∧ b.PointedAt q.1 q.2 := by
  unfold getOpenSpots at h
  rw [mem_spotsOfTiles h]
  simp only [List.not_mem_nil, false_or]
  constructor
  · rintro ⟨e, he, d, hd, o, ho, hq, hfree⟩
    exact ⟨hfree, e, he, d, hd, o, ho, hq⟩
  · rintro ⟨hfree, e, he, d, hd, o, ho, hq⟩
    exact ⟨e, he, d, hd, o, ho, hq, hfree⟩

end Solver

/-! ## One tile closes the loop -/

namespace Board

theorem isValidPlacement_conn_congr (b : Board) (x y : Int) {t t' : Tile}
    (h : t'.getConnections = t.getConnections) :
    b.isValidPlacement x y t' = b.isValidPlacement x y t := by
  simp [isValidPlacement, h]

theorem getTile_placeTile_isSome (b : Board) (x y p q : Int) (t : Tile) :
    ((b.placeTile x y t).getTile p q).isSome = (decide ((p, q) = (x, y)) || (b.getTile p q).isSome) := by
  by_cases h : (p, q) = (x, y)
  · obtain ⟨hp, hq⟩ := Prod.mk.inj h
    subst hp hq
    simp [getTile_placeTile_self]
  · rw [getTile_placeTile_ne _ _ _ _ _ _ h]
    simp [h]

theorem neighborAt_placeTile_isSome_congr {b b0 : Board} (hb0 : b0.grid = b.grid)
    (x y p q d : Int) (t t' : Tile) :
    ((b0.placeTile x y t').neighborAt p q d).isSome
      = ((b.placeTile x y t).neighborAt p q d).isSome := by
  unfold neighborAt
  cases ho : offsetAt d with
  | none => rfl
  | some o =>
    obtain ⟨dx, dy⟩ := o
    simp only
    rw [getTile_placeTile_isSome, getTile_placeTile_isSome, getTile_congr hb0]

/-- Whether a placement on a free cell leaves no open end depends on the tile through its
connections only. -/
theorem hasOpenEnds_placeTile_conn_congr {b b0 : Board} (hb0 : b0.grid = b.grid) {x y : Int}
    {t t' : Tile} (hc : t'.getConnections = t.getConnections) (hfree : b.getTile x y = none)
    (h : (b.placeTile x y t).hasOpenEnds = some false) :
    (b0.placeTile x y t').hasOpenEnds = some false := by
  have hfree0 : Grid.get b0.grid (x, y) = none := by rw [hb0]; exact hfree
  have hg : (b.placeTile x y t).grid = b.grid ++ [((x, y), t)] :=
    Grid.set_eq_append _ _ _ hfree
  have hg0 : (b0.placeTile x y t').grid = b.grid ++ [((x, y), t')] := by
    rw [placeTile_grid, Grid.set_eq_append _ _ _ hfree0, hb0]
  have hne : (b.placeTile x y t).grid ≠ [] := by rw [hg]; simp
  have hne0 : (b0.placeTile x y t').grid ≠ [] := by rw [hg0]; simp
  rw [hasOpenEnds_false_iff_forall _ hne] at h
  rw [hasOpenEnds_false_iff_forall _ hne0]
  intro e he d hd
  rw [neighborAt_placeTile_isSome_congr hb0 x y _ _ d t t']
  rw [hg0] at he
  rcases List.mem_append.1 he with h1 | h1
  · exact h e (by rw [hg]; exact List.mem_append_left _ h1) d hd
  · rw [List.mem_singleton] at h1
    subst h1
    exact h ((x, y), t) (by rw [hg]; simp) d (by rw [← hc]; exact hd)

end Board

namespace Solver

theorem solve_of_closed {b : Board} (s c : Nat) (h : b.hasOpenEnds = some false) :
    solve b s c = some (true, b) := by
  rw [solve_eq_solveBody]
  unfold solveBody
  rw [h]

theorem tryRotations_finds {recur : Board → Option (Bool × Board)} {x y : Int}
    (hres : RestoresGrid recur) (rs : List Int) (tile : Tile) (b : Board)
    (htot : ∀ r ∈ rs, ∀ b0 : Board, b0.grid = b.grid →
      b0.isValidPlacement x y ⟨tile.type, Int.tmod r 4⟩ = true →
      (recur (b0.placeTile x y ⟨tile.type, Int.tmod r 4⟩)).isSome = true)
    (r0 : Int) (hr0 : r0 ∈ rs)
    (hgood : ∀ b0 : Board, b0.grid = b.grid →
      b0.isValidPlacement x y ⟨tile.type, Int.tmod r0 4⟩ = true
        ∧ ∃ b', recur (b0.placeTile x y ⟨tile.type, Int.tmod r0 4⟩) = some (true, b')) :
    ∃ b', tryRotations recur x y rs tile b = some (true, b') := by
  induction rs generalizing tile b with
  | nil => simp at hr0
  | cons r rs ih =>
    simp only [tryRotations]
    by_cases hv : b.isValidPlacement x y (tile.setRotation r) = true
    · rw [if_pos hv]
      obtain ⟨res, hres1⟩ := Option.isSome_iff_exists.1 (htot r (List.mem_cons_self _ _) b rfl hv)
      obtain ⟨ok, b1⟩ := res
      have hres1' : recur (b.placeTile x y (tile.setRotation r)) = some (ok, b1) := hres1
      rw [hres1']
      cases ok with
      | true => exact ⟨b1, rfl⟩
      | false =>
        simp only
        have hgrid : (b1.removeTile x y).grid = b.grid := by
          rw [Board.removeTile_grid, hres _ _ hres1', Board.placeTile_grid,
            Grid.delete_set_of_get_none _ _ _ (Board.getTile_none_of_valid hv)]
        have hmem : r0 ∈ rs := by
          rcases List.mem_cons.1 hr0 with heq | hmem
          · subst heq
            obtain ⟨-, b', hb'⟩ := hgood b rfl
            rw [hres1] at hb'
            simp at hb'
          · exact hmem
        exact ih (tile.setRotation r) (b1.removeTile x y)
          (fun r' hr' b0 hb0 hv0 => htot r' (List.mem_cons_of_mem _ hr') b0 (hb0.trans hgrid) hv0)
          hmem (fun b0 hb0 => hgood b0 (hb0.trans hgrid))
    · rw [if_neg hv]
      have hmem : r0 ∈ rs := by
        rcases List.mem_cons.1 hr0 with heq | hmem
        · subst heq
          exact absurd (hgood b rfl).1 hv
        · exact hmem
      exact ih (tile.setRotation r) b
        (fun r' hr' b0 hb0 hv0 => htot r' (List.mem_cons_of_mem _ hr') b0 hb0 hv0)
        hmem hgood

theorem straight_conn_match (ρ : Int) (h0 : 0 ≤ ρ) (h4 : ρ < 4) :
    ∃ r ∈ [(0 : Int), 1], (Tile.mk .STRAIGHT (Int.tmod r 4)).getConnections
      = (Tile.mk .STRAIGHT ρ).getConnections := by
  interval_cases ρ
  · exact ⟨0, by decide, by decide⟩
  · exact ⟨1, by decide, by decide⟩
  · exact ⟨0, by decide, by decide⟩
  · exact ⟨1, by decide, by decide⟩

theorem curve_conn_match (ρ : Int) (h0 : 0 ≤ ρ) (h4 : ρ < 4) :
    ∃ r ∈ [(0 : Int), 1, 2, 3], (Tile.mk .CURVE (Int.tmod r 4)).getConnections
      = (Tile.mk .CURVE ρ).getConnections := by
  interval_cases ρ
  · exact ⟨0, by decide, by decide⟩
  · exact ⟨1, by decide, by decide⟩
  · exact ⟨2, by decide, by decide⟩
  · exact ⟨3, by decide, by decide⟩

end Solver

namespace Solver

theorem returns_solve (s c : Nat) : Returns (fun b => solve b s c) :=
  fun b hb => solve_returns b s c hb

theorem restoresGrid_solve (s c : Nat) : RestoresGrid (fun b => solve b s c) :=
  fun b1 b2 h => solve_false_grid b1 s c b2 h

/-- The rotation loop for one kind succeeds when some rotation it tries has the connections of a
tile that fits at the spot and closes the board. -/
theorem tryRotations_closing {b b1 : Board} (hb1 : b1.grid = b.grid) (hd : b.DirsOK)
    {x y : Int} {t : Tile} (hv : b.isValidPlacement x y t = true)
    (hclosed : (b.placeTile x y t).hasOpenEnds = some false) (s c : Nat)
    (rs : List Int) (k : TileType)
    (hok : ∀ r ∈ rs, (Tile.mk k (Int.tmod r 4)).DirsOK)
    (hmatch : ∃ r ∈ rs, (Tile.mk k (Int.tmod r 4)).getConnections = t.getConnections) :
    ∃ b', tryRotations (fun b'' => solve b'' s c) x y rs (Tile.new k) b1 = some (true, b') := by
  obtain ⟨r0, hr0, hc⟩ := hmatch
  refine tryRotations_finds (restoresGrid_solve s c) rs (Tile.new k) b1 ?_ r0 hr0 ?_
  · intro r hr b0 hb0 _
    obtain ⟨ok, b', h', -⟩ := solve_returns (b0.placeTile x y ⟨k, Int.tmod r 4⟩) s c
      (Board.dirsOK_placeTile (Board.dirsOK_congr (hb0.trans hb1).symm hd) x y (hok r hr))
    show (solve (b0.placeTile x y ⟨k, Int.tmod r 4⟩) s c).isSome = true
    rw [h']
    rfl
  · intro b0 hb0
    have hb : b0.grid = b.grid := hb0.trans hb1
    refine ⟨?_, (b0.placeTile x y ⟨k, Int.tmod r0 4⟩), ?_⟩
    · show b0.isValidPlacement x y ⟨k, Int.tmod r0 4⟩ = true
      rw [Board.isValidPlacement_congr hb, Board.isValidPlacement_conn_congr b x y hc]
      exact hv
    · show solve (b0.placeTile x y ⟨k, Int.tmod r0 4⟩) s c = _
      exact solve_of_closed s c
        (Board.hasOpenEnds_placeTile_conn_congr hb hc (Board.getTile_none_of_valid hv) hclosed)

theorem first_spot_of_closing {b : Board} {x y : Int} {t : Tile} (hne : b.grid ≠ [])
    (hopen : b.hasOpenEnds = some true) (hv : b.isValidPlacement x y t = true)
    (hclosed : (b.placeTile x y t).hasOpenEnds = some false) :
    b.DirsOK ∧ ∃ rest, getOpenSpots b = some ((x, y) :: rest) := by
  have hfree := Board.getTile_none_of_valid hv
  have hg : (b.placeTile x y t).grid = b.grid ++ [((x, y), t)] :=
    Grid.set_eq_append _ _ _ hfree
  have hall := (Board.hasOpenEnds_false_iff_forall _ (by rw [hg]; simp)).1 hclosed
  have hin : ∀ e ∈ b.grid, e ∈ (b.placeTile x y t).grid := fun e he => by
    rw [hg]; exact List.mem_append_left _ he
  have hd : b.DirsOK := fun e he d hd' =>
    Board.neighborAt_isSome_offset (hall e (hin e he) d hd')
  refine ⟨hd, ?_⟩
  obtain ⟨spots, hsp⟩ := Option.isSome_iff_exists.1 (getOpenSpots_isSome hd)
  obtain ⟨x1, y1, hf1, hp1⟩ := Board.exists_pointedAt_of_hasOpenEnds hne hopen
  have hmem1 : (x1, y1) ∈ spots := (mem_getOpenSpots hsp _).2 ⟨hf1, hp1⟩
  have hall_xy : ∀ q ∈ spots, q = (x, y) := by
    intro q hq
    obtain ⟨hqf, e, he, d, hdc, o, ho, hxy⟩ := (mem_getOpenSpots hsp q).1 hq
    have h1 := hall e (hin e he) d hdc
    by_contra hneq
    have h2 : (b.placeTile x y t).getTile q.1 q.2 = b.getTile q.1 q.2 :=
      Board.getTile_placeTile_ne _ _ _ _ _ _ hneq
    obtain ⟨hx, hy⟩ := Prod.mk.inj (hxy.trans (Prod.mk.eta (p := q)).symm)
    simp [Board.neighborAt, ho, hx, hy, h2, hqf] at h1
  cases spots with
  | nil => simp at hmem1
  | cons spot rest =>
    have := hall_xy spot (List.mem_cons_self _ _)
    subst this
    exact ⟨rest, hsp⟩

/-- One-tile closure. -/
theorem isPossible_one_tile (b : Board) (s c : Nat) (x y : Int) (t : Tile)
    (hne : b.grid ≠ []) (hopen : b.hasOpenEnds = some true)
    (hkind : (t.type = .STRAIGHT ∧ 0 < s) ∨ (t.type = .CURVE ∧ 0 < c))
    (hrot : 0 ≤ t.rotation ∧ t.rotation < 4)
    (hv : b.isValidPlacement x y t = true)
    (hclosed : (b.placeTile x y t).hasOpenEnds = some false) :
    isPossible b s c = some true := by
  obtain ⟨hd, rest, hsp⟩ := first_spot_of_closing hne hopen hv hclosed
  have hz : ¬ (s = 0 ∧ c = 0) := by
    rcases hkind with ⟨-, h⟩ | ⟨-, h⟩ <;> omega
  unfold isPossible
  simp only [Board.clone_eq]
  rw [solve_eq_solveBody]
  unfold solveBody
  rw [hopen]
  simp only [if_neg hz, hsp]
  rcases hkind with ⟨hk, hs0⟩ | ⟨hk, hc0⟩
  · have hmatch : ∃ r ∈ [(0 : Int), 1],
        (Tile.mk .STRAIGHT (Int.tmod r 4)).getConnections = t.getConnections := by
      obtain ⟨k, ρ⟩ := t
      simp only at hk hrot
      subst hk
      exact straight_conn_match ρ hrot.1 hrot.2
    obtain ⟨b', hb'⟩ := tryRotations_closing (rfl : b.grid = b.grid) hd hv hclosed (s - 1) c [0, 1]
      .STRAIGHT (fun r _ => Tile.dirsOK_straight _) hmatch
    rw [if_pos hs0, hb']
    rfl
  · have hmatch : ∃ r ∈ [(0 : Int), 1, 2, 3],
        (Tile.mk .CURVE (Int.tmod r 4)).getConnections = t.getConnections := by
      obtain ⟨k, ρ⟩ := t
      simp only at hk hrot
      subst hk
      exact curve_conn_match ρ hrot.1 hrot.2
    have hA : ∃ ok b1, (if s > 0 then
        tryRotations (fun b' => solve b' (s - 1) c) x y [0, 1] (Tile.new .STRAIGHT) b
        else some (false, b)) = some (ok, b1) ∧ (ok = false → b1.grid = b.grid) := by
      by_cases hs0 : s > 0
      · rw [if_pos hs0]
        obtain ⟨ok, b1, h1, -⟩ := tryRotations_returns (x := x) (y := y)
          (returns_solve (s - 1) c) [0, 1] (Tile.new .STRAIGHT) b
          (fun r _ => Tile.dirsOK_straight _) hd
        refine ⟨ok, b1, h1, fun hok => ?_⟩
        subst hok
        exact tryRotations_false_grid (restoresGrid_solve (s - 1) c) _ _ _ _ h1
      · rw [if_neg hs0]
        exact ⟨false, b, rfl, fun _ => rfl⟩
    obtain ⟨ok, b1, h1, hb1⟩ := hA
    rw [h1]
    cases ok with
    | true => rfl
    | false =>
      obtain ⟨b', hb'⟩ := tryRotations_closing (hb1 rfl) hd hv hclosed s (c - 1) [0, 1, 2, 3]
        .CURVE curve_dirsOK_rotations hmatch
      simp only [if_pos hc0, hb']
      rfl

end Solver

/-- C9 (one-tile closure): on a non-empty board with open ends, if a tile of a kind still in
hand, in some rotation `0..3`, can legally be placed at some `(x, y)` and leaves the board with
no open ends, then `Solver.isPossible` returns true. -/
theorem C9_one_tile_closure (b : Board) (s c : Nat) (x y : Int) (t : Tile)
    (hne : b.grid ≠ []) (hopen : b.hasOpenEnds = some true)
    (hkind : (t.type = .STRAIGHT ∧ 0 < s) ∨ (t.type = .CURVE ∧ 0 < c))
    (hrot : 0 ≤ t.rotation ∧ t.rotation < 4)
    (hv : b.isValidPlacement x y t = true)
    (hclosed : (b.placeTile x y t).hasOpenEnds = some false) :
    Solver.isPossible b s c = some true :=
  Solver.isPossible_one_tile b s c x y t hne hopen hkind hrot hv hclosed

/-- C9 at the board of the test 'Basic Loop Check': Curves at `(0, 0)` rotation 0, `(1, 0)`
rotation 1 and `(1, 1)` rotation 2; the Curve of rotation 3 at `(0, 1)` closes the loop, and
`isPossible(board, 0, 1)` is true. -/
theorem C9_one_tile_closure_witness :
    basicLoopBoard.grid = [((0, 0), ⟨.CURVE, 0⟩), ((1, 0), ⟨.CURVE, 1⟩), ((1, 1), ⟨.CURVE, 2⟩)]
    ∧ basicLoopBoard.hasOpenEnds = some true
    ∧ basicLoopBoard.isValidPlacement 0 1 ⟨.CURVE, 3⟩ = true
    ∧ (basicLoopBoard.placeTile 0 1 ⟨.CURVE, 3⟩).hasOpenEnds = some false
    ∧ Solver.isPossible basicLoopBoard 0 1 = some true :=
  ⟨by decide, by decide, by decide, by decide,
   C9_one_tile_closure basicLoopBoard 0 1 0 1 ⟨.CURVE, 3⟩ (by decide) (by decide)
     (Or.inr ⟨rfl, by decide⟩) (by decide) (by decide) (by decide)⟩

/-! ## The caller's board is left alone -/

namespace Heap

theorem Frame.refl (w n : Nat) (h : Heap) : Frame w n h h :=
  ⟨fun _ _ => rfl, Nat.le_refl _, fun _ _ => rfl, fun _ _ => rfl, rfl⟩

theorem Frame.trans {w n : Nat} {h1 h2 h3 : Heap} (h12 : Frame w n h1 h2)
    (h23 : Frame w n h2 h3) : Frame w n h1 h3 := by
  obtain ⟨t12, n12, m12, b12, g12⟩ := h12
  obtain ⟨t23, n23, m23, b23, g23⟩ := h23
  refine ⟨fun p hp => (t23 p hp).trans (t12 p hp), Nat.le_trans n12 n23, fun m hm => ?_,
    fun a ha => (b23 a ha).trans (b12 a ha), g23.trans g12⟩
  exact (m23 m (by rw [g12]; exact hm)).trans (m12 m hm)

theorem Frame.mono {w n n' : Nat} {h h' : Heap} (hn : n ≤ n') (hf : Frame w n' h h') :
    Frame w n h h' :=
  ⟨fun p hp => hf.1 p (Nat.lt_of_lt_of_le hp hn), hf.2⟩

theorem frame_newTile (w : Nat) (h : Heap) (k : TileType) :
    Frame w h.nextTile h (h.newTile k).2 := by
  refine ⟨fun p hp => ?_, Nat.le_succ _, fun _ _ => rfl, fun _ _ => rfl, rfl⟩
  show Function.update h.tile h.nextTile (Tile.new k) p = h.tile p
  exact Function.update_noteq (Nat.ne_of_lt hp) _ _

theorem frame_setRotation (w : Nat) {n p : Nat} (hp : n ≤ p) (h : Heap) (r : Int) :
    Frame w n h (h.setRotation p r) := by
  refine ⟨fun q hq => ?_, Nat.le_refl _, fun _ _ => rfl, fun _ _ => rfl, rfl⟩
  show Function.update h.tile p _ q = h.tile q
  exact Function.update_noteq (Nat.ne_of_lt (Nat.lt_of_lt_of_le hq hp)) _ _

theorem frame_placeTile (w n : Nat) (h : Heap) (x y : Int) (p : Nat) :
    Frame w n h (h.placeTile w x y p) := by
  refine ⟨fun _ _ => rfl, Nat.le_refl _, fun m hm => ?_, fun a ha => ?_, ?_⟩
  · show Function.update h.map (h.board w).grid _ m = h.map m
    exact Function.update_noteq hm _ _
  · show Function.update h.board w _ a = h.board a
    exact Function.update_noteq ha _ _
  · show (Function.update h.board w _ w).grid = (h.board w).grid
    rw [Function.update_same]

theorem frame_removeTile (w n : Nat) (h : Heap) (x y : Int) :
    Frame w n h (h.removeTile w x y) := by
  refine ⟨fun _ _ => rfl, Nat.le_refl _, fun m hm => ?_, fun _ _ => rfl, rfl⟩
  show Function.update h.map (h.board w).grid _ m = h.map m
  exact Function.update_noteq hm _ _

theorem tryRotations_frame {recur : Heap → Option (Bool × Heap)} {w n : Nat} {x y : Int}
    {p : Nat} (hp : n ≤ p)
    (hrec : ∀ h res, n ≤ h.nextTile → recur h = some res → Frame w n h res.2)
    (rs : List Int) (h : Heap) (res : Bool × Heap) (hn : n ≤ h.nextTile)
    (hres : tryRotations recur w x y p rs h = some res) : Frame w n h res.2 := by
  induction rs generalizing h with
  | nil =>
    simp only [tryRotations, Option.some.injEq] at hres
    subst hres
    exact Frame.refl _ _ _
  | cons r rs ih =>
    simp only [tryRotations] at hres
    have f1 : Frame w n h (h.setRotation p r) := frame_setRotation w hp h r
    by_cases hv : ((h.setRotation p r).view w).isValidPlacement x y ((h.setRotation p r).tile p)
        = true
    · rw [if_pos hv] at hres
      have f2 : Frame w n h ((h.setRotation p r).placeTile w x y p) :=
        f1.trans (frame_placeTile w n _ x y p)
      cases hr : recur ((h.setRotation p r).placeTile w x y p) with
      | none => simp [hr] at hres
      | some res1 =>
        obtain ⟨ok, h1⟩ := res1
        have f3 : Frame w n h h1 :=
          f2.trans (hrec _ _ (Nat.le_trans hn f2.2.1) hr)
        cases ok with
        | true =>
          simp only [hr, Option.some.injEq] at hres
          subst hres
          exact f3
        | false =>
          simp only [hr] at hres
          have f4 : Frame w n h (h1.removeTile w x y) := f3.trans (frame_removeTile w n _ x y)
          exact f4.trans (ih _ (Nat.le_trans hn f4.2.1) hres)
    · rw [if_neg hv] at hres
      exact f1.trans (ih _ (Nat.le_trans hn f1.2.1) hres)

theorem solveBody_frame {recur : Heap → Nat → Nat → Nat → Option (Bool × Heap)}
    (hrec : ∀ h w s c res, recur h w s c = some res → Frame w h.nextTile h res.2)
    (h : Heap) (w s c : Nat) (res : Bool × Heap) (hres : solveBody recur h w s c = some res) :
    Frame w h.nextTile h res.2 := by
  have hrec' : ∀ s c h' res, h.nextTile ≤ h'.nextTile → recur h' w s c = some res →
      Frame w h.nextTile h' res.2 :=
    fun s c h' res hn hr => Frame.mono hn (hrec h' w s c res hr)
  unfold solveBody at hres
  cases ho : (h.view w).hasOpenEnds with
  | none => simp [ho] at hres
  | some open_ =>
    cases open_ with
    | false =>
      simp only [ho, Option.some.injEq] at hres
      subst hres
      exact Frame.refl _ _ _
    | true =>
      simp only [ho] at hres
      by_cases hz : s = 0 ∧ c = 0
      · rw [if_pos hz] at hres
        simp only [Option.some.injEq] at hres
        subst hres
        exact Frame.refl _ _ _
      · rw [if_neg hz] at hres
        cases hs : Solver.getOpenSpots (h.view w) with
        | none => simp [hs] at hres
        | some spots =>
          cases spots with
          | nil =>
            simp only [hs, Option.some.injEq] at hres
            subst hres
            exact Frame.refl _ _ _
          | cons spot rest =>
            obtain ⟨x, y⟩ := spot
            simp only [hs] at hres
            have hA : ∀ res1, (if s > 0 then
                tryRotations (fun h' => recur h' w (s - 1) c) w x y (h.newTile .STRAIGHT).1
                  [0, 1] (h.newTile .STRAIGHT).2
                else some (false, h)) = some res1 → Frame w h.nextTile h res1.2 := by
              intro res1 h1
              by_cases hs0 : s > 0
              · rw [if_pos hs0] at h1
                exact (frame_newTile w h .STRAIGHT).trans
                  (tryRotations_frame (Nat.le_refl _) (hrec' (s - 1) c) _ _ _
                    (Nat.le_succ _) h1)
              · rw [if_neg hs0] at h1
                simp only [Option.some.injEq] at h1
                subst h1
                exact Frame.refl _ _ _
            cases hst : (if s > 0 then
                tryRotations (fun h' => recur h' w (s - 1) c) w x y (h.newTile .STRAIGHT).1
                  [0, 1] (h.newTile .STRAIGHT).2
                else some (false, h)) with
            | none => simp [hst] at hres
            | some res1 =>
              obtain ⟨ok, h1⟩ := res1
              have f1 : Frame w h.nextTile h h1 := hA _ hst
              cases ok with
              | true =>
                simp only [hst, Option.some.injEq] at hres
                subst hres
                exact f1
              | false =>
                simp only [hst] at hres
                by_cases hc0 : c > 0
                · rw [if_pos hc0] at hres
                  have f2 : Frame w h.nextTile h (h1.newTile .CURVE).2 :=
                    f1.trans (Frame.mono f1.2.1 (frame_newTile w h1 .CURVE))
                  exact f2.trans (tryRotations_frame (p := (h1.newTile .CURVE).1) f1.2.1
                    (hrec' s (c - 1)) _ _ _ f2.2.1 hres)
                · rw [if_neg hc0] at hres
                  simp only [Option.some.injEq] at hres
                  subst hres
                  exact f1

theorem solveFuel_frame (fuel : Nat) (h : Heap) (w s c : Nat) (res : Bool × Heap)
    (hres : solveFuel fuel h w s c = some res) : Frame w h.nextTile h res.2 := by
  induction fuel generalizing h w s c res with
  | zero => exact solveBody_frame (fun h w s c res hr => by simp at hr) h w s c res hres
  | succ n ih => exact solveBody_frame (fun h w s c res hr => ih h w s c res hr) h w s c res hres

theorem clone_fst (h : Heap) (board : Nat) : (h.clone board).1 = h.nextBoard := rfl

theorem clone_nextTile (h : Heap) (board : Nat) : (h.clone board).2.nextTile = h.nextTile := rfl

theorem clone_tile (h : Heap) (board : Nat) : (h.clone board).2.tile = h.tile := rfl

theorem clone_board_of_lt (h : Heap) (board : Nat) {a : Nat} (ha : a < h.nextBoard) :
    (h.clone board).2.board a = h.board a := by
  show Function.update (Function.update h.board h.nextBoard _) h.nextBoard _ a = _
  rw [Function.update_noteq (Nat.ne_of_lt ha), Function.update_noteq (Nat.ne_of_lt ha)]

theorem clone_working_grid (h : Heap) (board : Nat) :
    ((h.clone board).2.board h.nextBoard).grid = h.nextMap + 1 := by
  show (Function.update (Function.update h.board h.nextBoard _) h.nextBoard _
    h.nextBoard).grid = _
  rw [Function.update_same]

theorem clone_map_of_lt (h : Heap) (board : Nat) {m : Nat} (hm : m < h.nextMap) :
    (h.clone board).2.map m = h.map m := by
  show Function.update (Function.update h.map h.nextMap _) (h.nextMap + 1) _ m = _
  rw [Function.update_noteq (by omega), Function.update_noteq (by omega)]

/-- After `isPossible`, the caller's board object, its map and the tiles in it are as before. -/
theorem isPossible_kept (h : Heap) (board s c : Nat) (hb : board < h.nextBoard)
    (hm : (h.board board).grid < h.nextMap)
    (ht : ∀ e ∈ h.map (h.board board).grid, e.2 < h.nextTile)
    (res : Bool × Heap) (hres : h.isPossible board s c = some res) :
    res.2.board board = h.board board
      ∧ res.2.map (h.board board).grid = h.map (h.board board).grid
      ∧ ∀ e ∈ h.map (h.board board).grid, res.2.tile e.2 = h.tile e.2 := by
  have hres' : solveFuel (s + c) (h.clone board).2 (h.clone board).1 s c = some res := hres
  have F := solveFuel_frame _ _ _ _ _ _ hres'
  generalize hcl : h.clone board = cl at F
  obtain ⟨w, h1⟩ := cl
  have hw : w = h.nextBoard := by rw [← clone_fst h board, hcl]
  have hnt : h1.nextTile = h.nextTile := by rw [← clone_nextTile h board, hcl]
  have htl : h1.tile = h.tile := by rw [← clone_tile h board, hcl]
  have hbo : h1.board board = h.board board := by rw [← clone_board_of_lt h board hb, hcl]
  have hwg : (h1.board w).grid = h.nextMap + 1 := by
    rw [hw, ← clone_working_grid h board, hcl]
  have hmp : h1.map (h.board board).grid = h.map (h.board board).grid := by
    rw [← clone_map_of_lt h board hm, hcl]
  obtain ⟨ftile, -, fmap, fboard, -⟩ := F
  simp only at ftile fmap fboard
  refine ⟨(fboard board (by omega)).trans hbo, (fmap _ (by rw [hwg]; omega)).trans hmp, ?_⟩
  intro e he
  rw [ftile e.2 (by rw [hnt]; exact ht e he), htl]

theorem view_eq_of_kept {h h' : Heap} {board : Nat} (hb : h'.board board = h.board board)
    (hm : h'.map (h.board board).grid = h.map (h.board board).grid)
    (ht : ∀ e ∈ h.map (h.board board).grid, h'.tile e.2 = h.tile e.2) :
    h'.view board = h.view board := by
  unfold view
  rw [hb]
  simp only [hm]
  have htiles : (h.map (h.board board).grid).map (fun e => (e.1, h'.tile e.2))
      = (h.map (h.board board).grid).map (fun e => (e.1, h.tile e.2)) := by
    apply List.map_congr_left
    intro e he
    rw [ht e he]
  simp only [htiles]

end Heap

/-- C3: a call `Solver.isPossible(board, s, c)` that returns leaves the caller's board as it
was, whatever the boolean: the board object, its map and every tile in it are unchanged, so the
board reads the same, with the same occupied coordinates and at each a tile of the same kind and
rotation. The caller's board is any allocated board whose map and tiles are allocated. -/
theorem C3_isPossible_leaves_board (h : Heap) (board s c : Nat) (hb : board < h.nextBoard)
    (hm : (h.board board).grid < h.nextMap)
    (ht : ∀ e ∈ h.map (h.board board).grid, e.2 < h.nextTile)
    (res : Bool × Heap) (hres : h.isPossible board s c = some res) :
    res.2.view board = h.view board
      ∧ res.2.map (res.2.board board).grid = h.map (h.board board).grid
      ∧ ∀ e ∈ h.map (h.board board).grid, res.2.tile e.2 = h.tile e.2 := by
  obtain ⟨kb, km, kt⟩ := Heap.isPossible_kept h board s c hb hm ht res hres
  exact ⟨Heap.view_eq_of_kept kb km kt, by rw [kb]; exact km, kt⟩

/-- C3 at the heap of the test 'Basic Loop Check': `isPossible(board, 0, 1)` returns true, and
board 0 reads as before the call. -/
theorem C3_isPossible_leaves_board_witness :
    ∃ res, Heap.basicLoop.isPossible 0 0 1 = some res ∧ res.1 = true
      ∧ res.2.view 0 = Heap.basicLoop.view 0 ∧ Heap.basicLoop.view 0 = basicLoopBoard := by
  cases hI : Heap.basicLoop.isPossible 0 0 1 with
  | none =>
    have hsome : (Heap.basicLoop.isPossible 0 0 1).isSome = true := by decide
    rw [hI] at hsome
    exact Bool.noConfusion hsome
  | some res =>
    have htrue : ((Heap.basicLoop.isPossible 0 0 1).map (fun r => r.1)) = some true := by decide
    rw [hI] at htrue
    exact ⟨res, rfl, Option.some.inj htrue,
      (C3_isPossible_leaves_board Heap.basicLoop 0 0 1 (by decide) (by decide) (by decide)
        res hI).1, by decide⟩

/-! ## The heap run and the value run agree -/

namespace Heap

theorem map_mapSet (f : Nat → Tile) (m : List (Coord × Nat)) (k : Coord) (p : Nat) :
    (mapSet m k p).map (fun e => (e.1, f e.2))
      = Grid.set (m.map (fun e => (e.1, f e.2))) k (f p) := by
  induction m with
  | nil => rfl
  | cons e rest ih =>
    obtain ⟨k', u⟩ := e
    by_cases hk : k' = k
    · simp [mapSet, Grid.set, hk]
    · simp [mapSet, Grid.set, hk, ih]

theorem map_mapDelete (f : Nat → Tile) (m : List (Coord × Nat)) (k : Coord) :
    (mapDelete m k).map (fun e => (e.1, f e.2))
      = Grid.delete (m.map (fun e => (e.1, f e.2))) k := by
  induction m with
  | nil => rfl
  | cons e rest ih =>
    obtain ⟨k', u⟩ := e
    by_cases hk : k' = k
    · simp [mapDelete, Grid.delete, hk, ih]
    · simp [mapDelete, Grid.delete, hk, ih]

theorem mem_mapSet {m : List (Coord × Nat)} {k : Coord} {p : Nat} {e : Coord × Nat}
    (h : e ∈ mapSet m k p) : e ∈ m ∨ e = (k, p) := by
  induction m with
  | nil => simpa [mapSet] using h
  | cons a rest ih =>
    obtain ⟨k', u⟩ := a
    by_cases hk : k' = k
    · simp only [mapSet, hk, if_true, List.mem_cons] at h
      rcases h with h | h
      · exact Or.inr h
      · exact Or.inl (List.mem_cons_of_mem _ h)
    · simp only [mapSet, hk, if_false, List.mem_cons] at h
      rcases h with h | h
      · exact Or.inl (by simp [h])
      · rcases ih h with h' | h'
        · exact Or.inl (List.mem_cons_of_mem _ h')
        · exact Or.inr h'

theorem mapDelete_mapSet (f : Nat → Tile) (m : List (Coord × Nat)) (k : Coord) (p : Nat)
    (hfree : Grid.get (m.map (fun e => (e.1, f e.2))) k = none) :
    mapDelete (mapSet m k p) k = m := by
  induction m with
  | nil => simp [mapSet, mapDelete]
  | cons e rest ih =>
    obtain ⟨k', u⟩ := e
    by_cases hk : k' = k
    · simp [Grid.get, hk] at hfree
    · simp only [List.map_cons, Grid.get, hk, if_false] at hfree
      simp [mapSet, mapDelete, hk, ih hfree]

theorem placeTile_board_self (h : Heap) (w : Nat) (x y : Int) (p : Nat) :
    (h.placeTile w x y p).board w
      = { h.board w with minX := min (h.board w).minX x, maxX := max (h.board w).maxX x,
                         minY := min (h.board w).minY y, maxY := max (h.board w).maxY y } := by
  show Function.update h.board w _ w = _
  rw [Function.update_same]

theorem placeTile_map_self (h : Heap) (w : Nat) (x y : Int) (p : Nat) :
    (h.placeTile w x y p).map (h.board w).grid = mapSet (h.map (h.board w).grid) (x, y) p := by
  show Function.update h.map (h.board w).grid _ (h.board w).grid = _
  rw [Function.update_same]

theorem removeTile_map_self (h : Heap) (w : Nat) (x y : Int) :
    (h.removeTile w x y).map (h.board w).grid = mapDelete (h.map (h.board w).grid) (x, y) := by
  show Function.update h.map (h.board w).grid _ (h.board w).grid = _
  rw [Function.update_same]

theorem view_placeTile (h : Heap) (w : Nat) (x y : Int) (p : Nat) :
    (h.placeTile w x y p).view w = (h.view w).placeTile x y (h.tile p) := by
  have hb := placeTile_board_self h w x y p
  have hm := placeTile_map_self h w x y p
  have ht : (h.placeTile w x y p).tile = h.tile := rfl
  unfold view
  rw [hb]
  simp only [hm, ht, map_mapSet]
  rfl

theorem view_removeTile (h : Heap) (w : Nat) (x y : Int) :
    (h.removeTile w x y).view w = (h.view w).removeTile x y := by
  have hb : (h.removeTile w x y).board = h.board := rfl
  have hm := removeTile_map_self h w x y
  have ht : (h.removeTile w x y).tile = h.tile := rfl
  unfold view
  rw [hb]
  simp only [hm, ht, map_mapDelete]
  rfl

theorem view_congr_tile {h h' : Heap} {w : Nat} (hb : h'.board = h.board) (hm : h'.map = h.map)
    (ht : ∀ e ∈ h.map (h.board w).grid, h'.tile e.2 = h.tile e.2) :
    h'.view w = h.view w :=
  view_eq_of_kept (by rw [hb]) (by rw [hm]) ht

theorem view_setRotation {h : Heap} {w p : Nat}
    (hp : ∀ e ∈ h.map (h.board w).grid, e.2 ≠ p) (r : Int) :
    (h.setRotation p r).view w = h.view w := by
  refine view_congr_tile rfl rfl (fun e he => ?_)
  show Function.update h.tile p _ e.2 = h.tile e.2
  exact Function.update_noteq (hp e he) _ _

theorem view_newTile {h : Heap} {w : Nat} (ha : Allocated h w) (k : TileType) :
    (h.newTile k).2.view w = h.view w := by
  refine view_congr_tile rfl rfl (fun e he => ?_)
  show Function.update h.tile h.nextTile _ e.2 = h.tile e.2
  exact Function.update_noteq (Nat.ne_of_lt (ha e he)) _ _

theorem tile_setRotation_self (h : Heap) (p : Nat) (r : Int) :
    (h.setRotation p r).tile p = (h.tile p).setRotation r := by
  show Function.update h.tile p _ p = _
  rw [Function.update_same]

theorem tile_newTile_self (h : Heap) (k : TileType) :
    (h.newTile k).2.tile (h.newTile k).1 = Tile.new k := by
  show Function.update h.tile h.nextTile _ h.nextTile = _
  rw [Function.update_same]

end Heap

namespace Heap

theorem agree_refl (w n : Nat) (h : Heap) (ha : Allocated h w) :
    Agree w n h (some (false, h)) (some (false, h.view w)) :=
  ⟨rfl, Frame.refl _ _ _, ha, fun _ => rfl⟩

theorem tryRotations_agree {w : Nat} {rH : Heap → Option (Bool × Heap)}
    {rV : Board → Option (Bool × Board)} (hsim : Simulates w rH rV) (x y : Int) (p n : Nat)
    (hn : n ≤ p) (rs : List Int) (h : Heap) (ha : Allocated h w) (hp : p < h.nextTile)
    (hfresh : ∀ e ∈ h.map (h.board w).grid, e.2 ≠ p) :
    Agree w n h (tryRotations rH w x y p rs h)
      (Solver.tryRotations rV x y rs (h.tile p) (h.view w)) := by
  induction rs generalizing h with
  | nil => exact agree_refl w n h ha
  | cons r rs ih =>
    have hv1 : (h.setRotation p r).view w = h.view w := view_setRotation hfresh r
    have ht1 : (h.setRotation p r).tile p = (h.tile p).setRotation r :=
      tile_setRotation_self h p r
    have f1 : Frame w n h (h.setRotation p r) := frame_setRotation w hn h r
    simp only [tryRotations, Solver.tryRotations]
    rw [hv1, ht1]
    by_cases hv : (h.view w).isValidPlacement x y ((h.tile p).setRotation r) = true
    · rw [if_pos hv, if_pos hv]
      have hv2 : ((h.setRotation p r).placeTile w x y p).view w
          = (h.view w).placeTile x y ((h.tile p).setRotation r) := by
        rw [view_placeTile, hv1, ht1]
      have hm2 : ((h.setRotation p r).placeTile w x y p).map (h.board w).grid
          = mapSet (h.map (h.board w).grid) (x, y) p :=
        placeTile_map_self (h.setRotation p r) w x y p
      have hg2 : (((h.setRotation p r).placeTile w x y p).board w).grid = (h.board w).grid := by
        rw [placeTile_board_self]
        rfl
      have ha2 : Allocated ((h.setRotation p r).placeTile w x y p) w := by
        intro e he
        rw [hg2, hm2] at he
        rcases mem_mapSet he with h' | h'
        · exact ha e h'
        · rw [h']; exact hp
      have f2 : Frame w n h ((h.setRotation p r).placeTile w x y p) :=
        f1.trans (frame_placeTile w n _ x y p)
      have hs := hsim _ ha2
      rw [hv2] at hs
      cases hr : rH ((h.setRotation p r).placeTile w x y p) with
      | none =>
        rw [hr] at hs
        have hs' : rV ((h.view w).placeTile x y ((h.tile p).setRotation r)) = none := hs
        rw [hs']
        exact rfl
      | some res =>
        obtain ⟨ok, h3⟩ := res
        rw [hr] at hs
        obtain ⟨hs1, f23, ha3, hrest⟩ := hs
        rw [hs1]
        have f3 : Frame w n h h3 := f2.trans (Frame.mono (Nat.le_of_lt (Nat.lt_of_le_of_lt hn hp)) f23)
        cases ok with
        | true => exact ⟨rfl, f3, ha3, fun hc => Bool.noConfusion hc⟩
        | false =>
          simp only
          have hg3 : (h3.board w).grid = (h.board w).grid := f3.2.2.2.2
          have hm3 : h3.map (h.board w).grid = mapSet (h.map (h.board w).grid) (x, y) p := by
            have := hrest rfl
            rw [hg2] at this
            rw [this, hm2]
          have hfree : Grid.get ((h.map (h.board w).grid).map (fun e => (e.1, h.tile e.2)))
              (x, y) = none := Board.getTile_none_of_valid hv
          have hm4 : (h3.removeTile w x y).map (h.board w).grid = h.map (h.board w).grid := by
            have := removeTile_map_self h3 w x y
            rw [hg3] at this
            rw [this, hm3, mapDelete_mapSet h.tile _ _ _ hfree]
          have f4 : Frame w n h (h3.removeTile w x y) := f3.trans (frame_removeTile w n _ x y)
          have hg4 : ((h3.removeTile w x y).board w).grid = (h.board w).grid := hg3
          have ha4 : Allocated (h3.removeTile w x y) w := by
            intro e he
            rw [hg4, hm4] at he
            exact Nat.lt_of_lt_of_le (ha e he) f4.2.1
          have hp4 : p < (h3.removeTile w x y).nextTile := Nat.lt_of_lt_of_le hp f4.2.1
          have hfresh4 : ∀ e ∈ (h3.removeTile w x y).map ((h3.removeTile w x y).board w).grid,
              e.2 ≠ p := by
            intro e he
            rw [hg4, hm4] at he
            exact hfresh e he
          have ht4 : (h3.removeTile w x y).tile p = (h.tile p).setRotation r := by
            show h3.tile p = _
            rw [f23.1 p hp, ← ht1]
            rfl
          have hv4 : (h3.removeTile w x y).view w = (h3.view w).removeTile x y :=
            view_removeTile h3 w x y
          have := ih (h3.removeTile w x y) ha4 hp4 hfresh4
          rw [ht4, hv4] at this
          revert this
          cases tryRotations rH w x y p rs (h3.removeTile w x y) with
          | none => exact fun hh => hh
          | some res' =>
            obtain ⟨ok', h5⟩ := res'
            rintro ⟨e1, f45, ha5, hrest5⟩
            refine ⟨e1, f4.trans f45, ha5, fun hc => ?_⟩
            have := hrest5 hc
            rw [hg4] at this
            rw [this, hm4]
    · rw [if_neg hv, if_neg hv]
      have := ih (h.setRotation p r) ha hp hfresh
      rw [ht1, hv1] at this
      revert this
      cases tryRotations rH w x y p rs (h.setRotation p r) with
      | none => exact fun hh => hh
      | some res' =>
        obtain ⟨ok', h5⟩ := res'
        rintro ⟨e1, f15, ha5, hrest5⟩
        exact ⟨e1, f1.trans f15, ha5, hrest5⟩

end Heap

namespace Heap

theorem Agree.prepend {w n : Nat} {h h1 : Heap} {resH : Option (Bool × Heap)}
    {resV : Option (Bool × Board)} (f : Frame w n h h1)
    (hm : h1.map (h.board w).grid = h.map (h.board w).grid) (hag : Agree w n h1 resH resV) :
    Agree w n h resH resV := by
  cases resH with
  | none => exact hag
  | some res =>
    obtain ⟨ok, h'⟩ := res
    obtain ⟨e1, f1, ha1, hrest⟩ := hag
    refine ⟨e1, f.trans f1, ha1, fun hc => ?_⟩
    have := hrest hc
    rw [f.2.2.2.2] at this
    rw [this, hm]

theorem Agree.weaken {w n n' : Nat} (hn : n ≤ n') {h : Heap} {resH : Option (Bool × Heap)}
    {resV : Option (Bool × Board)} (hag : Agree w n' h resH resV) : Agree w n h resH resV := by
  cases resH with
  | none => exact hag
  | some res =>
    obtain ⟨ok, h'⟩ := res
    obtain ⟨e1, f1, ha1, hrest⟩ := hag
    exact ⟨e1, Frame.mono hn f1, ha1, hrest⟩

/-- A rotation loop with a newly allocated tile agrees with the loop on values. -/
theorem tryRotations_newTile_agree {w : Nat} {rH : Heap → Option (Bool × Heap)}
    {rV : Board → Option (Bool × Board)} (hsim : Simulates w rH rV) (x y : Int) (n : Nat)
    (rs : List Int) (k : TileType) (h : Heap) (ha : Allocated h w) (hn : n ≤ h.nextTile) :
    Agree w n h (tryRotations rH w x y (h.newTile k).1 rs (h.newTile k).2)
      (Solver.tryRotations rV x y rs (Tile.new k) (h.view w)) := by
  have ha1 : Allocated (h.newTile k).2 w := fun e he => Nat.lt_succ_of_lt (ha e he)
  have hag := tryRotations_agree hsim x y (h.newTile k).1 n hn rs (h.newTile k).2 ha1
    (Nat.lt_succ_self _) (fun e he => Nat.ne_of_lt (ha e he))
  rw [tile_newTile_self, view_newTile ha] at hag
  exact Agree.prepend (Frame.mono hn (frame_newTile w h k)) rfl hag

theorem solveBody_simulates {rH : Heap → Nat → Nat → Nat → Option (Bool × Heap)}
    {rV : Board → Nat → Nat → Option (Bool × Board)} (w : Nat)
    (hsim : ∀ s c, Simulates w (fun h => rH h w s c) (fun b => rV b s c)) (s c : Nat) :
    Simulates w (fun h => solveBody rH h w s c) (fun b => Solver.solveBody rV b s c) := by
  intro h ha
  show Agree w h.nextTile h (solveBody rH h w s c) (Solver.solveBody rV (h.view w) s c)
  unfold solveBody Solver.solveBody
  cases ho : (h.view w).hasOpenEnds with
  | none => exact rfl
  | some open_ =>
    cases open_ with
    | false => exact ⟨rfl, Frame.refl _ _ _, ha, fun hc => Bool.noConfusion hc⟩
    | true =>
      simp only
      by_cases hz : s = 0 ∧ c = 0
      · rw [if_pos hz, if_pos hz]
        exact agree_refl w _ h ha
      · rw [if_neg hz, if_neg hz]
        cases hs : Solver.getOpenSpots (h.view w) with
        | none => exact rfl
        | some spots =>
          cases spots with
          | nil => exact agree_refl w _ h ha
          | cons spot rest =>
            obtain ⟨x, y⟩ := spot
            simp only
            have hA : Agree w h.nextTile h
                (if s > 0 then
                  tryRotations (fun h' => rH h' w (s - 1) c) w x y (h.newTile .STRAIGHT).1
                    [0, 1] (h.newTile .STRAIGHT).2
                else some (false, h))
                (if s > 0 then
                  Solver.tryRotations (fun b' => rV b' (s - 1) c) x y [0, 1]
                    (Tile.new .STRAIGHT) (h.view w)
                else some (false, h.view w)) := by
              by_cases hs0 : s > 0
              · rw [if_pos hs0, if_pos hs0]
                exact tryRotations_newTile_agree (hsim (s - 1) c) x y _ _ _ h ha (Nat.le_refl _)
              · rw [if_neg hs0, if_neg hs0]
                exact agree_refl w _ h ha
            revert hA
            cases (if s > 0 then
                  tryRotations (fun h' => rH h' w (s - 1) c) w x y (h.newTile .STRAIGHT).1
                    [0, 1] (h.newTile .STRAIGHT).2
                else some (false, h)) with
            | none =>
              intro hA
              have hA' : (if s > 0 then
                  Solver.tryRotations (fun b' => rV b' (s - 1) c) x y [0, 1]
                    (Tile.new .STRAIGHT) (h.view w)
                else some (false, h.view w)) = none := hA
              rw [hA']
              exact rfl
            | some res =>
              obtain ⟨ok, h1⟩ := res
              rintro ⟨e1, f1, ha1, hrest⟩
              rw [e1]
              cases ok with
              | true => exact ⟨rfl, f1, ha1, fun hc => Bool.noConfusion hc⟩
              | false =>
                simp only
                by_cases hc0 : c > 0
                · rw [if_pos hc0, if_pos hc0]
                  exact Agree.prepend f1 (hrest rfl)
                    (tryRotations_newTile_agree (hsim s (c - 1)) x y _ _ _ h1 ha1 f1.2.1)
                · rw [if_neg hc0, if_neg hc0]
                  exact ⟨rfl, f1, ha1, hrest⟩

theorem solveFuel_simulates (fuel : Nat) (w s c : Nat) :
    Simulates w (fun h => solveFuel fuel h w s c) (fun b => Solver.solveFuel fuel b s c) := by
  induction fuel generalizing s c with
  | zero =>
    refine solveBody_simulates w (fun s c h _ => ?_) s c
    show Agree w h.nextTile h none none
    exact rfl
  | succ n ih => exact solveBody_simulates w (fun s c => ih s c) s c

/-- The run of `Solver.solve` on the heap and its run on board values agree: both throw, or
they return the same boolean and the working board reads at the end as the board the run on
values returns. -/
theorem solve_simulates (h : Heap) (w s c : Nat) (ha : Allocated h w) :
    (h.solve w s c).map (fun r => (r.1, r.2.view w)) = Solver.solve (h.view w) s c := by
  have hag : Agree w h.nextTile h (solveFuel (s + c) h w s c)
      (Solver.solveFuel (s + c) (h.view w) s c) := solveFuel_simulates (s + c) w s c h ha
  show (solveFuel (s + c) h w s c).map _ = Solver.solveFuel (s + c) (h.view w) s c
  revert hag
  cases solveFuel (s + c) h w s c with
  | none =>
    intro hag
    have hag' : Solver.solveFuel (s + c) (h.view w) s c = none := hag
    rw [hag']
    rfl
  | some res =>
    obtain ⟨ok, h'⟩ := res
    intro hag
    have hag' : Solver.solveFuel (s + c) (h.view w) s c = some (ok, h'.view w) := hag.1
    rw [hag']
    rfl

theorem clone_working_map (h : Heap) (board : Nat) (hm : (h.board board).grid < h.nextMap) :
    (h.clone board).2.map (h.nextMap + 1) = h.map (h.board board).grid := by
  show Function.update (Function.update h.map h.nextMap _) (h.nextMap + 1) _ (h.nextMap + 1)
    = _
  rw [Function.update_same]
  show Function.update h.map h.nextMap _ (h.board board).grid = _
  rw [Function.update_noteq (Nat.ne_of_lt hm)]

theorem view_clone (h : Heap) (board : Nat) (hm : (h.board board).grid < h.nextMap) :
    (h.clone board).2.view (h.clone board).1 = h.view board := by
  have hb : (h.clone board).2.board (h.clone board).1
      = ⟨h.nextMap + 1, (h.board board).minX, (h.board board).maxX, (h.board board).minY,
          (h.board board).maxY⟩ := by
    show Function.update (Function.update h.board h.nextBoard _) h.nextBoard _ h.nextBoard = _
    rw [Function.update_same]
  have hmp := clone_working_map h board hm
  unfold view
  rw [hb]
  simp only [hmp]
  rfl

/-- The boolean `Solver.isPossible` returns on the heap is the one it returns on the value of
the caller's board. -/
theorem isPossible_simulates (h : Heap) (board s c : Nat)
    (hm : (h.board board).grid < h.nextMap)
    (ht : ∀ e ∈ h.map (h.board board).grid, e.2 < h.nextTile) :
    (h.isPossible board s c).map (fun r => r.1) = Solver.isPossible (h.view board) s c := by
  have hv := view_clone h board hm
  have ha : Allocated (h.clone board).2 (h.clone board).1 := by
    intro e he
    have hb : ((h.clone board).2.board (h.clone board).1).grid = h.nextMap + 1 :=
      clone_working_grid h board
    rw [hb, clone_working_map h board hm] at he
    exact ht e he
  have hsim := solve_simulates (h.clone board).2 (h.clone board).1 s c ha
  rw [hv] at hsim
  show ((h.clone board).2.solve (h.clone board).1 s c).map _
    = (Solver.solve (h.view board) s c).map (fun r => r.1)
  rw [← hsim]
  cases (h.clone board).2.solve (h.clone board).1 s c with
  | none => rfl
  | some res => rfl

end Heap

/-! ## Completeness away from the empty board -/

namespace Solver

theorem tryRotations_succeeds {b b1 : Board} (hb1 : b1.grid = b.grid) (hd : b.DirsOK)
    {x y : Int} {t : Tile} (hv : b.isValidPlacement x y t = true) (s c : Nat)
    (rs : List Int) (k : TileType)
    (hok : ∀ r ∈ rs, (Tile.mk k (Int.tmod r 4)).DirsOK)
    (hmatch : ∃ r ∈ rs, (Tile.mk k (Int.tmod r 4)).getConnections = t.getConnections)
    (hnext : ∀ (b0 : Board) (t' : Tile), b0.grid = b.grid → t'.type = k →
      t'.getConnections = t.getConnections →
      ∃ b', solve (b0.placeTile x y t') s c = some (true, b')) :
    ∃ b', tryRotations (fun b'' => solve b'' s c) x y rs (Tile.new k) b1 = some (true, b') := by
  obtain ⟨r0, hr0, hc⟩ := hmatch
  refine tryRotations_finds (restoresGrid_solve s c) rs (Tile.new k) b1 ?_ r0 hr0 ?_
  · intro r hr b0 hb0 _
    obtain ⟨ok, b', h', -⟩ := solve_returns (b0.placeTile x y ⟨k, Int.tmod r 4⟩) s c
      (Board.dirsOK_placeTile (Board.dirsOK_congr (hb0.trans hb1).symm hd) x y (hok r hr))
    show (solve (b0.placeTile x y ⟨k, Int.tmod r 4⟩) s c).isSome = true
    rw [h']
    rfl
  · intro b0 hb0
    have hb : b0.grid = b.grid := hb0.trans hb1
    refine ⟨?_, ?_⟩
    · show b0.isValidPlacement x y ⟨k, Int.tmod r0 4⟩ = true
      rw [Board.isValidPlacement_congr hb, Board.isValidPlacement_conn_congr b x y hc]
      exact hv
    · exact hnext b0 ⟨k, Int.tmod r0 4⟩ hb rfl hc

/-- One level of the search: if a tile in hand fits at the first open spot and the search
succeeds after it (or after any tile of its kind with the same connections), the search
succeeds. -/
theorem solve_step {b : Board} {s c : Nat} {x y : Int} {rest : List Coord}
    (hopen : b.hasOpenEnds = some true) (hsp : getOpenSpots b = some ((x, y) :: rest))
    (hd : b.DirsOK) {t : Tile} (ht : t.InHand) (hv : b.isValidPlacement x y t = true)
    (hnext : ∀ (b0 : Board) (t' : Tile), b0.grid = b.grid → t'.type = t.type →
      t'.getConnections = t.getConnections →
      (t.type = .STRAIGHT ∧ 0 < s ∧
          ∃ b', solve (b0.placeTile x y t') (s - 1) c = some (true, b'))
        ∨ (t.type = .CURVE ∧ 0 < c ∧
          ∃ b', solve (b0.placeTile x y t') s (c - 1) = some (true, b'))) :
    ∃ b', solve b s c = some (true, b') := by
  obtain ⟨hkind, hr0, hr4⟩ := ht
  have hkind' : (t.type = .STRAIGHT ∧ 0 < s) ∨ (t.type = .CURVE ∧ 0 < c) := by
    rcases hnext b t rfl rfl rfl with ⟨h1, h2, -⟩ | ⟨h1, h2, -⟩
    · exact Or.inl ⟨h1, h2⟩
    · exact Or.inr ⟨h1, h2⟩
  have hz : ¬ (s = 0 ∧ c = 0) := by
    rcases hkind' with ⟨-, h⟩ | ⟨-, h⟩ <;> omega
  rw [solve_eq_solveBody]
  unfold solveBody
  rw [hopen]
  simp only [if_neg hz, hsp]
  rcases hkind' with ⟨hk, hs0⟩ | ⟨hk, hc0⟩
  · have hmatch : ∃ r ∈ [(0 : Int), 1],
        (Tile.mk .STRAIGHT (Int.tmod r 4)).getConnections = t.getConnections := by
      obtain ⟨k, ρ⟩ := t
      simp only at hk hr0 hr4
      subst hk
      exact straight_conn_match ρ hr0 hr4
    obtain ⟨b', hb'⟩ := tryRotations_succeeds (rfl : b.grid = b.grid) hd hv (s - 1) c [0, 1]
      .STRAIGHT (fun r _ => Tile.dirsOK_straight _) hmatch (by
        intro b0 t' hb0 ht' hc'
        rcases hnext b0 t' hb0 (ht'.trans hk.symm) hc' with ⟨-, -, h⟩ | ⟨h1, -, -⟩
        · exact h
        · rw [hk] at h1
          exact TileType.noConfusion h1)
    rw [if_pos hs0, hb']
    exact ⟨b', rfl⟩
  · have hmatch : ∃ r ∈ [(0 : Int), 1, 2, 3],
        (Tile.mk .CURVE (Int.tmod r 4)).getConnections = t.getConnections := by
      obtain ⟨k, ρ⟩ := t
      simp only at hk hr0 hr4
      subst hk
      exact curve_conn_match ρ hr0 hr4
    have hA : ∃ ok b1, (if s > 0 then
        tryRotations (fun b' => solve b' (s - 1) c) x y [0, 1] (Tile.new .STRAIGHT) b
        else some (false, b)) = some (ok, b1) ∧ (ok = false → b1.grid = b.grid) := by
      by_cases hs0 : s > 0
      · rw [if_pos hs0]
        obtain ⟨ok, b1, h1, -⟩ := tryRotations_returns (x := x) (y := y)
          (returns_solve (s - 1) c) [0, 1] (Tile.new .STRAIGHT) b
          (fun r _ => Tile.dirsOK_straight _) hd
        refine ⟨ok, b1, h1, fun hok => ?_⟩
        subst hok
        exact tryRotations_false_grid (restoresGrid_solve (s - 1) c) _ _ _ _ h1
      · rw [if_neg hs0]
        exact ⟨false, b, rfl, fun _ => rfl⟩
    obtain ⟨ok, b1, h1, hb1⟩ := hA
    rw [h1]
    cases ok with
    | true => exact ⟨b1, rfl⟩
    | false =>
      obtain ⟨b', hb'⟩ := tryRotations_succeeds (hb1 rfl) hd hv s (c - 1) [0, 1, 2, 3]
        .CURVE curve_dirsOK_rotations hmatch (by
          intro b0 t' hb0 ht' hc'
          rcases hnext b0 t' hb0 (ht'.trans hk.symm) hc' with ⟨h1, -, -⟩ | ⟨-, -, h⟩
          · rw [hk] at h1
            exact TileType.noConfusion h1
          · exact h)
      simp only [if_pos hc0, hb']
      exact ⟨b', rfl⟩

end Solver

namespace Grid

theorem get_append_of_some {g : Grid} {q : Coord} {t : Tile} (h : get g q = some t)
    (g' : Grid) : get (g ++ g') q = some t := by
  induction g with
  | nil => simp [get] at h
  | cons e rest ih =>
    obtain ⟨k, u⟩ := e
    by_cases hk : k = q
    · simp only [get, hk, if_true] at h
      simp [get, hk, h]
    · simp only [get, hk, if_false] at h
      simp [get, hk, ih h]

theorem get_append_of_none {g : Grid} {q : Coord} (h : get g q = none) (g' : Grid) :
    get (g ++ g') q = get g' q := by
  induction g with
  | nil => rfl
  | cons e rest ih =>
    obtain ⟨k, u⟩ := e
    by_cases hk : k = q
    · simp [get, hk] at h
    · simp only [get, hk, if_false] at h
      simp [get, hk, ih h]

end Grid

theorem get_entries_some {ps : List Placement} {q : Coord} {t : Tile}
    (h : Grid.get (ps.map Placement.entry) q = some t) :
    ∃ p ∈ ps, (p.x, p.y) = q ∧ p.tile = t := by
  induction ps with
  | nil => simp [Grid.get] at h
  | cons p rest ih =>
    by_cases hk : (p.x, p.y) = q
    · simp only [List.map_cons, Placement.entry, Grid.get, hk, if_true, Option.some.injEq] at h
      exact ⟨p, List.mem_cons_self _ _, hk, h⟩
    · simp only [List.map_cons, Placement.entry, Grid.get, hk, if_false] at h
      obtain ⟨p', hp', h1, h2⟩ := ih h
      exact ⟨p', List.mem_cons_of_mem _ hp', h1, h2⟩

theorem notAt_eq_true {k : Coord} {p : Placement} : p.notAt k = true ↔ (p.x, p.y) ≠ k := by
  simp [Placement.notAt]

theorem get_entries_filter (ps : List Placement) (k q : Coord) (hq : q ≠ k) :
    Grid.get ((ps.filter (Placement.notAt k)).map Placement.entry) q
      = Grid.get (ps.map Placement.entry) q := by
  induction ps with
  | nil => rfl
  | cons p rest ih =>
    by_cases hk : (p.x, p.y) = k
    · have hne : (p.x, p.y) ≠ q := fun h => hq (h.symm.trans hk)
      rw [List.filter_cons_of_neg (by rw [notAt_eq_true]; exact not_not.2 hk), ih]
      simp only [List.map_cons, Placement.entry, Grid.get, hne, if_false]
    · rw [List.filter_cons_of_pos (notAt_eq_true.2 hk)]
      by_cases hpq : (p.x, p.y) = q
      · simp only [List.map_cons, Placement.entry, Grid.get, hpq, if_true]
      · simp only [List.map_cons, Placement.entry, Grid.get, hpq, if_false, ih]

theorem length_filter_lt_of_mem {ps : List Placement} {p : Placement} (hp : p ∈ ps)
    (f : Placement → Bool) (hf : f p = false) : (ps.filter f).length < ps.length := by
  induction ps with
  | nil => simp at hp
  | cons a rest ih =>
    rcases List.mem_cons.1 hp with heq | hmem
    · subst heq
      rw [List.filter_cons_of_neg (by rw [hf]; exact Bool.false_ne_true)]
      exact Nat.lt_succ_of_le (List.length_filter_le _ _)
    · have := ih hmem
      by_cases ha : f a = true
      · rw [List.filter_cons_of_pos ha]
        simp only [List.length_cons]
        omega
      · rw [List.filter_cons_of_neg ha]
        simp only [List.length_cons]
        omega

theorem countKind_filter_le (k : TileType) (ps : List Placement) (f : Placement → Bool) :
    countKind k (ps.filter f) ≤ countKind k ps := by
  induction ps with
  | nil => exact Nat.le_refl _
  | cons a rest ih =>
    by_cases ha : f a = true
    · rw [List.filter_cons_of_pos ha, countKind_cons, countKind_cons]
      omega
    · rw [List.filter_cons_of_neg ha, countKind_cons]
      omega

theorem countKind_filter_lt {ps : List Placement} {p : Placement} (hp : p ∈ ps)
    (f : Placement → Bool) (hf : f p = false) :
    countKind p.tile.type (ps.filter f) + 1 ≤ countKind p.tile.type ps := by
  induction ps with
  | nil => simp at hp
  | cons a rest ih =>
    rcases List.mem_cons.1 hp with heq | hmem
    · subst heq
      rw [List.filter_cons_of_neg (by rw [hf]; exact Bool.false_ne_true), countKind_cons,
        if_pos rfl]
      have := countKind_filter_le p.tile.type rest f
      omega
    · have := ih hmem
      by_cases ha : f a = true
      · rw [List.filter_cons_of_pos ha, countKind_cons, countKind_cons]
        omega
      · rw [List.filter_cons_of_neg ha, countKind_cons]
        omega

namespace Board

theorem getTile_extend_of_some {b : Board} {x y : Int} {t : Tile} (h : b.getTile x y = some t)
    (ps : List Placement) : (b.extend ps).getTile x y = some t :=
  Grid.get_append_of_some h _

theorem getTile_extend_of_none {b : Board} {x y : Int} (h : b.getTile x y = none)
    (ps : List Placement) :
    (b.extend ps).getTile x y = Grid.get (ps.map Placement.entry) (x, y) :=
  Grid.get_append_of_none h _

theorem neighborAt_eq_getTile (u : Board) (x y : Int) {d : Int} {o : Int × Int}
    (ho : offsetAt d = some o) : u.neighborAt x y d = u.getTile (x + o.1) (y + o.2) := by
  unfold neighborAt
  rw [ho]

theorem neighborAt_extend_of_some {b : Board} {x y d : Int} {n : Tile}
    (h : b.neighborAt x y d = some n) (ps : List Placement) :
    (b.extend ps).neighborAt x y d = some n := by
  unfold neighborAt at h ⊢
  cases ho : offsetAt d with
  | none => simp [ho] at h
  | some o =>
    simp only [ho] at h ⊢
    exact getTile_extend_of_some h ps

/-- The board `u1` reads as `u` does, but for the cell `(x, y)`, where it holds `t'`. -/
theorem allPointed_step {u u1 : Board} {x y : Int} {t t' : Tile}
    (hu : ∀ qx qy, u1.getTile qx qy = if (qx, qy) = (x, y) then some t' else u.getTile qx qy)
    (ht : u.getTile x y = some t) (hc : t'.getConnections = t.getConnections)
    (hall : u.AllPointed) : u1.AllPointed := by
  have hsome : ∀ qx qy, (u1.getTile qx qy).isSome = (u.getTile qx qy).isSome := by
    intro qx qy
    rw [hu]
    by_cases hq : (qx, qy) = (x, y)
    · obtain ⟨h1, h2⟩ := Prod.mk.inj hq
      subst h1 h2
      simp [ht]
    · rw [if_neg hq]
  have hnb : ∀ a b d, (u1.neighborAt a b d).isSome = (u.neighborAt a b d).isSome := by
    intro a b d
    unfold neighborAt
    cases offsetAt d with
    | none => rfl
    | some o => exact hsome _ _
  intro qx qy t1 h1 d hd
  rw [hnb]
  rw [hu] at h1
  by_cases hq : (qx, qy) = (x, y)
  · rw [if_pos hq] at h1
    obtain ⟨e1, e2⟩ := Prod.mk.inj hq
    subst e1 e2
    have : t1 = t' := (Option.some.inj h1).symm
    subst this
    exact hall _ _ t ht d (by rw [← hc]; exact hd)
  · rw [if_neg hq] at h1
    exact hall _ _ t1 h1 d hd

theorem newConsistent_step {b b1 u u1 : Board} {x y : Int} {t t' : Tile}
    (hu : ∀ qx qy, u1.getTile qx qy = if (qx, qy) = (x, y) then some t' else u.getTile qx qy)
    (hb : ∀ qx qy, b1.getTile qx qy = if (qx, qy) = (x, y) then some t' else b.getTile qx qy)
    (ht : u.getTile x y = some t) (hc : t'.getConnections = t.getConnections)
    (hcons : b.NewConsistent u) : b1.NewConsistent u1 := by
  intro qx qy t1 h1 hfree d hd0 hd4 n hn
  have hq : (qx, qy) ≠ (x, y) := by
    intro hq
    rw [hb, if_pos hq] at hfree
    exact Option.noConfusion hfree
  rw [hu, if_neg hq] at h1
  rw [hb, if_neg hq] at hfree
  unfold neighborAt at hn
  cases ho : offsetAt d with
  | none => simp [ho] at hn
  | some o =>
    simp only [ho] at hn
    rw [hu] at hn
    by_cases hq' : (qx + o.1, qy + o.2) = (x, y)
    · rw [if_pos hq'] at hn
      have hn' : n = t' := (Option.some.inj hn).symm
      subst hn'
      have := hcons qx qy t1 h1 hfree d hd0 hd4 t (by
        rw [neighborAt_eq_getTile u qx qy ho]
        obtain ⟨e1, e2⟩ := Prod.mk.inj hq'
        rw [e1, e2]
        exact ht)
      rw [hc]
      exact this
    · rw [if_neg hq'] at hn
      exact hcons qx qy t1 h1 hfree d hd0 hd4 n (by
        rw [neighborAt_eq_getTile u qx qy ho]
        exact hn)

end Board

namespace Solver

theorem target_first_spot {b : Board} {ps : List Placement} (hne : b.grid ≠ [])
    (hd : b.DirsOK) (hnd : (b.grid.map Prod.fst).Nodup) (hall : (b.extend ps).AllPointed) :
    b.hasOpenEnds = some false
      ∨ (b.hasOpenEnds = some true ∧ ∃ x y rest t p, getOpenSpots b = some ((x, y) :: rest)
          ∧ b.getTile x y = none ∧ b.PointedAt x y ∧ (b.extend ps).getTile x y = some t
          ∧ p ∈ ps ∧ (p.x, p.y) = (x, y) ∧ p.tile = t) := by
  obtain ⟨r, hr⟩ := Option.isSome_iff_exists.1 (Board.hasOpenEnds_isSome hd)
  cases r with
  | false => exact Or.inl hr
  | true =>
    refine Or.inr ⟨hr, ?_⟩
    obtain ⟨x0, y0, hf0, hp0⟩ := Board.exists_pointedAt_of_hasOpenEnds hne hr
    obtain ⟨spots, hsp⟩ := Option.isSome_iff_exists.1 (getOpenSpots_isSome hd)
    have hm0 : (x0, y0) ∈ spots := (mem_getOpenSpots hsp _).2 ⟨hf0, hp0⟩
    cases spots with
    | nil => simp at hm0
    | cons spot rest =>
      obtain ⟨x, y⟩ := spot
      obtain ⟨hfree, hp⟩ := (mem_getOpenSpots hsp (x, y)).1 (List.mem_cons_self _ _)
      obtain ⟨e, he, d, hdc, o, ho, hxy⟩ := hp
      obtain ⟨⟨ex, ey⟩, et⟩ := e
      have hge : b.getTile ex ey = some et := Grid.get_of_mem _ hnd _ _ he
      have h1 := hall _ _ _ (Board.getTile_extend_of_some hge ps) d hdc
      rw [Board.neighborAt_eq_getTile _ _ _ ho] at h1
      obtain ⟨hx, hy⟩ := Prod.mk.inj hxy
      simp only at hx hy
      rw [hx, hy] at h1
      obtain ⟨t, ht⟩ := Option.isSome_iff_exists.1 h1
      have ht' := ht
      rw [Board.getTile_extend_of_none hfree ps] at ht'
      obtain ⟨p, hpm, hpc, hpt⟩ := get_entries_some ht'
      exact ⟨x, y, rest, t, p, hsp, hfree, ⟨((ex, ey), et), he, d, hdc, o, ho, hxy⟩, ht, hpm,
        hpc, hpt⟩

/-- If the board can be completed, by tiles within the inventory put on free cells, to a
configuration in which every connection points at an occupied cell and every added tile agrees
with all its neighbours, the search succeeds. -/
theorem solve_of_target (n : Nat) : ∀ (b : Board) (ps : List Placement) (s c : Nat),
    ps.length ≤ n → b.grid ≠ [] → b.DirsOK → (b.grid.map Prod.fst).Nodup →
    (∀ p ∈ ps, p.tile.InHand) → countKind .STRAIGHT ps ≤ s → countKind .CURVE ps ≤ c →
    (b.extend ps).AllPointed → b.NewConsistent (b.extend ps) →
    ∃ b', solve b s c = some (true, b') := by
  induction n with
  | zero =>
    intro b ps s c hlen hne hd hnd hin hs hc hall hcons
    rcases target_first_spot hne hd hnd hall with h | ⟨-, x, y, rest, t, p, -, -, -, -, hpm, -⟩
    · exact ⟨b, solve_of_closed s c h⟩
    · have : ps = [] := List.length_eq_zero.1 (Nat.le_zero.1 hlen)
      rw [this] at hpm
      simp at hpm
  | succ n ih =>
    intro b ps s c hlen hne hd hnd hin hs hc hall hcons
    rcases target_first_spot hne hd hnd hall with
      h | ⟨hopen, x, y, rest, t, p, hsp, hfree, hp, hUt, hpm, hpc, hpt⟩
    · exact ⟨b, solve_of_closed s c h⟩
    have htin : t.InHand := hpt ▸ hin p hpm
    have hv : b.isValidPlacement x y t = true :=
      (Board.isValidPlacement_spec b x y t).2 ⟨hfree, Or.inr (Board.adjacent_of_pointedAt hp),
        fun d hd0 hd4 n' hn' =>
          hcons x y t hUt hfree d hd0 hd4 n' (Board.neighborAt_extend_of_some hn' ps)⟩
    have hnot : p.notAt (x, y) = false := by
      cases hna : p.notAt (x, y) with
      | false => rfl
      | true => exact absurd hpc (notAt_eq_true.1 hna)
    refine solve_step hopen hsp hd htin hv ?_
    intro b0 t' hb0 hty hc'
    have hb0free : b0.getTile x y = none := by rw [Board.getTile_congr hb0]; exact hfree
    have hbb : ∀ qx qy, (b0.placeTile x y t').getTile qx qy
        = if (qx, qy) = (x, y) then some t' else b.getTile qx qy := by
      intro qx qy
      by_cases hq : (qx, qy) = (x, y)
      · obtain ⟨e1, e2⟩ := Prod.mk.inj hq
        subst e1 e2
        rw [if_pos rfl, Board.getTile_placeTile_self]
      · rw [if_neg hq, Board.getTile_placeTile_ne _ _ _ _ _ _ hq, Board.getTile_congr hb0]
    have hu : ∀ qx qy,
        ((b0.placeTile x y t').extend (ps.filter (Placement.notAt (x, y)))).getTile qx qy
          = if (qx, qy) = (x, y) then some t' else (b.extend ps).getTile qx qy := by
      intro qx qy
      have hb1 := hbb qx qy
      by_cases hq : (qx, qy) = (x, y)
      · rw [if_pos hq] at hb1
        rw [if_pos hq]
        exact Board.getTile_extend_of_some hb1 _
      · rw [if_neg hq] at hb1
        rw [if_neg hq]
        cases hbq : b.getTile qx qy with
        | some u =>
          rw [hbq] at hb1
          rw [Board.getTile_extend_of_some hb1, Board.getTile_extend_of_some hbq]
        | none =>
          rw [hbq] at hb1
          rw [Board.getTile_extend_of_none hb1, Board.getTile_extend_of_none hbq,
            get_entries_filter ps (x, y) (qx, qy) hq]
    have htd : t'.DirsOK := by
      intro d hd'
      rw [hc'] at hd'
      exact Tile.dirsOK_of_rotation t htin.2.1 htin.2.2 d hd'
    have hIH : ∀ s' c', countKind .STRAIGHT (ps.filter (Placement.notAt (x, y))) ≤ s' →
        countKind .CURVE (ps.filter (Placement.notAt (x, y))) ≤ c' →
        ∃ b', solve (b0.placeTile x y t') s' c' = some (true, b') := by
      intro s' c' h1 h2
      refine ih (b0.placeTile x y t') (ps.filter (Placement.notAt (x, y))) s' c' ?_ ?_ ?_ ?_ ?_
        h1 h2 ?_ ?_
      · have := length_filter_lt_of_mem hpm (Placement.notAt (x, y)) hnot
        omega
      · intro hnil
        have := Board.getTile_placeTile_self b0 x y t'
        unfold Board.getTile at this
        rw [hnil] at this
        exact Option.noConfusion this
      · exact Board.dirsOK_placeTile (Board.dirsOK_congr hb0.symm hd) x y htd
      · exact Board.keys_nodup_placeTile (by rw [hb0]; exact hnd) hb0free
      · intro p' hp'
        exact hin p' (List.mem_of_mem_filter hp')
      · exact Board.allPointed_step hu hUt hc' hall
      · exact Board.newConsistent_step hu hbb hUt hc' hcons
    have hlt := countKind_filter_lt hpm (Placement.notAt (x, y)) hnot
    rw [hpt] at hlt
    rcases htin.1 with hk | hk
    · left
      rw [hk] at hlt
      refine ⟨hk, by omega, hIH (s - 1) c (by omega) ?_⟩
      exact Nat.le_trans (countKind_filter_le _ _ _) hc
    · right
      rw [hk] at hlt
      refine ⟨hk, by omega, hIH s (c - 1) ?_ (by omega)⟩
      exact Nat.le_trans (countKind_filter_le _ _ _) hs

end Solver

theorem offsetAt_of_range {d : Int} (h0 : 0 ≤ d) (h4 : d < 4) : ∃ o, offsetAt d = some o := by
  interval_cases d
  · exact ⟨(0, -1), by decide⟩
  · exact ⟨(1, 0), by decide⟩
  · exact ⟨(0, 1), by decide⟩
  · exact ⟨(-1, 0), by decide⟩

theorem offset_moves {d : Int} {o : Int × Int} (ho : offsetAt d = some o) (x y : Int) :
    (x + o.1, y + o.2) ≠ (x, y) := by
  intro h
  obtain ⟨h1, h2⟩ := Prod.mk.inj h
  rcases offsetAt_some_cases ho with ⟨-, rfl⟩ | ⟨-, rfl⟩ | ⟨-, rfl⟩ | ⟨-, rfl⟩ <;>
    simp at h1 h2

namespace Board

/-- Seen from the neighbour in direction `d`, the cell lies in the opposite direction. -/
theorem neighborAt_opposite (u : Board) (x y : Int) {d : Int} {o : Int × Int}
    (ho : offsetAt d = some o) :
    u.neighborAt (x + o.1) (y + o.2) ((d + 2) % 4) = u.getTile x y
      ∧ 0 ≤ (d + 2) % 4 ∧ (d + 2) % 4 < 4 ∧ ((d + 2) % 4 + 2) % 4 = d := by
  rcases offsetAt_some_cases ho with ⟨rfl, rfl⟩ | ⟨rfl, rfl⟩ | ⟨rfl, rfl⟩ | ⟨rfl, rfl⟩
  · refine ⟨?_, by decide, by decide, by decide⟩
    show u.neighborAt (x + 0) (y + -1) 2 = _
    rw [neighborAt_two]
    simp
  · refine ⟨?_, by decide, by decide, by decide⟩
    show u.neighborAt (x + 1) (y + 0) 3 = _
    rw [neighborAt_three]
    simp
  · refine ⟨?_, by decide, by decide, by decide⟩
    show u.neighborAt (x + 0) (y + 1) 0 = _
    rw [neighborAt_zero]
    simp
  · refine ⟨?_, by decide, by decide, by decide⟩
    show u.neighborAt (x + -1) (y + 0) 1 = _
    rw [neighborAt_one]
    simp

theorem applySeq_grid_of_legal (ps : List Placement) :
    ∀ b : Board, b.legalSeq ps = true → (b.applySeq ps).grid = b.grid ++ ps.map Placement.entry := by
  induction ps with
  | nil => intro b _; simp [applySeq]
  | cons p rest ih =>
    intro b hl
    simp only [legalSeq, Bool.and_eq_true] at hl
    obtain ⟨hv, hl'⟩ := hl
    simp only [applySeq]
    rw [ih _ hl', placeTile_grid, Grid.set_eq_append _ _ _ (getTile_none_of_valid hv)]
    simp [Placement.entry]

theorem getTile_applySeq_of_some {ps : List Placement} {b : Board} (hl : b.legalSeq ps = true)
    {x y : Int} {t : Tile} (h : b.getTile x y = some t) :
    (b.applySeq ps).getTile x y = some t := by
  unfold getTile
  rw [applySeq_grid_of_legal ps b hl]
  exact Grid.get_append_of_some h _

theorem keys_nodup_applySeq (ps : List Placement) :
    ∀ b : Board, b.legalSeq ps = true → (b.grid.map Prod.fst).Nodup →
      ((b.applySeq ps).grid.map Prod.fst).Nodup := by
  induction ps with
  | nil => intro b _ h; exact h
  | cons p rest ih =>
    intro b hl hnd
    simp only [legalSeq, Bool.and_eq_true] at hl
    exact ih _ hl.2 (keys_nodup_placeTile hnd (getTile_none_of_valid hl.1))

/-- The tiles a legal sequence adds agree with all their neighbours on the final board. -/
theorem newConsistent_applySeq (ps : List Placement) :
    ∀ b : Board, b.legalSeq ps = true → b.NewConsistent (b.applySeq ps) := by
  induction ps with
  | nil =>
    intro b _ x y t h1 h2
    simp only [applySeq] at h1
    rw [h1] at h2
    exact Option.noConfusion h2
  | cons p rest ih =>
    intro b hl
    simp only [legalSeq, Bool.and_eq_true] at hl
    obtain ⟨hv, hl'⟩ := hl
    have hIH := ih _ hl'
    have hpfree := getTile_none_of_valid hv
    obtain ⟨-, -, hedges⟩ := (isValidPlacement_spec b p.x p.y p.tile).1 hv
    intro x y t hF hfree d hd0 hd4 n hn
    simp only [applySeq] at hF hn
    by_cases hxy : (x, y) = (p.x, p.y)
    · obtain ⟨e1, e2⟩ := Prod.mk.inj hxy
      subst e1 e2
      have hFp := getTile_applySeq_of_some hl' (getTile_placeTile_self b p.x p.y p.tile)
      rw [hFp] at hF
      have ht : p.tile = t := Option.some.inj hF
      subst ht
      obtain ⟨o, ho⟩ := offsetAt_of_range hd0 hd4
      have hq : (p.x + o.1, p.y + o.2) ≠ (p.x, p.y) := offset_moves ho _ _
      rw [neighborAt_eq_getTile _ _ _ ho] at hn
      cases hbq : b.getTile (p.x + o.1) (p.y + o.2) with
      | some n0 =>
        have h1 : (b.placeTile p.x p.y p.tile).getTile (p.x + o.1) (p.y + o.2) = some n0 := by
          rw [getTile_placeTile_ne _ _ _ _ _ _ hq]; exact hbq
        rw [getTile_applySeq_of_some hl' h1] at hn
        have hn0 : n0 = n := Option.some.inj hn
        subst hn0
        exact hedges d hd0 hd4 n0 (by rw [neighborAt_eq_getTile _ _ _ ho]; exact hbq)
      | none =>
        have h1 : (b.placeTile p.x p.y p.tile).getTile (p.x + o.1) (p.y + o.2) = none := by
          rw [getTile_placeTile_ne _ _ _ _ _ _ hq]; exact hbq
        obtain ⟨hopp, hr0, hr4, hback⟩ :=
          neighborAt_opposite ((b.placeTile p.x p.y p.tile).applySeq rest) p.x p.y ho
        have := hIH _ _ n hn h1 ((d + 2) % 4) hr0 hr4 p.tile (by rw [hopp]; exact hFp)
        rw [hback] at this
        exact this.symm
    · have h1 : (b.placeTile p.x p.y p.tile).getTile x y = none := by
        rw [getTile_placeTile_ne _ _ _ _ _ _ hxy]; exact hfree
      exact hIH x y t hF h1 d hd0 hd4 n hn

end Board

namespace Solver

/-- Completeness away from the empty board: on a non-empty board reachable by legal placements,
if some sequence of legal placements of tiles within the inventory ends with no open ends,
`isPossible` returns true. -/
theorem isPossible_complete (b : Board) (hr : Board.Reachable b) (hne : b.grid ≠ [])
    (s c : Nat) (ps : List Placement) (hin : ∀ p ∈ ps, p.tile.InHand)
    (hl : b.legalSeq ps = true) (hcl : (b.applySeq ps).hasOpenEnds = some false)
    (hs : countKind .STRAIGHT ps ≤ s) (hc : countKind .CURVE ps ≤ c) :
    isPossible b s c = some true := by
  have hg : (b.extend ps).grid = (b.applySeq ps).grid :=
    (Board.applySeq_grid_of_legal ps b hl).symm
  have hFne : (b.applySeq ps).grid ≠ [] := by
    rw [← hg]
    intro h
    exact hne (List.append_eq_nil.1 h).1
  have hforall := (Board.hasOpenEnds_false_iff_forall _ hFne).1 hcl
  have hall : (b.extend ps).AllPointed := by
    intro x y t ht d hd
    rw [Board.getTile_congr hg] at ht
    rw [Board.neighborAt_congr hg]
    exact hforall ((x, y), t) (Grid.mem_of_get _ _ _ ht) d hd
  have hd : b.DirsOK := by
    intro e he d hd'
    have hmem : e ∈ (b.applySeq ps).grid := by
      rw [← hg]
      exact List.mem_append_left _ he
    exact Board.neighborAt_isSome_offset (hforall e hmem d hd')
  have hcons : b.NewConsistent (b.extend ps) := by
    have := Board.newConsistent_applySeq ps b hl
    intro x y t ht hfree d hd0 hd4 n hn
    rw [Board.getTile_congr hg] at ht
    rw [Board.neighborAt_congr hg] at hn
    exact this x y t ht hfree d hd0 hd4 n hn
  obtain ⟨b', hb'⟩ := solve_of_target ps.length b ps s c (Nat.le_refl _) hne hd
    (Board.keys_nodup_of_reachable hr) hin hs hc hall hcons
  simp [isPossible, hb']

end Solver

/-! ## Completeness fails on the empty board, and only there -/

/-- C2, at the failing input: from the empty board four Curves close a 2x2 loop by legal
placements, yet `Solver.isPossible(new Board(), 0, 4)` returns false, and so does
`isPossible(new Board(), 8, 8)`, the call the game makes when 'impossible' is declared on the
first turn. On every non-empty board reachable by legal placements the claim holds: if legal
placements of tiles within the inventory can close the board, `isPossible` returns true. -/
theorem C2_empty_board_incomplete :
    (Board.Reachable Board.new
      ∧ Board.new.legalSeq [⟨0, 0, ⟨.CURVE, 0⟩⟩, ⟨1, 0, ⟨.CURVE, 1⟩⟩, ⟨1, 1, ⟨.CURVE, 2⟩⟩,
          ⟨0, 1, ⟨.CURVE, 3⟩⟩] = true
      ∧ (Board.new.applySeq [⟨0, 0, ⟨.CURVE, 0⟩⟩, ⟨1, 0, ⟨.CURVE, 1⟩⟩, ⟨1, 1, ⟨.CURVE, 2⟩⟩,
          ⟨0, 1, ⟨.CURVE, 3⟩⟩]).hasOpenEnds = some false
      ∧ Solver.isPossible Board.new 0 4 = some false
      ∧ Solver.isPossible Board.new 8 8 = some false)
    ∧ (∀ (b : Board) (s c : Nat) (ps : List Placement), Board.Reachable b → b.grid ≠ [] →
        (∀ p ∈ ps, p.tile.InHand) → b.legalSeq ps = true →
        (b.applySeq ps).hasOpenEnds = some false →
        countKind .STRAIGHT ps ≤ s → countKind .CURVE ps ≤ c →
        Solver.isPossible b s c = some true) :=
  ⟨⟨Board.Reachable.new, by decide, by decide, by decide, by decide⟩,
   fun b s c ps hr hne hin hl hcl hs hc =>
     Solver.isPossible_complete b hr hne s c ps hin hl hcl hs hc⟩

/-! ## No overlap -/

namespace Board

theorem legalSeq_take {ps : List Placement} : ∀ (b : Board) (k : Nat),
    b.legalSeq ps = true → b.legalSeq (ps.take k) = true := by
  induction ps with
  | nil => intro b k _; simp [legalSeq]
  | cons p rest ih =>
    intro b k hl
    cases k with
    | zero => simp [legalSeq]
    | succ k =>
      simp only [legalSeq, Bool.and_eq_true, List.take_succ_cons] at hl ⊢
      exact ⟨hl.1, ih _ k hl.2⟩

theorem no_overlap_new (ps : List Placement) (hl : Board.new.legalSeq ps = true) :
    (ps.map (fun p => (p.x, p.y))).Nodup
      ∧ (∀ p ∈ ps, (Board.new.applySeq ps).getTile p.x p.y = some p.tile)
      ∧ (∀ x y, (∀ p ∈ ps, (p.x, p.y) ≠ (x, y)) → (Board.new.applySeq ps).getTile x y = none) := by
  have hg : (Board.new.applySeq ps).grid = ps.map Placement.entry := by
    rw [applySeq_grid_of_legal ps _ hl]
    rfl
  have hnd : ((Board.new.applySeq ps).grid.map Prod.fst).Nodup :=
    keys_nodup_applySeq ps _ hl (by simp [Board.new])
  have hkeys : (Board.new.applySeq ps).grid.map Prod.fst = ps.map (fun p => (p.x, p.y)) := by
    rw [hg, List.map_map]
    rfl
  refine ⟨hkeys ▸ hnd, ?_, ?_⟩
  · intro p hp
    refine Grid.get_of_mem _ hnd _ _ ?_
    rw [hg]
    exact List.mem_map.2 ⟨p, hp, rfl⟩
  · intro x y hxy
    refine (Grid.get_eq_none_iff _ _).2 ?_
    intro e he
    rw [hg] at he
    obtain ⟨p, hp, rfl⟩ := List.mem_map.1 he
    exact hxy p hp

end Board

/-- C11 (no overlap): in a sequence of legal placements from the empty board the targeted
coordinates are pairwise distinct, and after each step `getTile` returns, at every coordinate
placed so far, exactly the tile placed there, and nothing at every other coordinate. -/
theorem C11_no_overlap (ps : List Placement) (hl : Board.new.legalSeq ps = true) :
    (ps.map (fun p => (p.x, p.y))).Nodup
      ∧ ∀ k : Nat,
        (∀ p ∈ ps.take k, (Board.new.applySeq (ps.take k)).getTile p.x p.y = some p.tile)
        ∧ (∀ x y, (∀ p ∈ ps.take k, (p.x, p.y) ≠ (x, y)) →
            (Board.new.applySeq (ps.take k)).getTile x y = none) :=
  ⟨(Board.no_overlap_new ps hl).1, fun k =>
    (Board.no_overlap_new (ps.take k) (Board.legalSeq_take Board.new k hl)).2⟩

/-- C11 at the four Curves that close a 2x2 loop from the empty board. -/
theorem C11_no_overlap_witness :
    Board.new.legalSeq [⟨0, 0, ⟨.CURVE, 0⟩⟩, ⟨1, 0, ⟨.CURVE, 1⟩⟩, ⟨1, 1, ⟨.CURVE, 2⟩⟩,
        ⟨0, 1, ⟨.CURVE, 3⟩⟩] = true
    ∧ (([⟨0, 0, ⟨.CURVE, 0⟩⟩, ⟨1, 0, ⟨.CURVE, 1⟩⟩, ⟨1, 1, ⟨.CURVE, 2⟩⟩,
        ⟨0, 1, ⟨.CURVE, 3⟩⟩] : List Placement).map (fun p => (p.x, p.y))).Nodup :=
  ⟨by decide, (C11_no_overlap [⟨0, 0, ⟨.CURVE, 0⟩⟩, ⟨1, 0, ⟨.CURVE, 1⟩⟩,
    ⟨1, 1, ⟨.CURVE, 2⟩⟩, ⟨0, 1, ⟨.CURVE, 3⟩⟩] (by decide)).1⟩

/-! ## Backtracking leaves no residue -/

/-- C14: whenever `Solver.solve(board, s, c)` returns false, the board's coordinate-to-tile
mapping after the call is the mapping before the call: the same entries in the same order, so
`getTile` answers the same everywhere. -/
theorem C14_no_residue (b : Board) (s c : Nat) (b' : Board)
    (h : Solver.solve b s c = some (false, b')) :
    b'.grid = b.grid ∧ ∀ x y, b'.getTile x y = b.getTile x y :=
  ⟨Solver.solve_false_grid b s c b' h,
   fun x y => congrFun (congrFun (Board.getTile_congr (Solver.solve_false_grid b s c b' h)) x) y⟩

/-- C14 at the board of the test 'Impossible Scene' with ten Curves: the search places and
removes Curves above the upper Straight, returns false, and leaves the two Straights. -/
theorem C14_no_residue_witness :
    ∃ b', Solver.solve impossibleSceneBoard 0 10 = some (false, b')
      ∧ b'.grid = impossibleSceneBoard.grid
      ∧ b'.minY = -1 ∧ impossibleSceneBoard.minY = 0 := by
  cases hs : Solver.solve impossibleSceneBoard 0 10 with
  | none =>
    have : (Solver.solve impossibleSceneBoard 0 10).isSome = true := by decide
    rw [hs] at this
    exact Bool.noConfusion this
  | some res =>
    obtain ⟨ok, b'⟩ := res
    have hok : ((Solver.solve impossibleSceneBoard 0 10).map (fun r => r.1)) = some false := by
      decide
    have hmin : ((Solver.solve impossibleSceneBoard 0 10).map (fun r => r.2.minY)) = some (-1) := by
      decide
    rw [hs] at hok hmin
    have hok' : ok = false := Option.some.inj hok
    subst hok'
    exact ⟨b', rfl, (C14_no_residue impossibleSceneBoard 0 10 b' hs).1, Option.some.inj hmin,
      by decide⟩

/-! ## The bounds -/

namespace Board

theorem run_bounds (ops : List BoardOp) : ∀ b : Board,
    ((b.run ops).minX ≤ b.minX ∧ (∀ q ∈ placedCoords ops, (b.run ops).minX ≤ q.1)
        ∧ ((b.run ops).minX = b.minX ∨ ∃ q ∈ placedCoords ops, q.1 = (b.run ops).minX))
    ∧ (b.maxX ≤ (b.run ops).maxX ∧ (∀ q ∈ placedCoords ops, q.1 ≤ (b.run ops).maxX)
        ∧ ((b.run ops).maxX = b.maxX ∨ ∃ q ∈ placedCoords ops, q.1 = (b.run ops).maxX))
    ∧ ((b.run ops).minY ≤ b.minY ∧ (∀ q ∈ placedCoords ops, (b.run ops).minY ≤ q.2)
        ∧ ((b.run ops).minY = b.minY ∨ ∃ q ∈ placedCoords ops, q.2 = (b.run ops).minY))
    ∧ (b.maxY ≤ (b.run ops).maxY ∧ (∀ q ∈ placedCoords ops, q.2 ≤ (b.run ops).maxY)
        ∧ ((b.run ops).maxY = b.maxY ∨ ∃ q ∈ placedCoords ops, q.2 = (b.run ops).maxY)) := by
  induction ops with
  | nil =>
    intro b
    simp [run, placedCoords]
  | cons op rest ih =>
    intro b
    cases op with
    | remove x y => exact ih (b.removeTile x y)
    | place x y t =>
      obtain ⟨⟨a1, a2, a3⟩, ⟨b1, b2, b3⟩, ⟨c1, c2, c3⟩, ⟨d1, d2, d3⟩⟩ := ih (b.placeTile x y t)
      have e1 : (b.placeTile x y t).minX = min b.minX x := rfl
      have e2 : (b.placeTile x y t).maxX = max b.maxX x := rfl
      have e3 : (b.placeTile x y t).minY = min b.minY y := rfl
      have e4 : (b.placeTile x y t).maxY = max b.maxY y := rfl
      simp only [run, step, placedCoords, List.mem_cons, forall_eq_or_imp, exists_eq_or_imp]
      rw [e1] at a1 a3
      rw [e2] at b1 b3
      rw [e3] at c1 c3
      rw [e4] at d1 d3
      refine ⟨⟨le_trans a1 (min_le_left _ _), ⟨le_trans a1 (min_le_right _ _), a2⟩, ?_⟩,
        ⟨le_trans (le_max_left _ _) b1, ⟨le_trans (le_max_right _ _) b1, b2⟩, ?_⟩,
        ⟨le_trans c1 (min_le_left _ _), ⟨le_trans c1 (min_le_right _ _), c2⟩, ?_⟩,
        ⟨le_trans (le_max_left _ _) d1, ⟨le_trans (le_max_right _ _) d1, d2⟩, ?_⟩⟩
      · rcases a3 with h | h
        · rcases min_choice b.minX x with h' | h'
          · exact Or.inl (h.trans h')
          · exact Or.inr (Or.inl (h.trans h').symm)
        · exact Or.inr (Or.inr h)
      · rcases b3 with h | h
        · rcases max_choice b.maxX x with h' | h'
          · exact Or.inl (h.trans h')
          · exact Or.inr (Or.inl (h.trans h').symm)
        · exact Or.inr (Or.inr h)
      · rcases c3 with h | h
        · rcases min_choice b.minY y with h' | h'
          · exact Or.inl (h.trans h')
          · exact Or.inr (Or.inl (h.trans h').symm)
        · exact Or.inr (Or.inr h)
      · rcases d3 with h | h
        · rcases max_choice b.maxY y with h' | h'
          · exact Or.inl (h.trans h')
          · exact Or.inr (Or.inl (h.trans h').symm)
        · exact Or.inr (Or.inr h)

end Board

/-- C12 as stated fails: after the single call `placeTile(5, 5, tile)` on a new board the least
and greatest `x` and `y` placed are all 5, but `minX` and `minY` are 0, the values the
constructor gave them. -/
theorem C12_bounds_counterexample :
    Board.placedCoords [.place 5 5 ⟨.CURVE, 0⟩] = [(5, 5)]
    ∧ (Board.new.run [.place 5 5 ⟨.CURVE, 0⟩]).minX = 0
    ∧ (Board.new.run [.place 5 5 ⟨.CURVE, 0⟩]).maxX = 5
    ∧ (Board.new.run [.place 5 5 ⟨.CURVE, 0⟩]).minY = 0
    ∧ (Board.new.run [.place 5 5 ⟨.CURVE, 0⟩]).maxY = 5
    ∧ ¬ ((Board.new.run [.place 5 5 ⟨.CURVE, 0⟩]).minX = 5) := by
  decide

/-- C12, amended: after any sequence of `placeTile` and `removeTile` calls on a new board, the
four fields are the bounding rectangle of the origin `(0, 0)` together with all coordinates
ever passed to `placeTile`: `minX` is the least of 0 and the `x` placed (it is below them all,
and it is 0 or one of them), likewise `maxX`, `minY` and `maxY`; and `removeTile` changes none
of the four fields. -/
theorem C12_bounds_with_origin (ops : List BoardOp) :
    ((Board.new.run ops).minX ≤ 0 ∧ (∀ q ∈ Board.placedCoords ops, (Board.new.run ops).minX ≤ q.1)
        ∧ ((Board.new.run ops).minX = 0
          ∨ ∃ q ∈ Board.placedCoords ops, q.1 = (Board.new.run ops).minX))
    ∧ (0 ≤ (Board.new.run ops).maxX ∧ (∀ q ∈ Board.placedCoords ops, q.1 ≤ (Board.new.run ops).maxX)
        ∧ ((Board.new.run ops).maxX = 0
          ∨ ∃ q ∈ Board.placedCoords ops, q.1 = (Board.new.run ops).maxX))
    ∧ ((Board.new.run ops).minY ≤ 0 ∧ (∀ q ∈ Board.placedCoords ops, (Board.new.run ops).minY ≤ q.2)
        ∧ ((Board.new.run ops).minY = 0
          ∨ ∃ q ∈ Board.placedCoords ops, q.2 = (Board.new.run ops).minY))
    ∧ (0 ≤ (Board.new.run ops).maxY ∧ (∀ q ∈ Board.placedCoords ops, q.2 ≤ (Board.new.run ops).maxY)
        ∧ ((Board.new.run ops).maxY = 0
          ∨ ∃ q ∈ Board.placedCoords ops, q.2 = (Board.new.run ops).maxY))
    ∧ ∀ (b : Board) (x y : Int), (b.removeTile x y).minX = b.minX
        ∧ (b.removeTile x y).maxX = b.maxX ∧ (b.removeTile x y).minY = b.minY
        ∧ (b.removeTile x y).maxY = b.maxY :=
  ⟨(Board.run_bounds ops Board.new).1, (Board.run_bounds ops Board.new).2.1,
   (Board.run_bounds ops Board.new).2.2.1, (Board.run_bounds ops Board.new).2.2.2,
   fun _ _ _ => ⟨rfl, rfl, rfl, rfl⟩⟩

namespace Board

theorem withinBounds_new : Board.new.WithinBounds := by
  intro e he
  simp [Board.new] at he

theorem withinBounds_step {b : Board} (h : b.WithinBounds) (op : BoardOp) :
    (b.step op).WithinBounds := by
  cases op with
  | remove x y =>
    intro e he
    exact h e (Grid.mem_of_mem_delete he)
  | place x y t =>
    intro e he
    have e1 : (b.placeTile x y t).minX = min b.minX x := rfl
    have e2 : (b.placeTile x y t).maxX = max b.maxX x := rfl
    have e3 : (b.placeTile x y t).minY = min b.minY y := rfl
    have e4 : (b.placeTile x y t).maxY = max b.maxY y := rfl
    show (b.placeTile x y t).minX ≤ e.1.1 ∧ e.1.1 ≤ (b.placeTile x y t).maxX
      ∧ (b.placeTile x y t).minY ≤ e.1.2 ∧ e.1.2 ≤ (b.placeTile x y t).maxY
    rw [e1, e2, e3, e4]
    rcases Grid.mem_set he with h1 | h1
    · obtain ⟨a1, a2, a3, a4⟩ := h e h1
      exact ⟨le_trans (min_le_left _ _) a1, le_trans a2 (le_max_left _ _),
        le_trans (min_le_left _ _) a3, le_trans a4 (le_max_left _ _)⟩
    · rw [h1]
      exact ⟨min_le_right _ _, le_max_right _ _, min_le_right _ _, le_max_right _ _⟩

theorem withinBounds_run (ops : List BoardOp) :
    ∀ b : Board, b.WithinBounds → (b.run ops).WithinBounds := by
  induction ops with
  | nil => intro b h; exact h
  | cons op rest ih => intro b h; exact ih _ (withinBounds_step h op)

theorem bounds_of_getTile_isSome {b : Board} (h : b.WithinBounds) {x y : Int}
    (hs : (b.getTile x y).isSome = true) :
    b.minX ≤ x ∧ x ≤ b.maxX ∧ b.minY ≤ y ∧ y ≤ b.maxY := by
  obtain ⟨t, ht⟩ := Option.isSome_iff_exists.1 hs
  exact h ((x, y), t) (Grid.mem_of_get _ _ _ ht)

/-- On a board that holds a tile and keeps its tiles within its bounds, a legal move lies
within the bounds padded by 1. -/
theorem valid_within_padded {b : Board} (h : b.WithinBounds) (hne : b.grid ≠ []) {x y : Int}
    {t : Tile} (hv : b.isValidPlacement x y t = true) :
    b.minX - 1 ≤ x ∧ x ≤ b.maxX + 1 ∧ b.minY - 1 ≤ y ∧ y ≤ b.maxY + 1 := by
  obtain ⟨-, hadj, -⟩ := (isValidPlacement_spec b x y t).1 hv
  rcases hadj with h0 | h1 | h1 | h1 | h1
  · exact absurd h0 hne
  · obtain ⟨a1, a2, a3, a4⟩ := bounds_of_getTile_isSome h h1
    omega
  · obtain ⟨a1, a2, a3, a4⟩ := bounds_of_getTile_isSome h h1
    omega
  · obtain ⟨a1, a2, a3, a4⟩ := bounds_of_getTile_isSome h h1
    omega
  · obtain ⟨a1, a2, a3, a4⟩ := bounds_of_getTile_isSome h h1
    omega

end Board

theorem mem_intRange {lo hi v : Int} : v ∈ intRange lo hi ↔ lo ≤ v ∧ v ≤ hi := by
  unfold intRange
  rw [List.mem_map]
  constructor
  · rintro ⟨i, hi', rfl⟩
    rw [List.mem_range] at hi'
    have h1 : (i : Int) < hi - lo + 1 := Int.lt_toNat.1 hi'
    have h0 : (0 : Int) ≤ (i : Int) := Int.ofNat_nonneg i
    exact ⟨by linarith, by linarith⟩
  · rintro ⟨h1, h2⟩
    have e : ((v - lo).toNat : Int) = v - lo := Int.toNat_of_nonneg (by linarith)
    refine ⟨(v - lo).toNat, ?_, ?_⟩
    · rw [List.mem_range]
      apply Int.lt_toNat.2
      rw [e]
      linarith
    · show lo + ((v - lo).toNat : Int) = v
      rw [e]
      ring

namespace CPU

theorem mem_getValidPlacements {board : Board} {tile : Tile} {moves : List Coord} {x y : Int} :
    (x, y) ∈ getValidPlacements board tile moves ↔
      (board.minX - 1 ≤ x ∧ x ≤ board.maxX + 1 ∧ board.minY - 1 ≤ y ∧ y ≤ board.maxY + 1)
      ∧ board.isValidPlacement x y tile = true
      ∧ Game.isValidTurnConstraint moves x y = true := by
  unfold getValidPlacements
  simp only [List.mem_flatMap, List.mem_filterMap, mem_intRange]
  constructor
  · rintro ⟨y', hy', x', hx', h⟩
    by_cases hv : board.isValidPlacement x' y' tile = true
    · by_cases ht : Game.isValidTurnConstraint moves x' y' = true
      · simp only [hv, ht, if_true, Option.some.injEq, Prod.mk.injEq] at h
        obtain ⟨rfl, rfl⟩ := h
        exact ⟨⟨hx'.1, hx'.2, hy'.1, hy'.2⟩, hv, ht⟩
      · simp [hv, ht] at h
    · simp [hv] at h
  · rintro ⟨⟨h1, h2, h3, h4⟩, hv, ht⟩
    exact ⟨y, ⟨h3, h4⟩, x, ⟨h1, h2⟩, by simp [hv, ht]⟩

end CPU

/-! ## Open spots exist off the empty board -/

namespace Solver

theorem getOpenSpots_ne_nil {b : Board} (hne : b.grid ≠ []) (hopen : b.hasOpenEnds = some true)
    {spots : List Coord} (hsp : getOpenSpots b = some spots) : spots ≠ [] := by
  obtain ⟨x, y, hf, hp⟩ := Board.exists_pointedAt_of_hasOpenEnds hne hopen
  have hmem : (x, y) ∈ spots := (mem_getOpenSpots hsp _).2 ⟨hf, hp⟩
  intro hnil
  rw [hnil] at hmem
  simp at hmem

end Solver

/-! ## Termination -/

namespace Solver

theorem solveBody_congr_lt {r1 r2 : Board → Nat → Nat → Option (Bool × Board)} (b : Board)
    (s c : Nat) (h : ∀ b' s' c', s' + c' < s + c → r1 b' s' c' = r2 b' s' c') :
    solveBody r1 b s c = solveBody r2 b s c :=
  solveBody_congr b s c (fun hs b' => h b' (s - 1) c (by omega))
    (fun hc b' => h b' s (c - 1) (by omega))

theorem solveDepth_eq_solve (stub : Board → Nat → Nat → Option (Bool × Board)) (n : Nat) :
    ∀ (b : Board) (s c : Nat), s + c < n → solveDepth stub n b s c = solve b s c := by
  induction n with
  | zero => intro b s c h; exact absurd h (Nat.not_lt_zero _)
  | succ n ih =>
    intro b s c h
    rw [solve_eq_solveBody]
    show solveBody (solveDepth stub n) b s c = _
    exact solveBody_congr_lt b s c (fun b' s' c' hlt => ih b' s' c' (by omega))

theorem solve_unique (f : Board → Nat → Nat → Option (Bool × Board))
    (hf : ∀ b s c, f b s c = solveBody f b s c) : ∀ b s c, f b s c = solve b s c := by
  intro b s c
  obtain ⟨n, hn⟩ : ∃ n, s + c = n := ⟨_, rfl⟩
  induction n using Nat.strong_induction_on generalizing b s c with
  | _ n ih =>
    rw [hf, solve_eq_solveBody]
    exact solveBody_congr_lt b s c (fun b' s' c' hlt => ih (s' + c') (by omega) b' s' c' rfl)

end Solver

/-- C13 (termination): the body of `Solver.solve(board, s, c)` makes its recursive calls only
with a strictly smaller `s + c` (its result depends on nothing else of the recursion); the
recursion never goes deeper than `s + c` (unrolled more than `s + c` levels, the result does not
depend on what stands below); so the recursion equation determines the result, which `solve`
is. -/
theorem C13_termination (b : Board) (s c : Nat) :
    (∀ r1 r2 : Board → Nat → Nat → Option (Bool × Board),
        (∀ b' s' c', s' + c' < s + c → r1 b' s' c' = r2 b' s' c') →
        Solver.solveBody r1 b s c = Solver.solveBody r2 b s c)
    ∧ (∀ (stub : Board → Nat → Nat → Option (Bool × Board)) (depth : Nat), s + c < depth →
        Solver.solveDepth stub depth b s c = Solver.solve b s c)
    ∧ Solver.solve b s c = Solver.solveBody Solver.solve b s c
    ∧ (∀ f : Board → Nat → Nat → Option (Bool × Board),
        (∀ b' s' c', f b' s' c' = Solver.solveBody f b' s' c') → f b s c = Solver.solve b s c) :=
  ⟨fun _ _ h => Solver.solveBody_congr_lt b s c h,
   fun stub depth h => Solver.solveDepth_eq_solve stub depth b s c h,
   Solver.solve_eq_solveBody b s c,
   fun f hf => Solver.solve_unique f hf b s c⟩

/-! ## Boards that look the same to the rules -/

namespace Grid

theorem shape_cons (e : Coord × Tile) (g : Grid) :
    shape (e :: g) = (e.1, e.2.getConnections) :: shape g := rfl

theorem get_shape {g1 g2 : Grid} (h : shape g1 = shape g2) (q : Coord) :
    (get g1 q).map Tile.getConnections = (get g2 q).map Tile.getConnections := by
  induction g1 generalizing g2 with
  | nil =>
    cases g2 with
    | nil => rfl
    | cons e2 r2 => simp [shape] at h
  | cons e1 r1 ih =>
    cases g2 with
    | nil => simp [shape] at h
    | cons e2 r2 =>
      obtain ⟨k1, t1⟩ := e1
      obtain ⟨k2, t2⟩ := e2
      simp only [shape_cons, List.cons.injEq, Prod.mk.injEq] at h
      obtain ⟨⟨hk, hc⟩, hr⟩ := h
      subst hk
      by_cases hq : k1 = q
      · simp [get, hq, hc]
      · simp only [get, hq, if_false]
        exact ih hr

theorem set_shape {g1 g2 : Grid} (h : shape g1 = shape g2) (p : Coord) {t1 t2 : Tile}
    (ht : t1.getConnections = t2.getConnections) : shape (set g1 p t1) = shape (set g2 p t2) := by
  induction g1 generalizing g2 with
  | nil =>
    cases g2 with
    | nil => simp [set, shape, ht]
    | cons e2 r2 => simp [shape] at h
  | cons e1 r1 ih =>
    cases g2 with
    | nil => simp [shape] at h
    | cons e2 r2 =>
      obtain ⟨k1, u1⟩ := e1
      obtain ⟨k2, u2⟩ := e2
      simp only [shape_cons, List.cons.injEq, Prod.mk.injEq] at h
      obtain ⟨⟨hk, hc⟩, hr⟩ := h
      subst hk
      by_cases hq : k1 = p
      · simp only [set, hq, if_true, shape_cons, ht, hr]
      · simp only [set, hq, if_false, shape_cons, hc, ih hr]

theorem delete_shape {g1 g2 : Grid} (h : shape g1 = shape g2) (p : Coord) :
    shape (delete g1 p) = shape (delete g2 p) := by
  induction g1 generalizing g2 with
  | nil =>
    cases g2 with
    | nil => rfl
    | cons e2 r2 => simp [shape] at h
  | cons e1 r1 ih =>
    cases g2 with
    | nil => simp [shape] at h
    | cons e2 r2 =>
      obtain ⟨k1, u1⟩ := e1
      obtain ⟨k2, u2⟩ := e2
      simp only [shape_cons, List.cons.injEq, Prod.mk.injEq] at h
      obtain ⟨⟨hk, hc⟩, hr⟩ := h
      subst hk
      by_cases hq : k1 = p
      · simp only [delete, hq, if_true]
        exact ih hr
      · simp only [delete, hq, if_false, shape_cons, hc, ih hr]

theorem length_shape {g1 g2 : Grid} (h : shape g1 = shape g2) : g1.length = g2.length := by
  have := congrArg List.length h
  simpa [shape] using this

end Grid

namespace Board

theorem ConnEq.refl_shape (b : Board) : b.ConnEq b := rfl

theorem ConnEq.symm {b1 b2 : Board} (h : b1.ConnEq b2) : b2.ConnEq b1 := Eq.symm h

theorem ConnEq.trans_shape {b1 b2 b3 : Board} (h12 : b1.ConnEq b2) (h23 : b2.ConnEq b3) :
    b1.ConnEq b3 := Eq.trans h12 h23

theorem ConnEq.of_grid {b1 b2 : Board} (h : b1.grid = b2.grid) : b1.ConnEq b2 := by
  unfold ConnEq
  rw [h]

theorem ConnEq.getTile {b1 b2 : Board} (h : b1.ConnEq b2) (x y : Int) :
    (b1.getTile x y).map Tile.getConnections = (b2.getTile x y).map Tile.getConnections :=
  Grid.get_shape h (x, y)

theorem ConnEq.getTile_isSome {b1 b2 : Board} (h : b1.ConnEq b2) (x y : Int) :
    (b1.getTile x y).isSome = (b2.getTile x y).isSome := by
  have := congrArg Option.isSome (h.getTile x y)
  simpa using this

theorem ConnEq.getTile_isNone {b1 b2 : Board} (h : b1.ConnEq b2) (x y : Int) :
    (b1.getTile x y).isNone = (b2.getTile x y).isNone := by
  have := congrArg Option.isNone (h.getTile x y)
  simpa using this

theorem ConnEq.placeTile {b1 b2 : Board} (h : b1.ConnEq b2) (x y : Int) {t1 t2 : Tile}
    (ht : t1.getConnections = t2.getConnections) :
    (b1.placeTile x y t1).ConnEq (b2.placeTile x y t2) :=
  Grid.set_shape h (x, y) ht

theorem ConnEq.removeTile {b1 b2 : Board} (h : b1.ConnEq b2) (x y : Int) :
    (b1.removeTile x y).ConnEq (b2.removeTile x y) :=
  Grid.delete_shape h (x, y)

theorem ConnEq.edgeMatches {b1 b2 : Board} (h : b1.ConnEq b2) (x y : Int) (conns : List Int)
    (row : Int × Int × Int) : b1.edgeMatches x y conns row = b2.edgeMatches x y conns row := by
  unfold Board.edgeMatches
  have hg := h.getTile (x + row.2.1) (y + row.2.2)
  cases h1 : b1.getTile (x + row.2.1) (y + row.2.2) with
  | none =>
    cases h2 : b2.getTile (x + row.2.1) (y + row.2.2) with
    | none => rfl
    | some n2 => rw [h1, h2] at hg; simp at hg
  | some n1 =>
    cases h2 : b2.getTile (x + row.2.1) (y + row.2.2) with
    | none => rw [h1, h2] at hg; simp at hg
    | some n2 =>
      rw [h1, h2] at hg
      simp only [Option.map_some', Option.some.injEq] at hg
      simp only [hg]

theorem ConnEq.getNeighbors_length {b1 b2 : Board} (h : b1.ConnEq b2) (x y : Int) :
    (b1.getNeighbors x y).length = 0 ↔ (b2.getNeighbors x y).length = 0 := by
  rw [getNeighbors_length_eq_zero, getNeighbors_length_eq_zero]
  simp only [← Option.not_isSome_iff_eq_none, h.getTile_isSome]

theorem ConnEq.isValidPlacement {b1 b2 : Board} (h : b1.ConnEq b2) (x y : Int) {t1 t2 : Tile}
    (ht : t1.getConnections = t2.getConnections) :
    b1.isValidPlacement x y t1 = b2.isValidPlacement x y t2 := by
  unfold Board.isValidPlacement
  rw [h.getTile_isSome x y, Grid.length_shape h, ht]
  have hn := h.getNeighbors_length x y
  have he : (offsets.all fun row => b1.edgeMatches x y t2.getConnections row)
      = (offsets.all fun row => b2.edgeMatches x y t2.getConnections row) := by
    congr 1
    funext row
    exact h.edgeMatches x y _ row
  by_cases h0 : (b2.getNeighbors x y).length = 0
  · simp only [hn.2 h0, h0, he]
  · have h0' : ¬ (b1.getNeighbors x y).length = 0 := fun hh => h0 (hn.1 hh)
    simp only [h0', h0, he]

theorem ConnEq.scanConns {b1 b2 : Board} (h : b1.ConnEq b2) (x y : Int) (cs : List Int) :
    b1.scanConns x y cs = b2.scanConns x y cs := by
  induction cs with
  | nil => rfl
  | cons d rest ih =>
    simp only [Board.scanConns]
    cases offsetAt d with
    | none => rfl
    | some o => simp only [h.getTile_isNone, ih]

theorem ConnEq.scanTiles {b1 b2 : Board} (h : b1.ConnEq b2) {g1 g2 : Grid}
    (hg : Grid.shape g1 = Grid.shape g2) : b1.scanTiles g1 = b2.scanTiles g2 := by
  induction g1 generalizing g2 with
  | nil =>
    cases g2 with
    | nil => rfl
    | cons e2 r2 => simp [Grid.shape] at hg
  | cons e1 r1 ih =>
    cases g2 with
    | nil => simp [Grid.shape] at hg
    | cons e2 r2 =>
      obtain ⟨⟨x1, y1⟩, t1⟩ := e1
      obtain ⟨⟨x2, y2⟩, t2⟩ := e2
      simp only [Grid.shape_cons, List.cons.injEq, Prod.mk.injEq] at hg
      obtain ⟨⟨⟨hx, hy⟩, hc⟩, hr⟩ := hg
      subst hx hy
      simp only [Board.scanTiles, hc, h.scanConns, ih hr]

theorem ConnEq.hasOpenEnds {b1 b2 : Board} (h : b1.ConnEq b2) :
    b1.hasOpenEnds = b2.hasOpenEnds := by
  unfold Board.hasOpenEnds
  rw [Grid.length_shape h, h.scanTiles h]

end Board

namespace Solver

theorem spotsOfConns_connEq {b1 b2 : Board} (h : b1.ConnEq b2) (x y : Int) (cs : List Int)
    (acc : List Coord) : spotsOfConns b1 x y cs acc = spotsOfConns b2 x y cs acc := by
  induction cs generalizing acc with
  | nil => rfl
  | cons d rest ih =>
    simp only [spotsOfConns]
    cases offsetAt d with
    | none => rfl
    | some o => simp only [h.getTile_isNone, ih]

theorem spotsOfTiles_connEq {b1 b2 : Board} (h : b1.ConnEq b2) {g1 g2 : Grid}
    (hg : Grid.shape g1 = Grid.shape g2) (acc : List Coord) :
    spotsOfTiles b1 g1 acc = spotsOfTiles b2 g2 acc := by
  induction g1 generalizing g2 acc with
  | nil =>
    cases g2 with
    | nil => rfl
    | cons e2 r2 => simp [Grid.shape] at hg
  | cons e1 r1 ih =>
    cases g2 with
    | nil => simp [Grid.shape] at hg
    | cons e2 r2 =>
      obtain ⟨⟨x1, y1⟩, t1⟩ := e1
      obtain ⟨⟨x2, y2⟩, t2⟩ := e2
      simp only [Grid.shape_cons, List.cons.injEq, Prod.mk.injEq] at hg
      obtain ⟨⟨⟨hx, hy⟩, hc⟩, hr⟩ := hg
      subst hx hy
      simp only [spotsOfTiles, hc, spotsOfConns_connEq h]
      cases spotsOfConns b2 x1 y1 t2.getConnections acc with
      | none => rfl
      | some acc' => exact ih hr acc'

theorem getOpenSpots_connEq {b1 b2 : Board} (h : b1.ConnEq b2) :
    getOpenSpots b1 = getOpenSpots b2 :=
  spotsOfTiles_connEq h h []

end Solver

/-! ## The search answers alike on boards that look the same -/

namespace Solver

theorem ResEq.refl_res (r : Option (Bool × Board)) : ResEq r r := by
  cases r with
  | none => exact True.intro
  | some res => exact ⟨rfl, Board.ConnEq.refl_shape _⟩

theorem ResEq.trans_res {r1 r2 r3 : Option (Bool × Board)} (h12 : ResEq r1 r2) (h23 : ResEq r2 r3) :
    ResEq r1 r3 := by
  cases r1 with
  | none =>
    cases r2 with
    | none => exact h23
    | some res2 => exact False.elim h12
  | some res1 =>
    cases r2 with
    | none => exact False.elim h12
    | some res2 =>
      cases r3 with
      | none => exact False.elim h23
      | some res3 => exact ⟨h12.1.trans h23.1, h12.2.trans_shape h23.2⟩

theorem ResEq.map_fst {r1 r2 : Option (Bool × Board)} (h : ResEq r1 r2) :
    r1.map (fun r => r.1) = r2.map (fun r => r.1) := by
  cases r1 with
  | none =>
    cases r2 with
    | none => rfl
    | some res2 => exact False.elim h
  | some res1 =>
    cases r2 with
    | none => exact False.elim h
    | some res2 => simp [h.1]

theorem resEq_false {b1 b2 : Board} (h : b1.ConnEq b2) :
    ResEq (some (false, b1)) (some (false, b2)) := ⟨rfl, h⟩

theorem resEq_true {b1 b2 : Board} (h : b1.ConnEq b2) :
    ResEq (some (true, b1)) (some (true, b2)) := ⟨rfl, h⟩

theorem tryRotations_respects {r1 r2 : Board → Option (Bool × Board)} (hr : Respects r1 r2)
    (x y : Int) (rs : List Int) (tile : Tile) :
    Respects (tryRotations r1 x y rs tile) (tryRotations r2 x y rs tile) := by
  induction rs generalizing tile with
  | nil => intro b1 b2 h; exact resEq_false h
  | cons r rs ih =>
    intro b1 b2 h
    simp only [tryRotations]
    rw [h.isValidPlacement x y (rfl : (tile.setRotation r).getConnections = _)]
    by_cases hv : b2.isValidPlacement x y (tile.setRotation r) = true
    · rw [if_pos hv, if_pos hv]
      have hrec := hr _ _ (h.placeTile x y (rfl : (tile.setRotation r).getConnections = _))
      revert hrec
      cases r1 (b1.placeTile x y (tile.setRotation r)) with
      | none =>
        cases r2 (b2.placeTile x y (tile.setRotation r)) with
        | none => exact fun _ => True.intro
        | some res2 => exact fun hh => False.elim hh
      | some res1 =>
        cases r2 (b2.placeTile x y (tile.setRotation r)) with
        | none => exact fun hh => False.elim hh
        | some res2 =>
          obtain ⟨ok1, c1⟩ := res1
          obtain ⟨ok2, c2⟩ := res2
          rintro ⟨hok, hc⟩
          subst hok
          cases ok1 with
          | true => exact resEq_true hc
          | false => exact ih (tile.setRotation r) _ _ (hc.removeTile x y)
    · rw [if_neg hv, if_neg hv]
      exact ih (tile.setRotation r) _ _ h

theorem solveBodyWith_respects (rots : List Int)
    {r1 r2 : Board → Nat → Nat → Option (Bool × Board)}
    (hr : ∀ s c, Respects (fun b => r1 b s c) (fun b => r2 b s c)) (s c : Nat) :
    Respects (fun b => solveBodyWith rots r1 b s c) (fun b => solveBodyWith rots r2 b s c) := by
  intro b1 b2 h
  show ResEq (solveBodyWith rots r1 b1 s c) (solveBodyWith rots r2 b2 s c)
  unfold solveBodyWith
  rw [h.hasOpenEnds, getOpenSpots_connEq h]
  cases b2.hasOpenEnds with
  | none => exact True.intro
  | some open_ =>
    cases open_ with
    | false => exact resEq_true h
    | true =>
      simp only
      by_cases hz : s = 0 ∧ c = 0
      · rw [if_pos hz, if_pos hz]
        exact resEq_false h
      · rw [if_neg hz, if_neg hz]
        cases getOpenSpots b2 with
        | none => exact True.intro
        | some spots =>
          cases spots with
          | nil => exact resEq_false h
          | cons spot rest =>
            obtain ⟨x, y⟩ := spot
            simp only
            have hA : ResEq
                (if s > 0 then
                  tryRotations (fun b' => r1 b' (s - 1) c) x y rots (Tile.new .STRAIGHT) b1
                else some (false, b1))
                (if s > 0 then
                  tryRotations (fun b' => r2 b' (s - 1) c) x y rots (Tile.new .STRAIGHT) b2
                else some (false, b2)) := by
              by_cases hs0 : s > 0
              · rw [if_pos hs0, if_pos hs0]
                exact tryRotations_respects (hr (s - 1) c) x y rots _ b1 b2 h
              · rw [if_neg hs0, if_neg hs0]
                exact resEq_false h
            revert hA
            cases (if s > 0 then
                  tryRotations (fun b' => r1 b' (s - 1) c) x y rots (Tile.new .STRAIGHT) b1
                else some (false, b1)) with
            | none =>
              cases (if s > 0 then
                  tryRotations (fun b' => r2 b' (s - 1) c) x y rots (Tile.new .STRAIGHT) b2
                else some (false, b2)) with
              | none => exact fun _ => True.intro
              | some res2 => exact fun hh => False.elim hh
            | some res1 =>
              cases (if s > 0 then
                  tryRotations (fun b' => r2 b' (s - 1) c) x y rots (Tile.new .STRAIGHT) b2
                else some (false, b2)) with
              | none => exact fun hh => False.elim hh
              | some res2 =>
                obtain ⟨ok1, c1⟩ := res1
                obtain ⟨ok2, c2⟩ := res2
                rintro ⟨hok, hc⟩
                subst hok
                cases ok1 with
                | true => exact resEq_true hc
                | false =>
                  simp only
                  by_cases hc0 : c > 0
                  · rw [if_pos hc0, if_pos hc0]
                    exact tryRotations_respects (hr s (c - 1)) x y _ _ c1 c2 hc
                  · rw [if_neg hc0, if_neg hc0]
                    exact resEq_false hc

theorem solveFuelWith_respects (rots : List Int) (fuel : Nat) (s c : Nat) :
    Respects (fun b => solveFuelWith rots fuel b s c) (fun b => solveFuelWith rots fuel b s c) := by
  induction fuel generalizing s c with
  | zero =>
    have h0 : ∀ s c : Nat, Respects (fun b => (fun (_ : Board) (_ _ : Nat) =>
        (none : Option (Bool × Board))) b s c) (fun b => (fun (_ : Board) (_ _ : Nat) =>
        (none : Option (Bool × Board))) b s c) := fun _ _ _ _ _ => True.intro
    exact solveBodyWith_respects rots h0 s c
  | succ n ih => exact solveBodyWith_respects rots (fun s c => ih s c) s c

theorem solveBodyWith_base (recur : Board → Nat → Nat → Option (Bool × Board)) :
    solveBodyWith [0, 1] recur = solveBody recur := rfl

theorem solveFuelWith_base (fuel : Nat) : solveFuelWith [0, 1] fuel = solveFuel fuel := by
  induction fuel with
  | zero => rfl
  | succ n ih =>
    show solveBodyWith [0, 1] (solveFuelWith [0, 1] n) = solveBody (solveFuel n)
    rw [ih]
    rfl

/-- The search answers alike on boards that look the same to the rules. -/
theorem solve_respects (s c : Nat) : Respects (fun b => solve b s c) (fun b => solve b s c) := by
  have := solveFuelWith_respects [0, 1] (s + c) s c
  rw [solveFuelWith_base] at this
  exact this

end Solver

/-! ## Rotations beyond the pruned set add nothing -/

namespace Solver

theorem setRotation_eq (tile : Tile) (r : Int) :
    tile.setRotation r = ⟨tile.type, Int.tmod r 4⟩ := rfl

/-- The rotation loop reads of the tile it is given only its kind. -/
theorem tryRotations_tile_congr (recur : Board → Option (Bool × Board)) (x y : Int)
    (rs : List Int) {t1 t2 : Tile} (h : t1.type = t2.type) (b : Board) :
    tryRotations recur x y rs t1 b = tryRotations recur x y rs t2 b := by
  cases rs with
  | nil => rfl
  | cons r rs =>
    have he : t1.setRotation r = t2.setRotation r := by
      rw [setRotation_eq, setRotation_eq, h]
    simp only [tryRotations]
    rw [he]

/-- A rotation loop over a list of rotations followed by more rotations is the loop over the
first ones, continued over the others when it ends without success. -/
theorem tryRotations_append (recur : Board → Option (Bool × Board)) (x y : Int)
    (rs ex : List Int) (tile : Tile) (b : Board) :
    tryRotations recur x y (rs ++ ex) tile b =
      match tryRotations recur x y rs tile b with
      | none => none
      | some (true, b') => some (true, b')
      | some (false, b') => tryRotations recur x y ex tile b' := by
  induction rs generalizing tile b with
  | nil => rfl
  | cons r rs ih =>
    have ht : (tile.setRotation r).type = tile.type := rfl
    simp only [List.cons_append, tryRotations]
    by_cases hv : b.isValidPlacement x y (tile.setRotation r) = true
    · rw [if_pos hv, if_pos hv]
      cases recur (b.placeTile x y (tile.setRotation r)) with
      | none => rfl
      | some res =>
        obtain ⟨ok, b1⟩ := res
        cases ok with
        | true => rfl
        | false =>
          simp only
          refine (ih (tile.setRotation r) (b1.removeTile x y)).trans ?_
          cases tryRotations recur x y rs (tile.setRotation r) (b1.removeTile x y) with
          | none => rfl
          | some res2 =>
            obtain ⟨ok2, b2⟩ := res2
            cases ok2 with
            | true => rfl
            | false => exact tryRotations_tile_congr recur x y ex ht b2
    · rw [if_neg hv, if_neg hv]
      refine (ih (tile.setRotation r) b).trans ?_
      cases tryRotations recur x y rs (tile.setRotation r) b with
      | none => rfl
      | some res2 =>
        obtain ⟨ok2, b2⟩ := res2
        cases ok2 with
        | true => rfl
        | false => exact tryRotations_tile_congr recur x y ex ht b2

/-- A rotation loop that ended without success made the recursive call at every rotation that
fitted, and each of these calls returned false. -/
theorem tryRotations_false_trace {recur : Board → Option (Bool × Board)} {x y : Int}
    (hrec : RestoresGrid recur) (rs : List Int) (tile : Tile) (b b' : Board)
    (h : tryRotations recur x y rs tile b = some (false, b')) :
    ∀ r ∈ rs, b.isValidPlacement x y ⟨tile.type, Int.tmod r 4⟩ = true →
      ∃ b0 b2 : Board, b0.grid = b.grid
        ∧ recur (b0.placeTile x y ⟨tile.type, Int.tmod r 4⟩) = some (false, b2) := by
  induction rs generalizing tile b with
  | nil => intro r hr; cases hr
  | cons r0 rs ih =>
    intro r hr hv
    simp only [tryRotations] at h
    rw [setRotation_eq] at h
    by_cases hv0 : b.isValidPlacement x y ⟨tile.type, Int.tmod r0 4⟩ = true
    · rw [if_pos hv0] at h
      cases hrc : recur (b.placeTile x y ⟨tile.type, Int.tmod r0 4⟩) with
      | none => rw [hrc] at h; cases h
      | some res =>
        obtain ⟨ok, b1⟩ := res
        rw [hrc] at h
        cases ok with
        | true => cases h
        | false =>
          simp only at h
          rcases List.mem_cons.1 hr with hr0 | hrs
          · subst hr0
            exact ⟨b, b1, rfl, hrc⟩
          · have hg1 : (b1.removeTile x y).grid = b.grid := by
              have h1 := hrec _ _ hrc
              have h2 : (b1.removeTile x y).grid
                  = ((b.placeTile x y ⟨tile.type, Int.tmod r0 4⟩).removeTile x y).grid := by
                show Grid.delete b1.grid (x, y) = Grid.delete _ (x, y)
                rw [h1]
              rw [h2]
              exact Board.removeTile_placeTile_grid (Board.getTile_none_of_valid hv0)
            have hv1 : (b1.removeTile x y).isValidPlacement x y ⟨tile.type, Int.tmod r 4⟩
                = true := by
              rw [Board.isValidPlacement_congr hg1]
              exact hv
            obtain ⟨b0, b2, hb0, hb2⟩ := ih ⟨tile.type, Int.tmod r0 4⟩ _ h r hrs hv1
            exact ⟨b0, b2, hb0.trans hg1, hb2⟩
    · rw [if_neg hv0] at h
      rcases List.mem_cons.1 hr with hr0 | hrs
      · subst hr0
        exact absurd hv hv0
      · exact ih ⟨tile.type, Int.tmod r0 4⟩ b h r hrs hv

/-- Rotations whose connections are those of a rotation already tried do not change the outcome
of the rotation loop. -/
theorem tryRotations_extra {recur : Board → Option (Bool × Board)} {x y : Int}
    (hresp : Respects recur recur) (hrec : RestoresGrid recur) (rs ex : List Int) (tile : Tile)
    (hex : ∀ r' ∈ ex, ∃ r ∈ rs, (Tile.mk tile.type (Int.tmod r' 4)).getConnections
      = (Tile.mk tile.type (Int.tmod r 4)).getConnections)
    (b : Board) :
    ResEq (tryRotations recur x y (rs ++ ex) tile b) (tryRotations recur x y rs tile b) := by
  rw [tryRotations_append]
  cases hrs : tryRotations recur x y rs tile b with
  | none => exact True.intro
  | some res =>
    obtain ⟨ok, b'⟩ := res
    cases ok with
    | true => exact ResEq.refl_res _
    | false =>
      simp only
      have hg' : b'.grid = b.grid := tryRotations_false_grid hrec rs tile b b' hrs
      have htr := tryRotations_false_trace hrec rs tile b b' hrs
      obtain ⟨b'', hb'', hg''⟩ := @tryRotations_fails recur x y ex tile b' (by
        intro r' hr' b0 hb0 hv0
        obtain ⟨r, hr, hconn⟩ := hex r' hr'
        have hgb : b0.grid = b.grid := hb0.trans hg'
        have hv : b.isValidPlacement x y ⟨tile.type, Int.tmod r 4⟩ = true := by
          rw [← Board.isValidPlacement_congr hgb, ← Board.isValidPlacement_conn_congr b0 x y hconn]
          exact hv0
        obtain ⟨b1, b2, hb1, hb2⟩ := htr r hr hv
        have hce : (b0.placeTile x y ⟨tile.type, Int.tmod r' 4⟩).ConnEq
            (b1.placeTile x y ⟨tile.type, Int.tmod r 4⟩) :=
          (Board.ConnEq.of_grid (hgb.trans hb1.symm)).placeTile x y hconn
        have hres := hresp _ _ hce
        rw [hb2] at hres
        cases hr0 : recur (b0.placeTile x y ⟨tile.type, Int.tmod r' 4⟩) with
        | none => rw [hr0] at hres; exact False.elim hres
        | some res0 =>
          obtain ⟨ok0, b3⟩ := res0
          rw [hr0] at hres
          have hok : ok0 = false := hres.1
          subst hok
          exact ⟨b3, rfl, hrec _ _ hr0⟩)
      rw [hb'']
      exact resEq_false (Board.ConnEq.of_grid hg'')

theorem straight_extra_rotations (k : Int) (hk : k ∈ [2, 3]) :
    ∃ r ∈ [0, 1], (Tile.mk .STRAIGHT (Int.tmod k 4)).getConnections
      = (Tile.mk .STRAIGHT (Int.tmod r 4)).getConnections := by
  simp only [List.mem_cons, List.mem_singleton, List.not_mem_nil, or_false] at hk
  rcases hk with rfl | rfl
  · exact ⟨0, by simp, by decide⟩
  · exact ⟨1, by simp, by decide⟩

/-- One call of the variant that tries four rotations of a Straight agrees with one call of the
implemented body, when both recurse through the same function. -/
theorem solveBodyWith_extra {recur : Board → Nat → Nat → Option (Bool × Board)}
    (hresp : ∀ s c, Respects (fun b => recur b s c) (fun b => recur b s c))
    (hrec : ∀ s c, RestoresGrid (fun b => recur b s c)) (b : Board) (s c : Nat) :
    ResEq (solveBodyWith [0, 1, 2, 3] recur b s c) (solveBodyWith [0, 1] recur b s c) := by
  unfold solveBodyWith
  cases b.hasOpenEnds with
  | none => exact True.intro
  | some open_ =>
    cases open_ with
    | false => exact ResEq.refl_res _
    | true =>
      simp only
      by_cases hz : s = 0 ∧ c = 0
      · rw [if_pos hz, if_pos hz]
        exact ResEq.refl_res _
      · rw [if_neg hz, if_neg hz]
        cases getOpenSpots b with
        | none => exact True.intro
        | some spots =>
          cases spots with
          | nil => exact ResEq.refl_res _
          | cons spot rest =>
            obtain ⟨x, y⟩ := spot
            simp only
            have hA : ResEq
                (if s > 0 then
                  tryRotations (fun b' => recur b' (s - 1) c) x y [0, 1, 2, 3]
                    (Tile.new .STRAIGHT) b
                else some (false, b))
                (if s > 0 then
                  tryRotations (fun b' => recur b' (s - 1) c) x y [0, 1] (Tile.new .STRAIGHT) b
                else some (false, b)) := by
              by_cases hs0 : s > 0
              · rw [if_pos hs0, if_pos hs0]
                exact tryRotations_extra (hresp (s - 1) c) (hrec (s - 1) c) [0, 1] [2, 3]
                  (Tile.new .STRAIGHT) straight_extra_rotations b
              · rw [if_neg hs0, if_neg hs0]
                exact ResEq.refl_res _
            revert hA
            cases (if s > 0 then
                  tryRotations (fun b' => recur b' (s - 1) c) x y [0, 1, 2, 3]
                    (Tile.new .STRAIGHT) b
                else some (false, b)) with
            | none =>
              cases (if s > 0 then
                  tryRotations (fun b' => recur b' (s - 1) c) x y [0, 1] (Tile.new .STRAIGHT) b
                else some (false, b)) with
              | none => exact fun _ => True.intro
              | some res2 => exact fun hh => False.elim hh
            | some res1 =>
              cases (if s > 0 then
                  tryRotations (fun b' => recur b' (s - 1) c) x y [0, 1] (Tile.new .STRAIGHT) b
                else some (false, b)) with
              | none => exact fun hh => False.elim hh
              | some res2 =>
                obtain ⟨ok1, c1⟩ := res1
                obtain ⟨ok2, c2⟩ := res2
                rintro ⟨hok, hc⟩
                subst hok
                cases ok1 with
                | true => exact resEq_true hc
                | false =>
                  simp only
                  by_cases hc0 : c > 0
                  · rw [if_pos hc0, if_pos hc0]
                    exact tryRotations_respects (hresp s (c - 1)) x y _ _ c1 c2 hc
                  · rw [if_neg hc0, if_neg hc0]
                    exact resEq_false hc

theorem solveFuel_respects (fuel s c : Nat) :
    Respects (fun b => solveFuel fuel b s c) (fun b => solveFuel fuel b s c) := by
  have := solveFuelWith_respects [0, 1] fuel s c
  rw [solveFuelWith_base] at this
  exact this

/-- At every depth of recursion the variant that tries four rotations of a Straight and the
implemented search agree on boards that look the same. -/
theorem solveFuelWith_all_resEq (fuel s c : Nat) :
    Respects (fun b => solveFuelWith [0, 1, 2, 3] fuel b s c) (fun b => solveFuel fuel b s c) := by
  induction fuel generalizing s c with
  | zero =>
    intro b1 b2 h
    have h0 : ∀ s c : Nat, Respects (fun b => (fun (_ : Board) (_ _ : Nat) =>
        (none : Option (Bool × Board))) b s c) (fun b => (fun (_ : Board) (_ _ : Nat) =>
        (none : Option (Bool × Board))) b s c) := fun _ _ _ _ _ => True.intro
    have h1 := solveBodyWith_respects [0, 1, 2, 3] h0 s c b1 b2 h
    have h2 := @solveBodyWith_extra (fun _ _ _ => none) h0
      (fun _ _ _ _ hh => by cases hh) b2 s c
    exact ResEq.trans_res h1 h2
  | succ n ih =>
    intro b1 b2 h
    have h1 := solveBodyWith_respects [0, 1, 2, 3] (fun s c => ih s c) s c b1 b2 h
    have h2 := @solveBodyWith_extra (solveFuel n) (fun s c => solveFuel_respects n s c)
      (fun s c b1 b2 hh => solveFuel_false_grid n b1 s c b2 hh) b2 s c
    exact ResEq.trans_res h1 h2

/-- The variant that tries four rotations of a Straight and the implemented search return the
same boolean, and throw on the same inputs. -/
theorem solveAllRotations_resEq (b : Board) (s c : Nat) :
    ResEq (solveAllRotations b s c) (solve b s c) :=
  solveFuelWith_all_resEq (s + c) s c b b (Board.ConnEq.refl_shape b)

theorem isPossibleAllRotations_eq (b : Board) (s c : Nat) :
    isPossibleAllRotations b s c = isPossible b s c := by
  unfold isPossibleAllRotations isPossible
  exact ResEq.map_fst (solveAllRotations_resEq b.clone s c)

theorem solveBodyWith_congr (rots : List Int)
    {r1 r2 : Board → Nat → Nat → Option (Bool × Board)} (b : Board)
    (s c : Nat) (hs : 0 < s → ∀ b', r1 b' (s - 1) c = r2 b' (s - 1) c)
    (hc : 0 < c → ∀ b', r1 b' s (c - 1) = r2 b' s (c - 1)) :
    solveBodyWith rots r1 b s c = solveBodyWith rots r2 b s c := by
  unfold solveBodyWith
  by_cases hs0 : 0 < s
  · have e1 : (fun b' => r1 b' (s - 1) c) = (fun b' => r2 b' (s - 1) c) := funext (hs hs0)
    by_cases hc0 : 0 < c
    · have e2 : (fun b' => r1 b' s (c - 1)) = (fun b' => r2 b' s (c - 1)) := funext (hc hc0)
      simp only [e1, e2]
    · simp only [e1, gt_iff_lt, hc0, if_false]
  · by_cases hc0 : 0 < c
    · have e2 : (fun b' => r1 b' s (c - 1)) = (fun b' => r2 b' s (c - 1)) := funext (hc hc0)
      simp only [e2, gt_iff_lt, hs0, if_false]
    · simp only [gt_iff_lt, hs0, hc0, if_false]

/-- The recursion equation of the variant: it is the body of `solve` with the Straight loop over
`[0, 1, 2, 3]`, calling itself; the fuel `straights + curves` is what these calls need. -/
theorem solveAllRotations_eq_body (b : Board) (s c : Nat) :
    solveAllRotations b s c = solveBodyWith [0, 1, 2, 3] solveAllRotations b s c := by
  unfold solveAllRotations
  cases hn : s + c with
  | zero =>
    have hs : s = 0 := by omega
    have hc : c = 0 := by omega
    subst hs hc
    exact solveBodyWith_congr _ b 0 0 (fun h => absurd h (by decide))
      (fun h => absurd h (by decide))
  | succ n =>
    show solveBodyWith [0, 1, 2, 3] (solveFuelWith [0, 1, 2, 3] n) b s c = _
    refine solveBodyWith_congr _ b s c (fun h b' => ?_) (fun h b' => ?_)
    · have : n = s - 1 + c := by omega
      rw [this]
    · have : n = s + (c - 1) := by omega
      rw [this]

end Solver
/-! ## More tiles in hand never turn a true answer into another one -/

namespace Board

theorem dirsOK_of_hasOpenEnds_false {b : Board} (h : b.hasOpenEnds = some false) : b.DirsOK := by
  have hne : b.grid ≠ [] := by
    intro he
    unfold hasOpenEnds at h
    rw [he] at h
    simp at h
  intro e he d hd
  have hn := (hasOpenEnds_false_iff_forall b hne).1 h e he d hd
  unfold neighborAt at hn
  cases ho : offsetAt d with
  | none => rw [ho] at hn; simp at hn
  | some o => rfl

end Board

namespace Solver

/-- A search that returned true ran on a board all of whose connections are directions: the
final scan of `hasOpenEnds` read the offset of each of them. -/
theorem dirsOK_of_solve_true {b bf : Board} {s c : Nat} (h : solve b s c = some (true, bf)) :
    b.DirsOK := by
  obtain ⟨ps, hl, hg, hcl, -, -, -⟩ := solveFuel_sound _ b s c bf h
  have hdf : bf.DirsOK := Board.dirsOK_of_hasOpenEnds_false hcl
  intro e he
  refine hdf e ?_
  rw [← hg, Board.applySeq_grid_of_legal ps b hl]
  exact List.mem_append_left _ he

theorem solve_true_of_connEq {b1 b2 bf : Board} {s c : Nat} (hce : b1.ConnEq b2)
    (h : solve b1 s c = some (true, bf)) : ∃ b', solve b2 s c = some (true, b') := by
  have hres := solve_respects s c b1 b2 hce
  simp only at hres
  rw [h] at hres
  cases h2 : solve b2 s c with
  | none => rw [h2] at hres; exact False.elim hres
  | some res =>
    obtain ⟨ok, b'⟩ := res
    rw [h2] at hres
    have hok : true = ok := hres.1
    subst hok
    exact ⟨b', rfl⟩

theorem inHand_straight_rotations :
    ∀ r ∈ [(0 : Int), 1], (Tile.mk .STRAIGHT (Int.tmod r 4)).InHand := by
  decide

theorem inHand_curve_rotations :
    ∀ r ∈ [(0 : Int), 1, 2, 3], (Tile.mk .CURVE (Int.tmod r 4)).InHand := by
  decide

theorem solve_mono_aux (n : Nat) : ∀ (b : Board) (s c : Nat), s + c = n →
    ∀ bf : Board, solve b s c = some (true, bf) →
    ∀ s' c' : Nat, s ≤ s' → c ≤ c' → ∃ b', solve b s' c' = some (true, b') := by
  induction n with
  | zero =>
    intro b s c hn bf h s' c' _ _
    have hs : s = 0 := by omega
    have hc : c = 0 := by omega
    subst hs hc
    rw [solve_eq_solveBody] at h
    unfold solveBody at h
    cases ho : b.hasOpenEnds with
    | none => simp [ho] at h
    | some o =>
      cases o with
      | false => exact ⟨b, solve_of_closed s' c' ho⟩
      | true => simp [ho] at h
  | succ n ih =>
    intro b s c hn bf h s' c' hs hc
    have hd : b.DirsOK := dirsOK_of_solve_true h
    rw [solve_eq_solveBody] at h
    unfold solveBody at h
    cases ho : b.hasOpenEnds with
    | none => simp [ho] at h
    | some o =>
      cases o with
      | false => exact ⟨b, solve_of_closed s' c' ho⟩
      | true =>
        rw [ho] at h
        simp only at h
        have hz : ¬ (s = 0 ∧ c = 0) := by omega
        rw [if_neg hz] at h
        cases hsp : getOpenSpots b with
        | none => simp [hsp] at h
        | some spots =>
          cases spots with
          | nil => simp [hsp] at h
          | cons spot rest =>
            obtain ⟨x, y⟩ := spot
            rw [hsp] at h
            simp only at h
            -- the tile the search with the smaller inventory succeeded with
            have hfound : ∃ (t : Tile) (b0 : Board), t.InHand ∧ b0.grid = b.grid
                ∧ b0.isValidPlacement x y t = true
                ∧ ((t.type = .STRAIGHT ∧ 0 < s
                    ∧ ∃ b', solve (b0.placeTile x y t) (s - 1) c = some (true, b'))
                  ∨ (t.type = .CURVE ∧ 0 < c
                    ∧ ∃ b', solve (b0.placeTile x y t) s (c - 1) = some (true, b'))) := by
              cases hA : (if s > 0 then
                  tryRotations (fun b' => solve b' (s - 1) c) x y [0, 1] (Tile.new .STRAIGHT) b
                else some (false, b)) with
              | none => rw [hA] at h; simp at h
              | some res =>
                obtain ⟨ok, b1⟩ := res
                rw [hA] at h
                cases ok with
                | true =>
                  have hs0 : s > 0 := by
                    by_contra hn0
                    rw [if_neg hn0] at hA
                    simp at hA
                  rw [if_pos hs0] at hA
                  obtain ⟨r, hr, b0, hb0, hv, hrec⟩ :=
                    tryRotations_true (restoresGrid_solve (s - 1) c) _ _ _ _ hA
                  exact ⟨⟨.STRAIGHT, Int.tmod r 4⟩, b0, inHand_straight_rotations r hr, hb0, hv,
                    Or.inl ⟨rfl, hs0, b1, hrec⟩⟩
                | false =>
                  simp only at h
                  have hg1 : b1.grid = b.grid := by
                    by_cases hs0 : s > 0
                    · rw [if_pos hs0] at hA
                      exact tryRotations_false_grid (restoresGrid_solve (s - 1) c) _ _ _ _ hA
                    · rw [if_neg hs0] at hA
                      simp only [Option.some.injEq, Prod.mk.injEq, true_and] at hA
                      rw [hA]
                  have hc0 : c > 0 := by
                    by_contra hn0
                    rw [if_neg hn0] at h
                    simp at h
                  rw [if_pos hc0] at h
                  obtain ⟨r, hr, b0, hb0, hv, hrec⟩ :=
                    tryRotations_true (restoresGrid_solve s (c - 1)) _ _ _ _ h
                  exact ⟨⟨.CURVE, Int.tmod r 4⟩, b0, inHand_curve_rotations r hr,
                    hb0.trans hg1, hv, Or.inr ⟨rfl, hc0, bf, hrec⟩⟩
            obtain ⟨t, b0, ht, hb0, hv, hcase⟩ := hfound
            have hvb : b.isValidPlacement x y t = true := by
              rw [← Board.isValidPlacement_congr hb0]
              exact hv
            refine @solve_step b s' c' x y rest ho hsp hd t ht hvb ?_
            intro b2 t' hb2 _ hconn
            have hce : (b0.placeTile x y t).ConnEq (b2.placeTile x y t') :=
              (Board.ConnEq.of_grid (hb0.trans hb2.symm)).placeTile x y hconn.symm
            rcases hcase with ⟨hk, hs0, b', hb'⟩ | ⟨hk, hc0, b', hb'⟩
            · obtain ⟨b'', hb''⟩ := solve_true_of_connEq hce hb'
              exact Or.inl ⟨hk, by omega,
                ih _ (s - 1) c (by omega) b'' hb'' (s' - 1) c' (by omega) hc⟩
            · obtain ⟨b'', hb''⟩ := solve_true_of_connEq hce hb'
              exact Or.inr ⟨hk, by omega,
                ih _ s (c - 1) (by omega) b'' hb'' s' (c' - 1) hs (by omega)⟩

/-- A search that succeeds with `s` Straights and `c` Curves succeeds with any inventory that
has at least as many of each. -/
theorem solve_mono {b bf : Board} {s c : Nat} (h : solve b s c = some (true, bf))
    {s' c' : Nat} (hs : s ≤ s') (hc : c ≤ c') : ∃ b', solve b s' c' = some (true, b') :=
  solve_mono_aux (s + c) b s c rfl bf h s' c' hs hc

theorem isPossible_mono (b : Board) (s c s' c' : Nat) (hs : s ≤ s') (hc : c ≤ c')
    (h : isPossible b s c = some true) : isPossible b s' c' = some true := by
  unfold isPossible at h ⊢
  simp only at h ⊢
  cases h1 : solve b.clone s c with
  | none => rw [h1] at h; simp at h
  | some res =>
    obtain ⟨ok, bf⟩ := res
    rw [h1] at h
    simp only [Option.map_some', Option.some.injEq] at h
    subst h
    obtain ⟨b', hb'⟩ := solve_mono h1 hs hc
    rw [hb']
    rfl

end Solver
/-! ## Rotation pruning and the inventory -/

/-- C15 (rotation symmetry pruning): the variant of the solver that tries all four rotations
`0..3` for Straight tiles returns, for every board and all `s` and `c`, the same boolean as the
implemented `Solver.solve`, which tries rotations 0 and 1 for Straight tiles and `0..3` for Curve
tiles; where one throws so does the other. The same holds of `isPossible` over each. -/
theorem C15_rotation_pruning_same_answer (b : Board) (s c : Nat) :
    (Solver.solveAllRotations b s c).map (fun r => r.1) = (Solver.solve b s c).map (fun r => r.1)
    ∧ Solver.isPossibleAllRotations b s c = Solver.isPossible b s c :=
  ⟨Solver.ResEq.map_fst (Solver.solveAllRotations_resEq b s c),
   Solver.isPossibleAllRotations_eq b s c⟩

/-- C17 (monotone in the inventory): for every board and all `s ≤ s'` and `c ≤ c'`, if
`Solver.isPossible(board, s, c)` returns true then `Solver.isPossible(board, s', c')` returns
true. -/
theorem C17_isPossible_monotone (b : Board) (s c s' c' : Nat) (hs : s ≤ s') (hc : c ≤ c')
    (h : Solver.isPossible b s c = some true) : Solver.isPossible b s' c' = some true :=
  Solver.isPossible_mono b s c s' c' hs hc h

/-- C17 at the board of the test 'Basic Loop Check': true with one Curve in hand, and true with
one Straight and two Curves. -/
theorem C17_isPossible_monotone_witness :
    (0 : Nat) ≤ 1 ∧ (1 : Nat) ≤ 2 ∧ Solver.isPossible basicLoopBoard 0 1 = some true
    ∧ Solver.isPossible basicLoopBoard 1 2 = some true :=
  ⟨by decide, by decide, by decide,
   C17_isPossible_monotone basicLoopBoard 0 1 1 2 (by decide) (by decide) (by decide)⟩

/-! ## Double precision: rounding is exact on safe integers -/

namespace F64

theorem ulpExp_of_lt (fuel a : Nat) (h : a < 2 ^ 53) : ulpExp fuel a = 0 := by
  cases fuel with
  | zero => rfl
  | succ n =>
    show (if a < 2 ^ 53 then 0 else ulpExp n (a / 2) + 1) = 0
    rw [if_pos h]

theorem round_of_lt {n : Int} (h : n.natAbs < 2 ^ 53) : round n = n := by
  unfold round
  simp only [ulpExp_of_lt _ _ h, pow_zero, Nat.div_one, Nat.mod_one, Nat.mul_zero, Nat.mul_one]
  have hup : (decide ((1 : Nat) < 0) || (decide ((0 : Nat) = 1) && decide (n.natAbs % 2 = 1)))
      = false := by simp
  rw [hup]
  simp only [Bool.false_eq_true, if_false]
  split <;> omega

theorem round_of_le {n : Int} (h : n.natAbs ≤ 2 ^ 53) : round n = n := by
  rcases Nat.lt_or_ge n.natAbs (2 ^ 53) with h1 | h1
  · exact round_of_lt h1
  · have h2 : n.natAbs = 2 ^ 53 := le_antisymm h h1
    have h3 : n = 2 ^ 53 ∨ n = -(2 ^ 53) := by omega
    rcases h3 with rfl | rfl <;> decide

theorem ulpExp_pos (fuel a : Nat) (hf : a ≤ fuel) (h : 2 ^ 53 ≤ a) : 0 < ulpExp fuel a := by
  cases fuel with
  | zero => omega
  | succ n =>
    show 0 < (if a < 2 ^ 53 then 0 else ulpExp n (a / 2) + 1)
    rw [if_neg (by omega)]
    omega

theorem ulpExp_le (fuel : Nat) : ∀ a : Nat, a ≤ fuel → 2 ^ 53 ≤ a →
    2 ^ 52 * 2 ^ ulpExp fuel a ≤ a := by
  induction fuel with
  | zero => intro a hf h; omega
  | succ n ih =>
    intro a hf h
    show 2 ^ 52 * 2 ^ (if a < 2 ^ 53 then 0 else ulpExp n (a / 2) + 1) ≤ a
    rw [if_neg (by omega)]
    rcases Nat.lt_or_ge (a / 2) (2 ^ 53) with h1 | h1
    · rw [ulpExp_of_lt _ _ h1]
      omega
    · have h2 := ih (a / 2) (by omega) h1
      have e1 : 2 ^ (ulpExp n (a / 2) + 1) = 2 ^ ulpExp n (a / 2) * 2 := pow_succ _ _
      rw [e1]
      generalize 2 ^ ulpExp n (a / 2) = p at h2
      omega

/-- Beyond `2^53` in size rounding never comes back below `2^53`. -/
theorem round_large {n : Int} (h : 2 ^ 53 < n.natAbs) : 2 ^ 53 ≤ (round n).natAbs := by
  have hle := ulpExp_le n.natAbs n.natAbs (le_refl _) (le_of_lt h)
  have hpos := ulpExp_pos n.natAbs n.natAbs (le_refl _) (le_of_lt h)
  unfold round
  simp only
  generalize ulpExp n.natAbs n.natAbs = e at hle hpos
  have hq : 2 ^ 52 ≤ n.natAbs / 2 ^ e := by
    rw [Nat.le_div_iff_mul_le (Nat.pos_pow_of_pos e (by decide))]
    exact hle
  have he : 2 ≤ 2 ^ e := by
    calc 2 = 2 ^ 1 := by norm_num
      _ ≤ 2 ^ e := Nat.pow_le_pow_right (by decide) hpos
  have hm : ∀ up : Bool, 2 ^ 53 ≤ (if up = true then n.natAbs / 2 ^ e + 1 else n.natAbs / 2 ^ e)
      * 2 ^ e := by
    intro up
    have h1 : n.natAbs / 2 ^ e ≤ (if up = true then n.natAbs / 2 ^ e + 1 else n.natAbs / 2 ^ e) := by
      split <;> omega
    calc 2 ^ 53 = 2 ^ 52 * 2 := by norm_num
      _ ≤ (n.natAbs / 2 ^ e) * 2 ^ e := Nat.mul_le_mul hq he
      _ ≤ _ := Nat.mul_le_mul_right _ h1
  have hm' := hm (decide (2 ^ e < 2 * (n.natAbs % 2 ^ e))
    || (decide (2 * (n.natAbs % 2 ^ e) = 2 ^ e) && decide (n.natAbs / 2 ^ e % 2 = 1)))
  split
  · rw [Int.natAbs_neg, Int.natAbs_ofNat]
    exact hm'
  · rw [Int.natAbs_ofNat]
    exact hm'

/-- A sum that rounds to a safe integer was exact. -/
theorem round_eq_safe {n k : Int} (h : round n = k) (hk : SafeInt 0 k) : n = k := by
  obtain ⟨k1, k2⟩ := hk
  simp only [Nat.cast_zero, add_zero] at k1 k2
  rcases Nat.lt_or_ge (2 ^ 53) n.natAbs with h1 | h1
  · have := round_large h1
    rw [h] at this
    omega
  · rw [round_of_le h1] at h
    exact h

theorem add_of_safe {x d : Int} (hx : SafeInt 0 x) (hd : -1 ≤ d ∧ d ≤ 1) : add x d = x + d := by
  obtain ⟨x1, x2⟩ := hx
  simp only [Nat.cast_zero, add_zero] at x1 x2
  exact round_of_le (by omega)

theorem sub_of_safe {x d : Int} (hx : SafeInt 0 x) (hd : -1 ≤ d ∧ d ≤ 1) : sub x d = x - d := by
  obtain ⟨x1, x2⟩ := hx
  simp only [Nat.cast_zero, add_zero] at x1 x2
  exact round_of_le (by omega)

theorem add_eq_safe {x d k : Int} (h : add x d = k) (hk : SafeInt 0 k) : x + d = k :=
  round_eq_safe h hk

theorem safeInt_mono {m m' : Nat} {x : Int} (h : SafeInt m x) (hm : m' ≤ m) : SafeInt m' x := by
  obtain ⟨h1, h2⟩ := h
  constructor
  · have : (m' : Int) ≤ m := by exact_mod_cast hm
    omega
  · have : (m' : Int) ≤ m := by exact_mod_cast hm
    omega

end F64

/-! ## Double precision: the methods agree with the exact ones on safe coordinates -/

namespace F64

theorem offset_small {d : Int} {o : Int × Int} (h : offsetAt d = some o) :
    (-1 ≤ o.1 ∧ o.1 ≤ 1) ∧ (-1 ≤ o.2 ∧ o.2 ≤ 1) := by
  rcases offsetAt_some_cases h with ⟨-, rfl⟩ | ⟨-, rfl⟩ | ⟨-, rfl⟩ | ⟨-, rfl⟩ <;> decide

theorem all_congr_mem {α : Type} (l : List α) (f g : α → Bool) (h : ∀ a ∈ l, f a = g a) :
    l.all f = l.all g := by
  induction l with
  | nil => rfl
  | cons a rest ih =>
    rw [List.all_cons, List.all_cons, h a (List.mem_cons_self _ _),
      ih (fun a' h' => h a' (List.mem_cons_of_mem _ h'))]

theorem getNeighbors_of_safe (b : Board) {x y : Int} (hx : SafeInt 0 x) (hy : SafeInt 0 y) :
    getNeighbors b x y = b.getNeighbors x y := by
  unfold getNeighbors Board.getNeighbors
  simp only [List.filterMap_cons, List.filterMap_nil,
    add_of_safe hx (by decide : (-1 : Int) ≤ 0 ∧ (0 : Int) ≤ 1),
    add_of_safe hx (by decide : (-1 : Int) ≤ 1 ∧ (1 : Int) ≤ 1),
    add_of_safe hx (by decide : (-1 : Int) ≤ -1 ∧ (-1 : Int) ≤ 1),
    add_of_safe hy (by decide : (-1 : Int) ≤ 0 ∧ (0 : Int) ≤ 1),
    add_of_safe hy (by decide : (-1 : Int) ≤ 1 ∧ (1 : Int) ≤ 1),
    add_of_safe hy (by decide : (-1 : Int) ≤ -1 ∧ (-1 : Int) ≤ 1)]

theorem edgeMatches_of_safe (b : Board) {x y : Int} (hx : SafeInt 0 x) (hy : SafeInt 0 y)
    (myConns : List Int) {row : Int × Int × Int} (hrow : row ∈ offsets) :
    edgeMatches b x y myConns row = b.edgeMatches x y myConns row := by
  have hs : (-1 ≤ row.2.1 ∧ row.2.1 ≤ 1) ∧ (-1 ≤ row.2.2 ∧ row.2.2 ≤ 1) := by
    unfold offsets at hrow
    simp only [List.mem_cons, List.mem_singleton, List.not_mem_nil, or_false] at hrow
    rcases hrow with rfl | rfl | rfl | rfl <;> decide
  unfold edgeMatches Board.edgeMatches
  rw [add_of_safe hx hs.1, add_of_safe hy hs.2]

/-- At a safe coordinate the code's `isValidPlacement` is the exact one. -/
theorem isValidPlacement_of_safe (b : Board) {x y : Int} (hx : SafeInt 0 x) (hy : SafeInt 0 y)
    (t : Tile) : isValidPlacement b x y t = b.isValidPlacement x y t := by
  unfold isValidPlacement Board.isValidPlacement
  rw [getNeighbors_of_safe b hx hy]
  have hall : offsets.all (fun row => edgeMatches b x y t.getConnections row)
      = offsets.all (fun row => b.edgeMatches x y t.getConnections row) := by
    exact all_congr_mem offsets _ _ (fun row hrow => edgeMatches_of_safe b hx hy _ hrow)
  simp only [hall]

theorem scanConns_of_safe (b : Board) {x y : Int} (hx : SafeInt 0 x) (hy : SafeInt 0 y)
    (cs : List Int) : scanConns b x y cs = b.scanConns x y cs := by
  induction cs with
  | nil => rfl
  | cons d rest ih =>
    unfold scanConns Board.scanConns
    cases ho : offsetAt d with
    | none => rfl
    | some o =>
      obtain ⟨dx, dy⟩ := o
      have hs := offset_small ho
      simp only
      rw [add_of_safe hx hs.1, add_of_safe hy hs.2, ih]

theorem scanTiles_of_safe (b : Board) (g : Grid)
    (hg : ∀ e ∈ g, SafeInt 0 e.1.1 ∧ SafeInt 0 e.1.2) : scanTiles b g = b.scanTiles g := by
  induction g with
  | nil => rfl
  | cons e rest ih =>
    obtain ⟨⟨x, y⟩, tile⟩ := e
    have he : SafeInt 0 x ∧ SafeInt 0 y := hg ((x, y), tile) (List.mem_cons_self _ _)
    unfold scanTiles Board.scanTiles
    rw [scanConns_of_safe b he.1 he.2, ih (fun e' h' => hg e' (List.mem_cons_of_mem _ h'))]

/-- On a board of safe coordinates the code's `hasOpenEnds` is the exact one. -/
theorem hasOpenEnds_of_safe {b : Board} (hb : SafeBoard 0 b) : hasOpenEnds b = b.hasOpenEnds := by
  unfold hasOpenEnds Board.hasOpenEnds
  rw [scanTiles_of_safe b b.grid hb]

theorem spotsOfConns_of_safe (b : Board) {x y : Int} (hx : SafeInt 0 x) (hy : SafeInt 0 y)
    (cs : List Int) (acc : List Coord) :
    spotsOfConns b x y cs acc = Solver.spotsOfConns b x y cs acc := by
  induction cs generalizing acc with
  | nil => rfl
  | cons d rest ih =>
    unfold spotsOfConns Solver.spotsOfConns
    cases ho : offsetAt d with
    | none => rfl
    | some o =>
      obtain ⟨dx, dy⟩ := o
      have hs := offset_small ho
      simp only
      rw [add_of_safe hx hs.1, add_of_safe hy hs.2, ih, ih]

theorem spotsOfTiles_of_safe (b : Board) (g : Grid)
    (hg : ∀ e ∈ g, SafeInt 0 e.1.1 ∧ SafeInt 0 e.1.2) (acc : List Coord) :
    spotsOfTiles b g acc = Solver.spotsOfTiles b g acc := by
  induction g generalizing acc with
  | nil => rfl
  | cons e rest ih =>
    obtain ⟨⟨x, y⟩, tile⟩ := e
    have he : SafeInt 0 x ∧ SafeInt 0 y := hg ((x, y), tile) (List.mem_cons_self _ _)
    unfold spotsOfTiles Solver.spotsOfTiles
    rw [spotsOfConns_of_safe b he.1 he.2]
    cases Solver.spotsOfConns b x y tile.getConnections acc with
    | none => rfl
    | some spots' => exact ih (fun e' h' => hg e' (List.mem_cons_of_mem _ h')) spots'

/-- On a board of safe coordinates the code's `getOpenSpots` is the exact one. -/
theorem getOpenSpots_of_safe {b : Board} (hb : SafeBoard 0 b) :
    getOpenSpots b = Solver.getOpenSpots b :=
  spotsOfTiles_of_safe b b.grid hb []

end F64

/-! ## Double precision: the search agrees with the exact one while its tiles stay safe -/

namespace F64

theorem safeBoard_congr {m : Nat} {b1 b2 : Board} (h : b1.grid = b2.grid) (hs : SafeBoard m b1) :
    SafeBoard m b2 := by
  intro e he
  rw [← h] at he
  exact hs e he

theorem safeBoard_mono {m m' : Nat} {b : Board} (hs : SafeBoard m b) (hm : m' ≤ m) :
    SafeBoard m' b :=
  fun e he => ⟨safeInt_mono (hs e he).1 hm, safeInt_mono (hs e he).2 hm⟩

theorem safeBoard_placeTile {m : Nat} {b : Board} (hs : SafeBoard m b) {x y : Int}
    (hx : SafeInt m x) (hy : SafeInt m y) (t : Tile) : SafeBoard m (b.placeTile x y t) := by
  intro e he
  rcases Grid.mem_set he with h1 | h1
  · exact hs e h1
  · rw [h1]
    exact ⟨hx, hy⟩

/-- The rotation loops agree when the recursive calls agree on the boards they are made on. -/
theorem tryRotations_of_safe {rD rE : Board → Option (Bool × Board)} {m : Nat}
    (hrec : ∀ b' : Board, SafeBoard m b' → rD b' = rE b') (hres : Solver.RestoresGrid rE)
    {x y : Int} (hx : SafeInt m x) (hy : SafeInt m y) (rs : List Int) :
    ∀ (tile : Tile) (b : Board), SafeBoard m b →
      tryRotations rD x y rs tile b = Solver.tryRotations rE x y rs tile b := by
  have hx0 : SafeInt 0 x := safeInt_mono hx (Nat.zero_le _)
  have hy0 : SafeInt 0 y := safeInt_mono hy (Nat.zero_le _)
  induction rs with
  | nil => intro tile b _; rfl
  | cons r rs ih =>
    intro tile b hb
    unfold tryRotations Solver.tryRotations
    simp only
    rw [isValidPlacement_of_safe b hx0 hy0]
    by_cases hv : b.isValidPlacement x y (tile.setRotation r) = true
    · rw [if_pos hv, if_pos hv, hrec _ (safeBoard_placeTile hb hx hy _)]
      cases hr : rE (b.placeTile x y (tile.setRotation r)) with
      | none => rfl
      | some res =>
        obtain ⟨ok, b1⟩ := res
        cases ok with
        | true => rfl
        | false =>
          simp only
          refine ih _ _ (safeBoard_congr ?_ hb)
          have h1 := hres _ _ hr
          have h2 : (b1.removeTile x y).grid
              = ((b.placeTile x y (tile.setRotation r)).removeTile x y).grid := by
            show Grid.delete b1.grid (x, y) = Grid.delete _ (x, y)
            rw [h1]
          rw [h2]
          exact (Board.removeTile_placeTile_grid (Board.getTile_none_of_valid hv)).symm
    · rw [if_neg hv, if_neg hv]
      exact ih _ _ hb

end F64

namespace F64

theorem safeInt_step {m : Nat} {k d : Int} (hk : SafeInt (m + 1) k) (hd : -1 ≤ d ∧ d ≤ 1) :
    SafeInt m (k + d) := by
  obtain ⟨h1, h2⟩ := hk
  have e : ((m + 1 : Nat) : Int) = (m : Int) + 1 := by push_cast; rfl
  rw [e] at h1 h2
  constructor <;> omega

/-- A cell pointed at from a board that is safe with margin `m + 1` is safe with margin `m`. -/
theorem safe_of_pointedAt {m : Nat} {b : Board} (hb : SafeBoard (m + 1) b) {x y : Int}
    (hp : b.PointedAt x y) : SafeInt m x ∧ SafeInt m y := by
  obtain ⟨e, he, d, -, o, ho, hq⟩ := hp
  have hs := offset_small ho
  have hxy := Prod.mk.inj hq
  rw [← hxy.1, ← hxy.2]
  exact ⟨safeInt_step (hb e he).1 hs.1, safeInt_step (hb e he).2 hs.2⟩

theorem solveBody_of_safe {rD rE : Board → Nat → Nat → Option (Bool × Board)} {m : Nat}
    (hrec : ∀ (s c : Nat) (b' : Board), SafeBoard m b' → rD b' s c = rE b' s c)
    (hres : ∀ s c, Solver.RestoresGrid (fun b => rE b s c))
    (b : Board) (hb : SafeBoard (m + 1) b) (s c : Nat) :
    solveBody rD b s c = Solver.solveBody rE b s c := by
  have hb0 : SafeBoard 0 b := safeBoard_mono hb (Nat.zero_le _)
  have hbm : SafeBoard m b := safeBoard_mono hb (Nat.le_succ _)
  unfold solveBody Solver.solveBody
  rw [hasOpenEnds_of_safe hb0, getOpenSpots_of_safe hb0]
  cases b.hasOpenEnds with
  | none => rfl
  | some open_ =>
    cases open_ with
    | false => rfl
    | true =>
      simp only
      by_cases hz : s = 0 ∧ c = 0
      · rw [if_pos hz, if_pos hz]
      · rw [if_neg hz, if_neg hz]
        cases hsp : Solver.getOpenSpots b with
        | none => rfl
        | some spots =>
          cases spots with
          | nil => rfl
          | cons spot rest =>
            obtain ⟨x, y⟩ := spot
            have hmem : (x, y) ∈ (x, y) :: rest := List.mem_cons_self _ _
            obtain ⟨hx, hy⟩ := safe_of_pointedAt hb ((Solver.mem_getOpenSpots hsp (x, y)).1 hmem).2
            simp only
            have hA : (if s > 0 then
                  tryRotations (fun b' => rD b' (s - 1) c) x y [0, 1] (Tile.new .STRAIGHT) b
                else some (false, b))
                = (if s > 0 then
                  Solver.tryRotations (fun b' => rE b' (s - 1) c) x y [0, 1]
                    (Tile.new .STRAIGHT) b
                else some (false, b)) := by
              by_cases hs0 : s > 0
              · rw [if_pos hs0, if_pos hs0]
                exact tryRotations_of_safe (fun b' h' => hrec (s - 1) c b' h') (hres (s - 1) c)
                  hx hy _ _ b hbm
              · rw [if_neg hs0, if_neg hs0]
            rw [hA]
            cases hB : (if s > 0 then
                  Solver.tryRotations (fun b' => rE b' (s - 1) c) x y [0, 1]
                    (Tile.new .STRAIGHT) b
                else some (false, b)) with
            | none => rfl
            | some res =>
              obtain ⟨ok, b1⟩ := res
              cases ok with
              | true => rfl
              | false =>
                simp only
                have hg1 : b1.grid = b.grid := by
                  by_cases hs0 : s > 0
                  · rw [if_pos hs0] at hB
                    exact Solver.tryRotations_false_grid (hres (s - 1) c) _ _ _ _ hB
                  · rw [if_neg hs0] at hB
                    simp only [Option.some.injEq, Prod.mk.injEq, true_and] at hB
                    rw [hB]
                by_cases hc0 : c > 0
                · rw [if_pos hc0, if_pos hc0]
                  exact tryRotations_of_safe (fun b' h' => hrec s (c - 1) b' h') (hres s (c - 1))
                    hx hy _ _ b1 (safeBoard_congr hg1.symm hbm)
                · rw [if_neg hc0, if_neg hc0]

theorem solveFuel_of_safe (fuel : Nat) : ∀ (b : Board) (s c : Nat), SafeBoard (fuel + 1) b →
    solveFuel fuel b s c = Solver.solveFuel fuel b s c := by
  induction fuel with
  | zero =>
    intro b s c hb
    exact @solveBody_of_safe (fun _ _ _ => none) (fun _ _ _ => none) 0 (fun _ _ _ _ => rfl)
      (fun _ _ _ _ hh => by cases hh) b hb s c
  | succ n ih =>
    intro b s c hb
    exact @solveBody_of_safe (solveFuel n) (Solver.solveFuel n) (n + 1)
      (fun s c b' h' => ih b' s c h')
      (fun s c b1 b2 hh => Solver.solveFuel_false_grid n b1 s c b2 hh) b hb s c

/-- On a board whose coordinates are safe with a margin of one more than the tiles in hand, the
search in double precision is the exact search: every sum it forms is exact. -/
theorem solve_of_safe {b : Board} {s c : Nat} (hb : SafeBoard (s + c + 1) b) :
    solve b s c = Solver.solve b s c :=
  solveFuel_of_safe (s + c) b s c hb

theorem isPossible_of_safe {b : Board} {s c : Nat} (hb : SafeBoard (s + c + 1) b) :
    isPossible b s c = Solver.isPossible b s c := by
  unfold isPossible Solver.isPossible
  have hc : SafeBoard (s + c + 1) b.clone := safeBoard_congr (rfl : b.grid = b.clone.grid) hb
  simp only [solve_of_safe hc]

/-- On the boards that hold tiles at safe coordinates only, the placements the code accepts are
those the exact rules accept. -/
theorem reachable_of_safe {b : Board} (hr : Reachable b) (hb : SafeBoard 0 b) :
    Board.Reachable b := by
  induction hr with
  | new => exact Board.Reachable.new
  | place b x y t _ hv ih =>
    have hfree : b.getTile x y = none := by
      unfold isValidPlacement at hv
      cases h : b.getTile x y with
      | none => rfl
      | some u => simp [h] at hv
    have hg : (b.placeTile x y t).grid = b.grid ++ [((x, y), t)] :=
      Grid.set_eq_append b.grid (x, y) t hfree
    have hxy : SafeInt 0 x ∧ SafeInt 0 y :=
      hb ((x, y), t) (by rw [hg]; exact List.mem_append_right _ (List.mem_singleton_self _))
    have hb' : SafeBoard 0 b :=
      fun e he => hb e (by rw [hg]; exact List.mem_append_left _ he)
    rw [isValidPlacement_of_safe b hxy.1 hxy.2] at hv
    exact Board.Reachable.place b x y t (ih hb') hv

end F64

/-! ## Double precision: open ends and open spots -/

namespace F64

theorem f64_spotsOfConns_mono (b : Board) (x y : Int) (cs : List Int) :
    ∀ (acc res : List Coord), spotsOfConns b x y cs acc = some res → ∀ p ∈ acc, p ∈ res := by
  induction cs with
  | nil =>
    intro acc res h p hp
    simp only [spotsOfConns, Option.some.injEq] at h
    rw [← h]
    exact hp
  | cons d rest ih =>
    intro acc res h p hp
    unfold spotsOfConns at h
    cases ho : offsetAt d with
    | none => rw [ho] at h; cases h
    | some o =>
      obtain ⟨dx, dy⟩ := o
      rw [ho] at h
      simp only at h
      by_cases hf : (b.getTile (add x dx) (add y dy)).isNone = true
      · rw [if_pos hf] at h
        exact ih _ _ h p (Solver.mem_addSpot.2 (Or.inl hp))
      · rw [if_neg hf] at h
        exact ih _ _ h p hp

theorem f64_spotsOfTiles_mono (b : Board) (g : Grid) :
    ∀ (acc res : List Coord), spotsOfTiles b g acc = some res → ∀ p ∈ acc, p ∈ res := by
  induction g with
  | nil =>
    intro acc res h p hp
    simp only [spotsOfTiles, Option.some.injEq] at h
    rw [← h]
    exact hp
  | cons e rest ih =>
    intro acc res h p hp
    obtain ⟨⟨x, y⟩, tile⟩ := e
    unfold spotsOfTiles at h
    cases hc : spotsOfConns b x y tile.getConnections acc with
    | none => rw [hc] at h; cases h
    | some spots' =>
      rw [hc] at h
      exact ih _ _ h p (f64_spotsOfConns_mono b x y _ _ _ hc p hp)

theorem f64_spotsOfConns_of_open (b : Board) (x y : Int) (cs : List Int) :
    ∀ (acc res : List Coord), scanConns b x y cs = some true →
      spotsOfConns b x y cs acc = some res → res ≠ [] := by
  induction cs with
  | nil => intro acc res h; simp [scanConns] at h
  | cons d rest ih =>
    intro acc res h hs
    unfold scanConns at h
    unfold spotsOfConns at hs
    cases ho : offsetAt d with
    | none => rw [ho] at h; cases h
    | some o =>
      obtain ⟨dx, dy⟩ := o
      rw [ho] at h hs
      simp only at h hs
      by_cases hf : (b.getTile (add x dx) (add y dy)).isNone = true
      · rw [if_pos hf] at hs
        have hmem : (add x dx, add y dy) ∈ res :=
          f64_spotsOfConns_mono b x y rest _ _ hs _ (Solver.mem_addSpot.2 (Or.inr rfl))
        intro hnil
        rw [hnil] at hmem
        cases hmem
      · rw [if_neg hf] at h hs
        exact ih _ _ h hs

theorem f64_spotsOfTiles_of_open (b : Board) (g : Grid) :
    ∀ (acc res : List Coord), scanTiles b g = some true →
      spotsOfTiles b g acc = some res → res ≠ [] := by
  induction g with
  | nil => intro acc res h; simp [scanTiles] at h
  | cons e rest ih =>
    intro acc res h hs
    obtain ⟨⟨x, y⟩, tile⟩ := e
    unfold scanTiles at h
    unfold spotsOfTiles at hs
    cases hc : spotsOfConns b x y tile.getConnections acc with
    | none => rw [hc] at hs; cases hs
    | some spots' =>
      rw [hc] at hs
      simp only at hs
      cases hsc : scanConns b x y tile.getConnections with
      | none => rw [hsc] at h; cases h
      | some open_ =>
        rw [hsc] at h
        cases open_ with
        | true =>
          have hne := f64_spotsOfConns_of_open b x y _ _ _ hsc hc
          obtain ⟨p, hp⟩ := List.exists_mem_of_ne_nil _ hne
          have hmem := f64_spotsOfTiles_mono b rest _ _ hs p hp
          intro hnil
          rw [hnil] at hmem
          cases hmem
        | false => exact ih _ _ h hs

/-- On a non-empty board where `hasOpenEnds()` returns true, `getOpenSpots`, when it returns,
returns a non-empty list: the two methods form the same sums and make the same lookups. -/
theorem f64_getOpenSpots_ne_nil {b : Board} (hne : b.grid ≠ [])
    (hopen : hasOpenEnds b = some true) {spots : List Coord}
    (hsp : getOpenSpots b = some spots) : spots ≠ [] := by
  have hlen : ¬ b.grid.length = 0 := fun h => hne (List.length_eq_zero.1 h)
  unfold hasOpenEnds at hopen
  rw [if_neg hlen] at hopen
  exact f64_spotsOfTiles_of_open b b.grid [] spots hopen hsp

theorem f64_spotsOfConns_isSome (b : Board) (x y : Int) (cs : List Int) (acc : List Coord)
    (h : ∀ d ∈ cs, (offsetAt d).isSome = true) : (spotsOfConns b x y cs acc).isSome = true := by
  induction cs generalizing acc with
  | nil => simp [spotsOfConns]
  | cons d rest ih =>
    obtain ⟨o, ho⟩ := Option.isSome_iff_exists.1 (h d (List.mem_cons_self _ _))
    obtain ⟨dx, dy⟩ := o
    simp only [spotsOfConns, ho]
    split
    · exact ih _ (fun d' hd' => h d' (List.mem_cons_of_mem _ hd'))
    · exact ih _ (fun d' hd' => h d' (List.mem_cons_of_mem _ hd'))

theorem f64_spotsOfTiles_isSome (b : Board) (g : Grid) (acc : List Coord)
    (h : ∀ e ∈ g, e.2.DirsOK) : (spotsOfTiles b g acc).isSome = true := by
  induction g generalizing acc with
  | nil => simp [spotsOfTiles]
  | cons e rest ih =>
    obtain ⟨⟨x, y⟩, t⟩ := e
    have h1 := f64_spotsOfConns_isSome b x y t.getConnections acc (h _ (List.mem_cons_self _ _))
    obtain ⟨r, hr⟩ := Option.isSome_iff_exists.1 h1
    simp only [spotsOfTiles, hr]
    exact ih _ (fun e he => h e (List.mem_cons_of_mem _ he))

theorem f64_getOpenSpots_isSome {b : Board} (hd : b.DirsOK) : (getOpenSpots b).isSome = true :=
  f64_spotsOfTiles_isSome b b.grid [] hd

theorem f64_open_spots_exist {b : Board} (hne : b.grid ≠ []) (hopen : hasOpenEnds b = some true) :
    getOpenSpots b ≠ some []
    ∧ (b.DirsOK → ∃ spot rest, getOpenSpots b = some (spot :: rest)) := by
  refine ⟨fun h => f64_getOpenSpots_ne_nil hne hopen h rfl, fun hd => ?_⟩
  obtain ⟨spots, hsp⟩ := Option.isSome_iff_exists.1 (f64_getOpenSpots_isSome hd)
  cases spots with
  | nil => exact absurd rfl (f64_getOpenSpots_ne_nil hne hopen hsp)
  | cons spot rest => exact ⟨spot, rest, hsp⟩

end F64

/-! ## Double precision: the scan for legal moves -/

theorem intRange_of_gt {lo hi : Int} (h : hi < lo) : intRange lo hi = [] := by
  unfold intRange
  have : (hi - lo + 1).toNat = 0 := Int.toNat_eq_zero.2 (by omega)
  rw [this]
  rfl

theorem intRange_of_le {lo hi : Int} (h : lo ≤ hi) :
    intRange lo hi = lo :: intRange (lo + 1) hi := by
  unfold intRange
  have e : (hi - lo + 1).toNat = (hi - (lo + 1) + 1).toNat + 1 := by omega
  rw [e, List.range_succ_eq_map, List.map_cons, List.map_map]
  congr 1
  · simp
  · apply List.map_congr_left
    intro i _
    simp only [Function.comp_apply, Nat.succ_eq_add_one, Nat.cast_add, Nat.cast_one]
    ring

namespace F64

theorem loopFrom_of_safe (fuel : Nat) : ∀ (v hi : Int), -(2 ^ 53 : Int) ≤ v → hi < 2 ^ 53 →
    (hi - v + 1).toNat ≤ fuel → loopFrom fuel v hi = some (intRange v hi) := by
  induction fuel with
  | zero =>
    intro v hi _ _ hf
    have hgt : hi < v := by omega
    unfold loopFrom
    rw [if_neg (by omega), intRange_of_gt hgt]
  | succ n ih =>
    intro v hi hv hhi hf
    unfold loopFrom
    by_cases hle : v ≤ hi
    · have hadd : add v 1 = v + 1 := round_of_le (by omega)
      rw [if_pos hle, hadd, if_neg (by omega), ih (v + 1) hi (by omega) hhi (by omega),
        intRange_of_le hle]
      rfl
    · rw [if_neg hle, intRange_of_gt (by omega)]

/-- Between `-2^53` and `2^53` the loop ends and runs through the integers from `lo` to `hi`. -/
theorem forRange_of_safe {lo hi : Int} (hlo : -(2 ^ 53 : Int) ≤ lo) (hhi : hi < 2 ^ 53) :
    forRange lo hi = some (intRange lo hi) :=
  loopFrom_of_safe _ lo hi hlo hhi (le_refl _)

theorem safeInt_one {x : Int} (h : SafeInt 1 x) : -(2 ^ 53 : Int) + 1 < x ∧ x + 1 < 2 ^ 53 := by
  obtain ⟨h1, h2⟩ := h
  simp only [Nat.cast_one] at h1 h2
  exact ⟨h1, h2⟩

theorem getValidPlacements_of_safe (board : Board) (tile : Tile) (moves : List Coord)
    (h1 : SafeInt 1 board.minX) (h2 : SafeInt 1 board.maxX) (h3 : SafeInt 1 board.minY)
    (h4 : SafeInt 1 board.maxY) :
    getValidPlacements board tile moves
      = some ((intRange (board.minY - 1) (board.maxY + 1)).flatMap (fun y =>
          scanRow board tile moves y (intRange (board.minX - 1) (board.maxX + 1)))) := by
  have a1 := safeInt_one h1
  have a2 := safeInt_one h2
  have a3 := safeInt_one h3
  have a4 := safeInt_one h4
  have e1 : sub board.minX 1 = board.minX - 1 := round_of_le (by omega)
  have e2 : add board.maxX 1 = board.maxX + 1 := round_of_le (by omega)
  have e3 : sub board.minY 1 = board.minY - 1 := round_of_le (by omega)
  have e4 : add board.maxY 1 = board.maxY + 1 := round_of_le (by omega)
  unfold getValidPlacements
  simp only [e1, e2, e3, e4]
  rw [forRange_of_safe (by omega) (by omega), forRange_of_safe (by omega) (by omega)]

theorem mem_scanRow {board : Board} {tile : Tile} {moves : List Coord} {y : Int} {xs : List Int}
    {q : Coord} : q ∈ scanRow board tile moves y xs ↔
      q.2 = y ∧ q.1 ∈ xs ∧ isValidPlacement board q.1 q.2 tile = true
        ∧ isValidTurnConstraint moves q.1 q.2 = true := by
  unfold scanRow
  simp only [List.mem_filterMap]
  obtain ⟨qx, qy⟩ := q
  constructor
  · rintro ⟨x', hx', h⟩
    by_cases hv : isValidPlacement board x' y tile = true
    · by_cases ht : isValidTurnConstraint moves x' y = true
      · simp only [hv, ht, if_true, Option.some.injEq, Prod.mk.injEq] at h
        obtain ⟨rfl, rfl⟩ := h
        exact ⟨rfl, hx', hv, ht⟩
      · simp [hv, ht] at h
    · simp [hv] at h
  · rintro ⟨hy, hx, hv, ht⟩
    simp only at hy hx hv ht
    subst hy
    exact ⟨qx, hx, by simp [hv, ht]⟩

end F64

namespace Board

theorem mem_step_grid {b : Board} {op : BoardOp} {e : Coord × Tile} (h : e ∈ (b.step op).grid) :
    e ∈ b.grid ∨ e.1 ∈ placedCoords [op] := by
  cases op with
  | remove x y => exact Or.inl (Grid.mem_of_mem_delete h)
  | place x y t =>
    rcases Grid.mem_set h with h1 | h1
    · exact Or.inl h1
    · right
      rw [h1]
      exact List.mem_singleton_self _

theorem placedCoords_cons (op : BoardOp) (ops : List BoardOp) :
    placedCoords (op :: ops) = placedCoords [op] ++ placedCoords ops := by
  cases op <;> rfl

theorem mem_run_grid (ops : List BoardOp) : ∀ (b : Board) (e : Coord × Tile),
    e ∈ (b.run ops).grid → e ∈ b.grid ∨ e.1 ∈ placedCoords ops := by
  induction ops with
  | nil => intro b e h; exact Or.inl h
  | cons op rest ih =>
    intro b e h
    rw [placedCoords_cons]
    rcases ih (b.step op) e h with h1 | h1
    · rcases mem_step_grid h1 with h2 | h2
      · exact Or.inl h2
      · exact Or.inr (List.mem_append_left _ h2)
    · exact Or.inr (List.mem_append_right _ h1)

end Board

namespace F64

theorem safeInt_zero_one : SafeInt 1 0 := by decide

/-- After calls that place at safe coordinates only, the tiles and the four bounds of the board
are safe. -/
theorem safe_run {ops : List BoardOp}
    (hs : ∀ q ∈ Board.placedCoords ops, SafeInt 1 q.1 ∧ SafeInt 1 q.2) :
    SafeBoard 1 (Board.new.run ops)
    ∧ SafeInt 1 (Board.new.run ops).minX ∧ SafeInt 1 (Board.new.run ops).maxX
    ∧ SafeInt 1 (Board.new.run ops).minY ∧ SafeInt 1 (Board.new.run ops).maxY := by
  obtain ⟨⟨-, -, a1⟩, ⟨-, -, a2⟩, ⟨-, -, a3⟩, ⟨-, -, a4⟩⟩ := Board.run_bounds ops Board.new
  refine ⟨?_, ?_, ?_, ?_, ?_⟩
  · intro e he
    rcases Board.mem_run_grid ops Board.new e he with h1 | h1
    · simp [Board.new] at h1
    · exact hs e.1 h1
  · rcases a1 with h | ⟨q, hq, h⟩
    · rw [h]; exact safeInt_zero_one
    · rw [← h]; exact (hs q hq).1
  · rcases a2 with h | ⟨q, hq, h⟩
    · rw [h]; exact safeInt_zero_one
    · rw [← h]; exact (hs q hq).1
  · rcases a3 with h | ⟨q, hq, h⟩
    · rw [h]; exact safeInt_zero_one
    · rw [← h]; exact (hs q hq).2
  · rcases a4 with h | ⟨q, hq, h⟩
    · rw [h]; exact safeInt_zero_one
    · rw [← h]; exact (hs q hq).2

/-- A cell the code accepts on a non-empty board of safe tiles is a safe coordinate: the sums
that found its neighbour were exact. -/
theorem safe_of_valid {b : Board} (hb : SafeBoard 1 b) (hne : b.grid ≠ []) {x y : Int} {t : Tile}
    (hv : isValidPlacement b x y t = true) : SafeInt 0 x ∧ SafeInt 0 y := by
  have hlen : b.grid.length > 0 := List.length_pos.2 hne
  unfold isValidPlacement at hv
  by_cases hocc : (b.getTile x y).isSome = true
  · rw [if_pos hocc] at hv
    cases hv
  · rw [if_neg hocc] at hv
    simp only at hv
    by_cases hn : (getNeighbors b x y).length = 0
    · rw [if_pos ⟨hlen, hn⟩] at hv
      cases hv
    · have hex : ∃ n, n ∈ getNeighbors b x y := by
        cases hl : getNeighbors b x y with
        | nil => rw [hl] at hn; exact absurd rfl hn
        | cons n rest => exact ⟨n, List.mem_cons_self _ _⟩
      obtain ⟨n, hmem⟩ := hex
      unfold getNeighbors at hmem
      rw [List.mem_filterMap] at hmem
      obtain ⟨d, hd, hget⟩ := hmem
      have hkey := hb _ (Grid.mem_of_get _ _ _ hget)
      simp only at hkey
      have kx := safeInt_one hkey.1
      have ky := safeInt_one hkey.2
      have ex : x + d.1 = add x d.1 :=
        add_eq_safe rfl (safeInt_mono hkey.1 (Nat.zero_le _))
      have ey : y + d.2 = add y d.2 :=
        add_eq_safe rfl (safeInt_mono hkey.2 (Nat.zero_le _))
      have hds : (-1 ≤ d.1 ∧ d.1 ≤ 1) ∧ (-1 ≤ d.2 ∧ d.2 ≤ 1) := by
        simp only [List.mem_cons, List.mem_singleton, List.not_mem_nil, or_false] at hd
        rcases hd with rfl | rfl | rfl | rfl <;> decide
      rw [← ex] at kx
      rw [← ey] at ky
      constructor
      · constructor
        · show -(2 ^ 53 : Int) + ((0 : Nat) : Int) < x
          simp only [Nat.cast_zero, add_zero]
          omega
        · show x + ((0 : Nat) : Int) < 2 ^ 53
          simp only [Nat.cast_zero, add_zero]
          omega
      · constructor
        · show -(2 ^ 53 : Int) + ((0 : Nat) : Int) < y
          simp only [Nat.cast_zero, add_zero]
          omega
        · show y + ((0 : Nat) : Int) < 2 ^ 53
          simp only [Nat.cast_zero, add_zero]
          omega

/-- After calls that place at safe coordinates only, on a board that holds a tile, every move
the code accepts lies within the bounds padded by 1, and the scan of `getValidPlacements` ends
and lists it when the turn rules pass. -/
theorem scan_covers {ops : List BoardOp}
    (hs : ∀ q ∈ Board.placedCoords ops, SafeInt 1 q.1 ∧ SafeInt 1 q.2)
    (hne : (Board.new.run ops).grid ≠ []) {x y : Int} {t : Tile}
    (hv : isValidPlacement (Board.new.run ops) x y t = true) :
    ((Board.new.run ops).minX - 1 ≤ x ∧ x ≤ (Board.new.run ops).maxX + 1
      ∧ (Board.new.run ops).minY - 1 ≤ y ∧ y ≤ (Board.new.run ops).maxY + 1)
    ∧ ∀ moves : List Coord, isValidTurnConstraint moves x y = true →
        ∃ cands, getValidPlacements (Board.new.run ops) t moves = some cands
          ∧ (x, y) ∈ cands := by
  obtain ⟨hb, b1, b2, b3, b4⟩ := safe_run hs
  obtain ⟨hx, hy⟩ := safe_of_valid hb hne hv
  have hv' : (Board.new.run ops).isValidPlacement x y t = true := by
    rw [← isValidPlacement_of_safe _ hx hy]
    exact hv
  have hbd := Board.valid_within_padded
    (Board.withinBounds_run ops Board.new Board.withinBounds_new) hne hv'
  refine ⟨hbd, fun moves ht => ⟨_, getValidPlacements_of_safe _ t moves b1 b2 b3 b4, ?_⟩⟩
  rw [List.mem_flatMap]
  exact ⟨y, mem_intRange.2 ⟨hbd.2.2.1, hbd.2.2.2⟩,
    mem_scanRow.2 ⟨rfl, mem_intRange.2 ⟨hbd.1, hbd.2.1⟩, hv, ht⟩⟩

end F64

/-! ## The rules of placement, in the code's arithmetic -/

namespace F64

theorem f64_isValidPlacement_new (x y : Int) (t : Tile) :
    isValidPlacement Board.new x y t = true := by
  have hget : ∀ a c : Int, Board.new.getTile a c = none := fun _ _ => rfl
  unfold isValidPlacement
  rw [hget]
  have hlen : ¬ (Board.new.grid.length > 0 ∧ (getNeighbors Board.new x y).length = 0) := by
    intro h
    exact absurd h.1 (by decide)
  simp only [Option.isSome_none, Bool.false_eq_true, if_false, if_neg hlen]
  rw [List.all_eq_true]
  intro row _
  unfold edgeMatches
  rw [hget]

end F64

/-- C4 as stated fails in the code beyond the safe integers. With a Straight of rotation 1 at
`(2^53, 0)`, the code accepts the same tile at `(2^53 + 2, 0)`, a coordinate that is a double:
its sum `x - 1` rounds to `2^53`, so the tile two cells away is taken for the left neighbour.
The board is not empty and none of the four cells next to `(2^53 + 2, 0)` is occupied, so
condition (2) of the claim fails while `isValidPlacement` returns true. -/
theorem C4_large_coordinate_counterexample :
    F64.round (2 ^ 53 + 2) = 2 ^ 53 + 2
    ∧ F64.add (2 ^ 53 + 2) (-1) = 2 ^ 53
    ∧ F64.isValidPlacement farStraightBoard (2 ^ 53 + 2) 0 ⟨.STRAIGHT, 1⟩ = true
    ∧ ¬ (farStraightBoard.grid = [] ∨ (farStraightBoard.getTile (2 ^ 53 + 2) (0 - 1)).isSome
          ∨ (farStraightBoard.getTile (2 ^ 53 + 2 + 1) 0).isSome
          ∨ (farStraightBoard.getTile (2 ^ 53 + 2) (0 + 1)).isSome
          ∨ (farStraightBoard.getTile (2 ^ 53 + 2 - 1) 0).isSome) :=
  ⟨by decide, by decide, by decide, by decide⟩

/-- C4, amended: for every board, every tile `t` and every coordinate `(x, y)` of safe integers
(`-2^53 < x, y < 2^53`), the code's `isValidPlacement(x, y, t)` returns true if and only if
(1) `(x, y)` is unoccupied, (2) the board is empty or one of the four orthogonal neighbours of
`(x, y)` is occupied, and (3) for every direction `d` in `0..3` whose neighbour cell holds a
tile `n`, `d` is in `t`'s connections exactly when `(d + 2) mod 4` is in `n`'s. On the empty
board it returns true for every coordinate and every tile. -/
theorem C4_isValidPlacement_iff_safe (b : Board) (x y : Int) (t : Tile)
    (hx : F64.SafeInt 0 x) (hy : F64.SafeInt 0 y) :
    (F64.isValidPlacement b x y t = true ↔
      b.getTile x y = none
      ∧ (b.grid = [] ∨ (b.getTile x (y - 1)).isSome ∨ (b.getTile (x + 1) y).isSome
          ∨ (b.getTile x (y + 1)).isSome ∨ (b.getTile (x - 1) y).isSome)
      ∧ ∀ d : Int, 0 ≤ d → d < 4 → ∀ n, b.neighborAt x y d = some n →
          (d ∈ t.getConnections ↔ (d + 2) % 4 ∈ n.getConnections))
    ∧ ∀ x' y' : Int, F64.isValidPlacement Board.new x' y' t = true :=
  ⟨(congrArg (fun v => v = true) (F64.isValidPlacement_of_safe b hx hy t)).to_iff.trans
      (Board.isValidPlacement_spec b x y t),
   fun x' y' => F64.f64_isValidPlacement_new x' y' t⟩

/-- C4 amended, at the board of the test 'Basic Loop Check' and the cell `(0, 1)`, where the
Curve of rotation 3 is accepted. -/
theorem C4_isValidPlacement_iff_safe_witness :
    F64.SafeInt 0 0 ∧ F64.SafeInt 0 1
    ∧ F64.isValidPlacement basicLoopBoard 0 1 ⟨.CURVE, 3⟩ = true
    ∧ (basicLoopBoard.getTile 0 1 = none
      ∧ (basicLoopBoard.grid = [] ∨ (basicLoopBoard.getTile 0 (1 - 1)).isSome
          ∨ (basicLoopBoard.getTile (0 + 1) 1).isSome
          ∨ (basicLoopBoard.getTile 0 (1 + 1)).isSome ∨ (basicLoopBoard.getTile (0 - 1) 1).isSome)
      ∧ ∀ d : Int, 0 ≤ d → d < 4 → ∀ n, basicLoopBoard.neighborAt 0 1 d = some n →
          (d ∈ (Tile.mk .CURVE 3).getConnections ↔ (d + 2) % 4 ∈ n.getConnections)) :=
  ⟨by decide, by decide, by decide,
   (C4_isValidPlacement_iff_safe basicLoopBoard 0 1 ⟨.CURVE, 3⟩ (by decide) (by decide)).1.1
     (by decide)⟩

/-! ## Open ends, in the code's arithmetic -/

/-- C6 as stated fails in two places. On the empty board, reachable by zero placements,
`hasOpenEnds()` returns true while no tile has a connection to leave dangling. Beyond the safe
integers, the board holding one Curve of rotation 0 at `(2^53, 2^53)` is reachable by one legal
placement and `hasOpenEnds()` returns false on it, because `x + 1` and `y + 1` round back to
`2^53` and the tile is found as its own neighbour, while its connections end nowhere. -/
theorem C6_hasOpenEnds_counterexamples :
    (F64.Reachable Board.new ∧ F64.hasOpenEnds Board.new = some true ∧ Board.new.AllTerminated)
    ∧ (F64.Reachable farCurveBoard ∧ farCurveBoard.grid ≠ []
      ∧ F64.add (2 ^ 53) 1 = 2 ^ 53
      ∧ F64.hasOpenEnds farCurveBoard = some false ∧ ¬ farCurveBoard.AllTerminated) := by
  refine ⟨⟨F64.Reachable.new, by decide, Board.allTerminated_new⟩,
    F64.Reachable.place Board.new (2 ^ 53) (2 ^ 53) _ F64.Reachable.new (by decide),
    by decide, by decide, by decide, ?_⟩
  intro h
  obtain ⟨n, hn, -⟩ := h (2 ^ 53) (2 ^ 53) ⟨.CURVE, 0⟩ (by decide) 1 (by decide)
  have hnone : farCurveBoard.neighborAt (2 ^ 53) (2 ^ 53) 1 = none := by decide
  rw [hnone] at hn
  cases hn

/-- C6, amended: for every non-empty board reachable from the empty board by legal placements
and holding tiles at coordinates of safe integers only (`-2^53 < x, y < 2^53`), the code's
`hasOpenEnds()` returns false iff every connection direction `d` of every tile on the board
points at an occupied neighbour cell whose tile has the connection `(d + 2) mod 4`. -/
theorem C6_hasOpenEnds_false_iff_safe (b : Board) (hr : F64.Reachable b) (hne : b.grid ≠ [])
    (hs : F64.SafeBoard 0 b) : F64.hasOpenEnds b = some false ↔ b.AllTerminated := by
  rw [F64.hasOpenEnds_of_safe hs]
  exact Board.hasOpenEnds_false_iff b
    (Board.keys_nodup_of_reachable (F64.reachable_of_safe hr hs))
    (Board.I2_of_reachable (F64.reachable_of_safe hr hs)) hne

/-- C6 amended, at the board holding one Curve at `(0, 0)`: it has open ends and its
connections are not all terminated. -/
theorem C6_hasOpenEnds_false_iff_safe_witness :
    F64.Reachable (Board.new.placeTile 0 0 ⟨.CURVE, 0⟩)
    ∧ (Board.new.placeTile 0 0 ⟨.CURVE, 0⟩).grid ≠ []
    ∧ F64.SafeBoard 0 (Board.new.placeTile 0 0 ⟨.CURVE, 0⟩)
    ∧ F64.hasOpenEnds (Board.new.placeTile 0 0 ⟨.CURVE, 0⟩) = some true
    ∧ (F64.hasOpenEnds (Board.new.placeTile 0 0 ⟨.CURVE, 0⟩) = some false
        ↔ (Board.new.placeTile 0 0 ⟨.CURVE, 0⟩).AllTerminated) :=
  ⟨F64.Reachable.place _ 0 0 ⟨.CURVE, 0⟩ F64.Reachable.new (by decide), by decide, by decide,
   by decide,
   C6_hasOpenEnds_false_iff_safe _
     (F64.Reachable.place _ 0 0 ⟨.CURVE, 0⟩ F64.Reachable.new (by decide)) (by decide)
     (by decide)⟩

/-! ## The unfillable gap -/

namespace Solver

theorem isPossible_throws_badRotation (c : Nat) (hc : 0 < c) :
    isPossible badRotationBoard 0 c = none := by
  have h1 : badRotationBoard.clone.hasOpenEnds = some true := by decide
  have h2 : getOpenSpots badRotationBoard.clone = none := by decide
  have hz : ¬ (True ∧ c = 0) := by omega
  unfold isPossible
  simp only
  rw [solve_eq_solveBody]
  unfold solveBody
  rw [h1]
  simp only
  rw [if_neg hz, h2]
  rfl

end Solver

/-- C10 as stated fails on a board that holds a tile whose rotation is outside `0..3`, which
`setRotation` of a negative number produces. Below the board of the test 'Impossible Scene' the
Curve after `setRotation(-2)` is a legal placement at `(0, 3)`. On the board with it, the cell
`(0, 1)` is still unoccupied, pointed at by the Straight at `(0, 0)`, and unfit for a Curve in
any rotation `0..3`; yet `Solver.isPossible(board, 0, c)` for `c > 0` does not return false: it
throws, when `getOpenSpots` reads `offsets[-1].dx`. -/
theorem C10_bad_rotation_counterexample :
    impossibleSceneBoard.isValidPlacement 0 3 ((Tile.new .CURVE).setRotation (-2)) = true
    ∧ ((Tile.new .CURVE).setRotation (-2)).getConnections = [-1, 0]
    ∧ badRotationBoard.getTile 0 1 = none
    ∧ badRotationBoard.PointedAt 0 1
    ∧ (∀ r : Int, 0 ≤ r → r < 4 → badRotationBoard.isValidPlacement 0 1 ⟨.CURVE, r⟩ = false)
    ∧ Solver.getOpenSpots badRotationBoard = none
    ∧ (∀ c : Nat, 0 < c → Solver.isPossible badRotationBoard 0 c = none)
    ∧ F64.isPossible badRotationBoard 0 10 = none :=
  ⟨by decide, by decide, by decide,
   ⟨((0, 0), ⟨.STRAIGHT, 0⟩), by decide, 2, by decide, (0, 1), by decide, by decide⟩,
   fun r h0 h4 => by interval_cases r <;> decide,
   by decide, Solver.isPossible_throws_badRotation, by decide⟩

/-- C10, amended: on a board all of whose tiles have their rotation in `0..3`, that has an
unoccupied cell `(x, y)` pointed at by the connection of some tile and at which no Curve in any
rotation `0..3` is a legal placement, `Solver.isPossible(board, 0, c)` returns false for every
`c`. This holds of the search with exact sums, and so of the code's search in double precision
whenever the coordinates on the board stay more than `c + 1` below `2^53` in size. -/
theorem C10_unfillable_gap (b : Board) (x y : Int)
    (hrot : ∀ e ∈ b.grid, 0 ≤ e.2.rotation ∧ e.2.rotation < 4)
    (hfree : b.getTile x y = none) (hp : b.PointedAt x y)
    (hno : ∀ r : Int, 0 ≤ r → r < 4 → b.isValidPlacement x y ⟨.CURVE, r⟩ = false) (c : Nat) :
    Solver.isPossible b 0 c = some false
    ∧ (F64.SafeBoard (c + 1) b → F64.isPossible b 0 c = some false) :=
  ⟨Solver.isPossible_blocked b x y hrot hfree hp hno c, fun hs => by
    have hs' : F64.SafeBoard (0 + c + 1) b := by rw [Nat.zero_add]; exact hs
    rw [F64.isPossible_of_safe hs']
    exact Solver.isPossible_blocked b x y hrot hfree hp hno c⟩

/-- C10 at the board of the test 'Impossible Scene': Straights of rotation 0 at `(0, 0)` and
`(0, 2)`, the gap `(0, 1)`, no Straight and ten Curves in hand. -/
theorem C10_unfillable_gap_witness :
    (∀ e ∈ impossibleSceneBoard.grid, 0 ≤ e.2.rotation ∧ e.2.rotation < 4)
    ∧ impossibleSceneBoard.getTile 0 1 = none
    ∧ impossibleSceneBoard.PointedAt 0 1
    ∧ (∀ r : Int, 0 ≤ r → r < 4 →
        impossibleSceneBoard.isValidPlacement 0 1 ⟨.CURVE, r⟩ = false)
    ∧ Solver.isPossible impossibleSceneBoard 0 10 = some false
    ∧ F64.isPossible impossibleSceneBoard 0 10 = some false :=
  have hrot : ∀ e ∈ impossibleSceneBoard.grid, 0 ≤ e.2.rotation ∧ e.2.rotation < 4 := by
    decide
  have hp : impossibleSceneBoard.PointedAt 0 1 :=
    ⟨((0, 0), ⟨.STRAIGHT, 0⟩), by decide, 2, by decide, (0, 1), by decide, by decide⟩
  have hno : ∀ r : Int, 0 ≤ r → r < 4 →
      impossibleSceneBoard.isValidPlacement 0 1 ⟨.CURVE, r⟩ = false := by
    intro r h0 h4
    interval_cases r <;> decide
  ⟨hrot, by decide, hp, hno,
   (C10_unfillable_gap impossibleSceneBoard 0 1 hrot (by decide) hp hno 10).1,
   (C10_unfillable_gap impossibleSceneBoard 0 1 hrot (by decide) hp hno 10).2 (by decide)⟩

/-! ## Open spots -/

/-- C16 fails in the code on the empty board, against the comment on that branch of
`solve` ('if hasOpenEnds is true, openSpots must be > 0'): I2 holds there, `hasOpenEnds()`
returns true, `getOpenSpots` returns the empty list, and `solve` with tiles in hand takes the
`openSpots.length === 0` branch and returns false. On every non-empty board for which
`hasOpenEnds()` returns true, `getOpenSpots` does not return the empty list: it returns a
non-empty list when every connection on the board is a direction `0..3`, and otherwise may
throw, as on the board of a Straight at `(0, 0)` and a Curve after `setRotation(-2)` at
`(0, 1)`, which is reachable by legal placements and satisfies I2. -/
theorem C16_empty_board_no_open_spot :
    (Board.new.I2 ∧ F64.hasOpenEnds Board.new = some true
      ∧ F64.getOpenSpots Board.new = some []
      ∧ F64.solve Board.new 0 4 = some (false, Board.new)
      ∧ Solver.solve Board.new 0 4 = some (false, Board.new))
    ∧ (∀ b : Board, b.grid ≠ [] → F64.hasOpenEnds b = some true →
        F64.getOpenSpots b ≠ some []
        ∧ (b.DirsOK → ∃ spot rest, F64.getOpenSpots b = some (spot :: rest)))
    ∧ (Board.Reachable badSpotBoard ∧ badSpotBoard.I2
      ∧ F64.hasOpenEnds badSpotBoard = some true ∧ F64.getOpenSpots badSpotBoard = none) :=
  have hr : Board.Reachable badSpotBoard :=
    Board.Reachable.place _ 0 1 _
      (Board.Reachable.place _ 0 0 _ Board.Reachable.new (by decide)) (by decide)
  ⟨⟨Board.I2_new, by decide, by decide, by decide, by decide⟩,
   fun _ hne hopen => F64.f64_open_spots_exist hne hopen,
   hr, Board.I2_of_reachable hr, by decide, by decide⟩

/-! ## The bounds and the scan for legal moves -/

/-- C18 as stated fails in the code beyond the safe integers. After `placeTile(2^53, 0, tile)`
on a new board the board holds a tile and `maxX` is `2^53`; the code accepts a Straight of
rotation 1 at `(2^53 + 2, 0)`, which lies beyond `maxX + 1`, whether that sum is exact or
rounded as in the code, where it is `2^53`. -/
theorem C18_large_coordinate_counterexample :
    (Board.new.run [.place (2 ^ 53) 0 ⟨.STRAIGHT, 1⟩]).grid ≠ []
    ∧ (Board.new.run [.place (2 ^ 53) 0 ⟨.STRAIGHT, 1⟩]).maxX = 2 ^ 53
    ∧ F64.round (2 ^ 53 + 2) = 2 ^ 53 + 2
    ∧ F64.isValidPlacement (Board.new.run [.place (2 ^ 53) 0 ⟨.STRAIGHT, 1⟩]) (2 ^ 53 + 2) 0
        ⟨.STRAIGHT, 1⟩ = true
    ∧ ¬ ((2 ^ 53 + 2 : Int) ≤ (Board.new.run [.place (2 ^ 53) 0 ⟨.STRAIGHT, 1⟩]).maxX + 1)
    ∧ ¬ ((2 ^ 53 + 2 : Int)
          ≤ F64.add (Board.new.run [.place (2 ^ 53) 0 ⟨.STRAIGHT, 1⟩]).maxX 1) :=
  ⟨by decide, by decide, by decide, by decide, by decide, by decide⟩

/-- C18, amended: on a board that holds at least one tile and was produced from a new board by
`placeTile` and `removeTile` calls that placed at coordinates `-2^53 + 1 < x, y < 2^53 - 1`
only, every `(x, y)` and tile `t` for which the code's `isValidPlacement(x, y, t)` returns true
has `minX - 1 <= x <= maxX + 1` and `minY - 1 <= y <= maxY + 1`; and the scan of
`CPU.getValidPlacements` ends and lists every such placement that passes the turn rules. -/
theorem C18_bounds_cover_safe_moves (ops : List BoardOp) (x y : Int) (t : Tile)
    (hs : ∀ q ∈ Board.placedCoords ops, F64.SafeInt 1 q.1 ∧ F64.SafeInt 1 q.2)
    (hne : (Board.new.run ops).grid ≠ [])
    (hv : F64.isValidPlacement (Board.new.run ops) x y t = true) :
    ((Board.new.run ops).minX - 1 ≤ x ∧ x ≤ (Board.new.run ops).maxX + 1
      ∧ (Board.new.run ops).minY - 1 ≤ y ∧ y ≤ (Board.new.run ops).maxY + 1)
    ∧ ∀ moves : List Coord, F64.isValidTurnConstraint moves x y = true →
        ∃ cands, F64.getValidPlacements (Board.new.run ops) t moves = some cands
          ∧ (x, y) ∈ cands :=
  F64.scan_covers hs hne hv

/-- C18 after placing at `(5, 5)` and `(5, 6)` and removing `(5, 5)`: the bounds are
`0..5` by `0..6`, and the legal move `(5, 7)` lies in the scan. -/
theorem C18_bounds_cover_safe_moves_witness :
    (∀ q ∈ Board.placedCoords [.place 5 5 ⟨.STRAIGHT, 0⟩, .place 5 6 ⟨.STRAIGHT, 0⟩,
        .remove 5 5], F64.SafeInt 1 q.1 ∧ F64.SafeInt 1 q.2)
    ∧ (Board.new.run [.place 5 5 ⟨.STRAIGHT, 0⟩, .place 5 6 ⟨.STRAIGHT, 0⟩, .remove 5 5]).maxY
        = 6
    ∧ ∃ cands, F64.getValidPlacements
        (Board.new.run [.place 5 5 ⟨.STRAIGHT, 0⟩, .place 5 6 ⟨.STRAIGHT, 0⟩, .remove 5 5])
        ⟨.STRAIGHT, 0⟩ [] = some cands ∧ (5, 7) ∈ cands :=
  ⟨by decide, by decide,
   (C18_bounds_cover_safe_moves
     [.place 5 5 ⟨.STRAIGHT, 0⟩, .place 5 6 ⟨.STRAIGHT, 0⟩, .remove 5 5]
     5 7 ⟨.STRAIGHT, 0⟩ (by decide) (by decide) (by decide)).2 [] (by decide)⟩

end VenieConnect
